import Mathlib

/-! yq tree traversal: a shallow embedding of `pkg/yqlib/treeops/leaf_traverser.go`.

The Go code works on a graph of `*yaml.Node` pointers that it mutates in place.
The embedding makes the store explicit: a `Heap` is the list of allocated
nodes, a pointer is an index into it, `&yaml.Node{...}` allocates at the end of
the list and a write through a pointer replaces the cell.  Pointers are plain
natural numbers; one that does not resolve plays the part of `nil`:
dereferencing it is a runtime panic.

Every function returns the heap it leaves behind together with an `Outcome`
(the Go result pair, or a runtime panic).

Slices are lists: `append(s, x)` is the list `s ++ [x]`.  The one place where
Go's slices behave otherwise is a loop that appends to `candidate.Path` more
than once: when that slice has spare capacity (`cap > len`) no pass allocates,
every pass writes the same slot of the one backing array, and the paths of all
the candidates the loop built read the value of the last pass.  A candidate
here is a value and does not record the capacity of its path, so every
function that appends to `candidate.Path` takes it as an argument, `spare`:
`true` when `cap(candidate.Path) > len(candidate.Path)`.  Indices are
unbounded integers: the only sum the traverser computes is a length plus a
negative index, which cannot overflow an `int64`.
-/

namespace yaml

/-- The type `yaml.Kind` (a `uint32`); `0` is the zero value of a fresh node. -/
abbrev Kind := Nat

def DocumentNode : Kind := 1
def SequenceNode : Kind := 2
def MappingNode : Kind := 4
def ScalarNode : Kind := 8
def AliasNode : Kind := 16

/-- The struct `yaml.Node`; every field defaults to its Go zero value, so
`({} : Node)` is `yaml.Node{}`. -/
structure Node where
  Kind : Kind := 0
  Style : Nat := 0
  Tag : String := ""
  Value : String := ""
  Anchor : String := ""
  Alias : Option Nat := none
  Content : List Nat := []
  HeadComment : String := ""
  LineComment : String := ""
  FootComment : String := ""
  Line : Int := 0
  Column : Int := 0
deriving DecidableEq, Repr

/-- The store of allocated nodes. -/
abbrev Heap := List Node

/-- Dereference a pointer; `none` stands for a nil dereference. -/
def Heap.deref (h : Heap) (p : Nat) : Option Node := h[p]?

/-- Allocation `&yaml.Node{...}`: the new node goes to the end of the store. -/
def Heap.alloc (h : Heap) (n : Node) : Heap × Nat := (h ++ [n], h.length)

/-- Write through a pointer. -/
def Heap.write (h : Heap) (p : Nat) (n : Node) : Heap := h.set p n

end yaml

namespace treeops

open yaml

/-- One segment of a candidate's `Path []interface{}`: the code appends key
texts (`string`), splat positions (`int`) and requested indices (`int64`). -/
inductive PathSegment where
  | str (s : String)
  | int (i : Int)
  | int64 (i : Int)
deriving DecidableEq, Repr

/-- The struct `CandidateNode` of package treeops, with the three fields the
traverser fills in. -/
structure CandidateNode where
  Node : Nat
  Path : List PathSegment := []
  Document : Nat := 0
deriving DecidableEq, Repr

/-- The dynamic value of `PathElement.Value` (an `interface{}`): the traverser
tells apart strings, `int`, `int64` and everything else. -/
inductive PathValue where
  | str (s : String)
  | int (i : Int)
  | int64 (i : Int)
  | other
deriving DecidableEq, Repr

/-- The struct `PathElement`, with the two fields the traverser reads. -/
structure PathElement where
  Value : PathValue
  StringValue : String := ""
deriving DecidableEq, Repr

/-- What a call leaves in its result pair: `ok ms` is `(ms, nil)`, `error msg`
is `(nil, fmt.Errorf(msg))`, `panic` is a Go runtime panic (index out of range,
nil dereference, failed type assertion). -/
inductive Outcome where
  | ok (newMatches : List CandidateNode)
  | error (msg : String)
  | panic
deriving DecidableEq, Repr

/-- The comparison `pathNode.Value == "[]"` on an `interface{}`. -/
def isSplat (pathNode : PathElement) : Bool :=
  match pathNode.Value with
  | .str s => s == "[]"
  | _ => false

/-- The method `traverser.keyMatches`; the glob matcher `Match` of the package
is a parameter. -/
def keyMatches (Match : String → String → Bool) (key : Node) (pathNode : PathElement) : Bool :=
  isSplat pathNode || Match key.Value pathNode.StringValue

/-- The paths of the candidates that one loop built, as they read when the
loop is over.  Every pass of the loop evaluates `append(candidate.Path, x)`.
Without spare capacity each pass allocates an array of its own and the paths
stay as they were built.  With spare capacity every pass writes `x` into the
slot behind the last element of `candidate.Path`, in the one backing array all
the results share: every path reads what the last pass wrote.  Nothing reads a
path between two passes, so applying this once, after the loop, gives the paths
exactly as the candidates hold them when the method returns. -/
def sharePaths (spare : Bool) (newMatches : List CandidateNode) : List CandidateNode :=
  if spare then
    match newMatches.getLast? with
    | none => newMatches
    | some last => newMatches.map fun m => { m with Path := last.Path }
  else
    newMatches

/-- The scan of `traverseMap` (lines 37-50) over the not yet visited part of
`contents`; `none` is the panic of `contents[index+1]` on a dangling key or of
`key.Value` on a nil key.  Each candidate is listed with the path its own pass
appended; `traverseMap` applies `sharePaths` to the list when the scan is
over. -/
def traverseMapLoop (Match : String → String → Bool) (h : Heap) (candidate : CandidateNode)
    (pathNode : PathElement) : List Nat → List CandidateNode → Option (List CandidateNode)
  | [], newMatches => some newMatches
  | [_], _ => none
  | key :: value :: rest, newMatches =>
    match h.deref key with
    | none => none
    | some k =>
      if keyMatches Match k pathNode then
        traverseMapLoop Match h candidate pathNode rest
          (newMatches ++ [{ Node := value, Path := candidate.Path ++ [.str k.Value],
                            Document := candidate.Document }])
      else
        traverseMapLoop Match h candidate pathNode rest newMatches

/-- The method `traverser.traverseMap`; `spare` tells whether `candidate.Path`
has spare capacity. -/
def traverseMap (Match : String → String → Bool) (spare : Bool) (h : Heap)
    (candidate : CandidateNode) (pathNode : PathElement) : Heap × Outcome :=
  match h.deref candidate.Node with
  | none => (h, .panic)
  | some node =>
    match traverseMapLoop Match h candidate pathNode node.Content [] with
    | none => (h, .panic)
    | some newMatches =>
      if newMatches.length = 0 then
        let (h1, valueNode) := h.alloc {}
        let (h2, keyNode) := h1.alloc { Kind := ScalarNode, Value := pathNode.StringValue }
        let h3 := h2.write candidate.Node { node with Content := node.Content ++ [keyNode, valueNode] }
        (h3, .ok [{ Node := valueNode, Path := candidate.Path ++ [.str pathNode.StringValue],
                    Document := candidate.Document }])
      else
        (h, .ok (sharePaths spare newMatches))

/-- The splat loop of `traverseArray` (lines 73-79), from position `index` on.
Each candidate is listed with the path its own pass appended; `traverseArray`
applies `sharePaths` to the list when the loop is over. -/
def splatLoop (candidate : CandidateNode) : Nat → List Nat → List CandidateNode
  | _, [] => []
  | index, p :: rest =>
    { Node := p, Path := candidate.Path ++ [.int index], Document := candidate.Document }
      :: splatLoop candidate (index + 1) rest

/-- The extension loop of `traverseArray` (lines 87-90): while
`contentLength <= index`, append a fresh `yaml.Node{}`.  Each pass lengthens
the content by one, so `index + 1 - contentLength` passes are its whole run;
the first argument counts the passes that remain. -/
def extendLoop : Nat → Heap → Nat → Int → Heap
  | 0, h, _, _ => h
  | passes + 1, h, p, index =>
    match h.deref p with
    | none => h
    | some node =>
      if (node.Content.length : Int) ≤ index then
        let (h1, fresh) := h.alloc {}
        extendLoop passes (h1.write p { node with Content := node.Content ++ [fresh] }) p index
      else h

/-- The method `traverser.traverseArray`; `spare` tells whether
`candidate.Path` has spare capacity. -/
def traverseArray (spare : Bool) (h : Heap) (candidate : CandidateNode)
    (pathNode : PathElement) : Heap × Outcome :=
  match h.deref candidate.Node with
  | none => (h, .panic)
  | some node =>
    if isSplat pathNode then
      (h, .ok (sharePaths spare (splatLoop candidate 0 node.Content)))
    else
      match pathNode.Value with
      | .int64 index =>
        let h1 := extendLoop (index + 1 - (node.Content.length : Int)).toNat h candidate.Node index
        match h1.deref candidate.Node with
        | none => (h1, .panic)
        | some node1 =>
          let contentLength : Int := node1.Content.length
          let indexToUse : Int := if index < 0 then contentLength + index else index
          if indexToUse < 0 then
            (h1, .error ("Index [" ++ toString index ++ "] out of range, array size is "
                          ++ toString contentLength))
          else
            match node1.Content[indexToUse.toNat]? with
            | none => (h1, .panic)
            | some p =>
              (h1, .ok [{ Node := p, Document := candidate.Document,
                          Path := candidate.Path ++ [.int64 index] }])
      | _ => (h, .panic)

/-- The kind guessed for a node of unset kind (lines 115-122). -/
def guessKind (pathNode : PathElement) : Kind :=
  match pathNode.Value with
  | .int _ => SequenceNode
  | .int64 _ => SequenceNode
  | _ => MappingNode

/-- The method `traverser.Traverse`.  The first argument tells whether
`matchingNode.Path` has spare capacity, the second bounds the depth of the
recursion through Document nodes; `none` means the bound was reached.  The
candidate built for the root of a Document has no `Path`: a nil slice, without
capacity. -/
def Traverse (Match : String → String → Bool) :
    Bool → Nat → Heap → CandidateNode → PathElement → Option (Heap × Outcome)
  | _, 0, _, _, _ => none
  | spare, depth + 1, h, matchingNode, pathNode =>
    match h.deref matchingNode.Node with
    | none => some (h, .panic)
    | some value0 =>
      let value : Node := if value0.Kind = 0 then { value0 with Kind := guessKind pathNode } else value0
      let h1 : Heap := if value0.Kind = 0 then h.write matchingNode.Node value else h
      if value.Kind = MappingNode then
        some (traverseMap Match spare h1 matchingNode pathNode)
      else if value.Kind = SequenceNode then
        some (traverseArray spare h1 matchingNode pathNode)
      else if value.Kind = DocumentNode then
        match value.Content with
        | [] => some (h1, .panic)
        | root :: _ =>
          Traverse Match false depth h1 { Node := root, Document := matchingNode.Document }
            pathNode
      else
        some (h1, .ok [])

/-- Modelled from the spec: the glob matcher `Match` of package treeops, which
is not among the sources.  `*` matches zero or more characters, `?` exactly
one; the match is case-sensitive and anchored at both ends.  The pattern comes
first, the text second. -/
def globMatch : List Char → List Char → Bool
  | [], text => text.isEmpty
  | p :: ps, text =>
    if p == '*' then text.tails.any (fun rest => globMatch ps rest)
    else
      match text with
      | [] => false
      | c :: cs => (p == '?' || c == p) && globMatch ps cs

/-- Modelled from the spec: `Match(candidate_text, pattern)`. -/
def Match (text pattern : String) : Bool := globMatch pattern.data text.data

end treeops

/-! ## Specification-side vocabulary for mappings -/

namespace treeops

open yaml

/-- The key/value pairs of a mapping's content: pair `i` is
`(content[2*i], content[2*i+1])`. -/
def contentPairs : List Nat → List (Nat × Nat)
  | key :: value :: rest => (key, value) :: contentPairs rest
  | _ => []

/-- The text of the key node behind a pointer. -/
def keyText (h : Heap) (key : Nat) : String :=
  match h.deref key with
  | some k => k.Value
  | none => ""

/-- A pair matches a selector: the selector is the splat `"[]"` or the glob
matcher accepts the key text against the selector's `StringValue`. -/
def pairMatches (Match : String → String → Bool) (h : Heap) (s : PathElement)
    (kv : Nat × Nat) : Bool :=
  isSplat s || Match (keyText h kv.1) s.StringValue

/-- The candidate a matching pair stands for: the value node, the parent's
path followed by the key text, the parent's document index. -/
def valueCandidate (h : Heap) (c : CandidateNode) (kv : Nat × Nat) : CandidateNode :=
  { Node := kv.2, Path := c.Path ++ [.str (keyText h kv.1)], Document := c.Document }

/-- A selector text without glob metacharacters. -/
abbrev isLiteral (pattern : String) : Prop := '*' ∉ pattern.data ∧ '?' ∉ pattern.data

end treeops

/-! ## Specification-side vocabulary for the effect on the heap -/

namespace treeops

open yaml

/-- The heap `h1` differs from `h` by appending only: every node of `h` is
still there, its old content is a prefix of its new content, and when the node
is a Sequence afterwards, every appended element is a node of unset kind with
all fields at their zero value. -/
def AppendsOnly (h h1 : Heap) : Prop :=
  ∀ p n, h.deref p = some n →
    ∃ n1, h1.deref p = some n1 ∧ n.Content <+: n1.Content
      ∧ (n1.Kind = SequenceNode →
          ∀ q ∈ n1.Content.drop n.Content.length, h1.deref q = some {})

end treeops

/-! ## Specification-side vocabulary for well-formed trees -/

namespace treeops

open yaml

/-- The premises of the totality claim as it is stated, and no more: below the
pointer `p` the heap holds a finite tree of height at most `height` (every
content pointer resolves, and no chain of content pointers is longer than
`height`) in which every Mapping has content of even length and every Document
has at least one child. -/
def asClaimedTree : Nat → Heap → Nat → Bool
  | 0, _, _ => false
  | height + 1, h, p =>
    match h.deref p with
    | none => false
    | some node =>
      (if node.Kind = MappingNode then decide (node.Content.length % 2 = 0) else true)
      && (if node.Kind = DocumentNode then !node.Content.isEmpty else true)
      && node.Content.all (fun q => asClaimedTree height h q)

/-- The trees `Traverse` is total on under the selector `s`: as in
`asClaimedTree`, and in addition a node of unset kind that the selector makes a
Mapping (the kind guessed for `s` is Mapping) has content of even length. -/
def wellFormedTree (s : PathElement) : Nat → Heap → Nat → Bool
  | 0, _, _ => false
  | height + 1, h, p =>
    match h.deref p with
    | none => false
    | some node =>
      (if node.Kind = MappingNode ∨ (node.Kind = 0 ∧ guessKind s = MappingNode) then
          decide (node.Content.length % 2 = 0)
        else true)
      && (if node.Kind = DocumentNode then !node.Content.isEmpty else true)
      && node.Content.all (fun q => wellFormedTree s height h q)

end treeops

/-! ## Example documents -/

namespace examples

open yaml treeops

/-- The value of `a` in the document `a: {cat: apple, mad: things}`:
node 0 is the mapping, 1 and 3 its keys, 2 and 4 their values. -/
def wildHeap : Heap :=
  [ { Kind := MappingNode, Tag := "!!map", Content := [1, 2, 3, 4] },
    { Kind := ScalarNode, Tag := "!!str", Value := "cat" },
    { Kind := ScalarNode, Tag := "!!str", Value := "apple" },
    { Kind := ScalarNode, Tag := "!!str", Value := "mad" },
    { Kind := ScalarNode, Tag := "!!str", Value := "things" } ]

/-- The candidate for the value of `a`, at path `[a]` of document 0. -/
def atA : CandidateNode := { Node := 0, Path := [.str "a"], Document := 0 }

/-- A candidate three levels down, as for the value of `c` in
`a: {b: {c: ...}}`.  Its path `[a b c]` was built by three appends, one per
level, which leaves a slice of length 3 in a backing array of capacity 4
(capacities 1, 2, 4): the slice has spare capacity. -/
def atABC : CandidateNode :=
  { Node := 0, Path := [.str "a", .str "b", .str "c"], Document := 0 }

/-- The glob selector `*a*`. -/
def globA : PathElement := { Value := .str "*a*", StringValue := "*a*" }

/-- The value of `a` in the document `a: {c: apple}`. -/
def mismatchHeap : Heap :=
  [ { Kind := MappingNode, Tag := "!!map", Content := [1, 2] },
    { Kind := ScalarNode, Tag := "!!str", Value := "c" },
    { Kind := ScalarNode, Tag := "!!str", Value := "apple" } ]

/-- The literal selector `b`. -/
def literalB : PathElement := { Value := .str "b", StringValue := "b" }

/-- An empty mapping, the document `{}`. -/
def emptyMapHeap : Heap := [ { Kind := MappingNode, Tag := "!!map" } ]

/-- The candidate for a document's root value. -/
def atRoot : CandidateNode := { Node := 0, Path := [], Document := 0 }

/-- The splat selector `[]`. -/
def splat : PathElement := { Value := .str "[]", StringValue := "[]" }

/-- The glob selector `z*`, which matches neither `cat` nor `mad`. -/
def globZ : PathElement := { Value := .str "z*", StringValue := "z*" }

/-- The document `[apple, sdfsd, apple]`: node 0 is the sequence. -/
def fruitHeap : Heap :=
  [ { Kind := SequenceNode, Tag := "!!seq", Content := [1, 2, 3] },
    { Kind := ScalarNode, Tag := "!!str", Value := "apple" },
    { Kind := ScalarNode, Tag := "!!str", Value := "sdfsd" },
    { Kind := ScalarNode, Tag := "!!str", Value := "apple" } ]

/-- The index selector for position `i`. -/
def indexSel (i : Int) : PathElement := { Value := .int64 i, StringValue := toString i }

/-- A heap with one freshly allocated node, of unset kind. -/
def unsetHeap : Heap := [ {} ]

/-- The document `a: {c: apple}` with its Document node: node 0 is the
document, node 1 its root mapping, 2 the key `a`, 3 the mapping `{c: apple}`,
4 the key `c`, 5 the scalar `apple`. -/
def docHeap : Heap :=
  [ { Kind := DocumentNode, Content := [1] },
    { Kind := MappingNode, Tag := "!!map", Content := [2, 3] },
    { Kind := ScalarNode, Tag := "!!str", Value := "a" },
    { Kind := MappingNode, Tag := "!!map", Content := [4, 5] },
    { Kind := ScalarNode, Tag := "!!str", Value := "c" },
    { Kind := ScalarNode, Tag := "!!str", Value := "apple" } ]

/-- The literal selector `a`. -/
def literalA : PathElement := { Value := .str "a", StringValue := "a" }

/-- A candidate for the scalar `apple` of `docHeap`. -/
def atApple : CandidateNode := { Node := 5, Path := [.str "a", .str "c"], Document := 0 }

/-- A candidate for the Document node of `docHeap` that carries a path. -/
def docWithPath : CandidateNode := { Node := 0, Path := [.str "x"], Document := 0 }

/-- A mapping `{a: apple}` whose key is node 1; node 2 is another scalar `a`,
from another line, that the mapping does not use. -/
def keyOneHeap : Heap :=
  [ { Kind := MappingNode, Tag := "!!map", Content := [1, 3] },
    { Kind := ScalarNode, Tag := "!!str", Value := "a", Line := 1 },
    { Kind := ScalarNode, Tag := "!!str", Value := "a", Line := 7 },
    { Kind := ScalarNode, Tag := "!!str", Value := "apple" } ]

/-- The same nodes, but the mapping's key is node 2. -/
def keyTwoHeap : Heap :=
  [ { Kind := MappingNode, Tag := "!!map", Content := [2, 3] },
    { Kind := ScalarNode, Tag := "!!str", Value := "a", Line := 1 },
    { Kind := ScalarNode, Tag := "!!str", Value := "a", Line := 7 },
    { Kind := ScalarNode, Tag := "!!str", Value := "apple" } ]

/-- A node of unset kind that has one child, the scalar `x`. -/
def unsetOddHeap : Heap :=
  [ { Content := [1] },
    { Kind := ScalarNode, Tag := "!!str", Value := "x" } ]

end examples

/-! ## A shallow embedding of `pkg/yqlib/candidate_node_yaml.go`

`UnmarshalYAML` and `MarshalYAML` build a new tree from the one they are given
and share nothing with it, so here a `yaml.Node` and a `CandidateNode` are tree
values.

The children pass through two methods of yaml.v3, `Node.Decode` and
`Node.Encode`, which are not code of this repository and do more than call
back: `Decode` unwraps documents, follows aliases and skips scalars that
resolve to null before it reaches `UnmarshalYAML`, and `Encode` serialises what
`MarshalYAML` returns and parses the text again.  Neither is modelled.  Both
are parameters of the functions that call them, and every statement holds for
all of them:
`Decode childNode newChild` is what `childNode.Decode(newChild)` leaves in
`newChild` when it returns a nil error, or the error it returns, or a panic;
`Encode x` is what `child.Encode(x)` leaves in the fresh `child`, or its error,
or a panic.
-/

namespace yaml

def TaggedStyle : Nat := 1
def DoubleQuotedStyle : Nat := 2
def SingleQuotedStyle : Nat := 4
def LiteralStyle : Nat := 8
def FoldedStyle : Nat := 16
def FlowStyle : Nat := 32

/-- The nine fields that `copyFromYamlNode` and `copyToYamlNode` copy between a
`yaml.Node` and a `CandidateNode`; both structs declare them.  `Style` is a
`yaml.Style` in the former and a yqlib `Style` in the latter. -/
structure Fields where
  Style : Nat := 0
  Tag : String := ""
  Value : String := ""
  Anchor : String := ""
  HeadComment : String := ""
  LineComment : String := ""
  FootComment : String := ""
  Line : Int := 0
  Column : Int := 0
deriving DecidableEq, Repr

/-- A `yaml.Node` with the nodes below it, as a tree value. -/
inductive NodeTree where
  | mk (Kind : Kind) (fields : Fields) (Content : List NodeTree)

def NodeTree.Kind : NodeTree → Kind
  | .mk kind _ _ => kind

def NodeTree.fields : NodeTree → Fields
  | .mk _ fields _ => fields

def NodeTree.Content : NodeTree → List NodeTree
  | .mk _ _ content => content

end yaml

namespace yqlib

/-- The constants of type `Style` of package yqlib, which are declared outside
the sources: a parameter of every function that uses them. -/
structure StyleConstants where
  TaggedStyle : Nat
  DoubleQuotedStyle : Nat
  SingleQuotedStyle : Nat
  LiteralStyle : Nat
  FoldedStyle : Nat
  FlowStyle : Nat
deriving DecidableEq, Repr

/-- The function `MapYamlStyle`. -/
def MapYamlStyle (t : StyleConstants) (original : Nat) : Nat :=
  if original = yaml.TaggedStyle then t.TaggedStyle
  else if original = yaml.DoubleQuotedStyle then t.DoubleQuotedStyle
  else if original = yaml.SingleQuotedStyle then t.SingleQuotedStyle
  else if original = yaml.LiteralStyle then t.LiteralStyle
  else if original = yaml.FoldedStyle then t.FoldedStyle
  else if original = yaml.FlowStyle then t.FlowStyle
  else 0

/-- The function `MapToYamlStyle`. -/
def MapToYamlStyle (t : StyleConstants) (original : Nat) : Nat :=
  if original = t.TaggedStyle then yaml.TaggedStyle
  else if original = t.DoubleQuotedStyle then yaml.DoubleQuotedStyle
  else if original = t.SingleQuotedStyle then yaml.SingleQuotedStyle
  else if original = t.LiteralStyle then yaml.LiteralStyle
  else if original = t.FoldedStyle then yaml.FoldedStyle
  else if original = t.FlowStyle then yaml.FlowStyle
  else 0

/-- Modelled from the spec: the type `Kind` of package yqlib, declared outside
the sources.  A node is a Scalar, Mapping, Sequence, Alias or Document, or of
the unset kind, the zero value. -/
inductive Kind where
  | unset
  | DocumentNode
  | SequenceNode
  | MappingNode
  | ScalarNode
  | AliasNode
deriving DecidableEq, Repr

/-- The struct `CandidateNode` of package yqlib with the nodes below it, as a
tree value: the kind, the copied fields, the is-map-key flag, the key
back-reference and the content. -/
inductive CandidateNode where
  | mk (Kind : Kind) (fields : yaml.Fields) (IsMapKey : Bool) (Key : Option CandidateNode)
      (Content : List CandidateNode)

namespace CandidateNode

def Kind : CandidateNode → yqlib.Kind
  | .mk kind _ _ _ _ => kind

def fields : CandidateNode → yaml.Fields
  | .mk _ fields _ _ _ => fields

def IsMapKey : CandidateNode → Bool
  | .mk _ _ isMapKey _ _ => isMapKey

def Key : CandidateNode → Option CandidateNode
  | .mk _ _ _ key _ => key

def Content : CandidateNode → List CandidateNode
  | .mk _ _ _ _ content => content

def setKind (kind : yqlib.Kind) : CandidateNode → CandidateNode
  | .mk _ fields isMapKey key content => .mk kind fields isMapKey key content

def setFields (fields : yaml.Fields) : CandidateNode → CandidateNode
  | .mk kind _ isMapKey key content => .mk kind fields isMapKey key content

def setIsMapKey (isMapKey : Bool) : CandidateNode → CandidateNode
  | .mk kind fields _ key content => .mk kind fields isMapKey key content

def setKey (c key : CandidateNode) : CandidateNode :=
  match c with
  | .mk kind fields isMapKey _ content => .mk kind fields isMapKey (some key) content

def setContent (content : List CandidateNode) : CandidateNode → CandidateNode
  | .mk kind fields isMapKey key _ => .mk kind fields isMapKey key content

/-- The zero value `CandidateNode{}`. -/
def zero : CandidateNode := .mk .unset {} false none []

end CandidateNode

/-- Modelled from the spec: the method `CreateChild`, which is not among the
sources.  Candidate nodes are produced fresh: the child starts with every
field that the model keeps at its zero value. -/
def CreateChild (_o : CandidateNode) : CandidateNode := CandidateNode.zero

/-- What a call returns: a value with a nil error, an error, or a runtime
panic. -/
inductive Result (α : Type) where
  | ok (value : α)
  | error (msg : String)
  | panic

/-- Go on with the value of a call that returned a nil error; an error is
returned to the caller (`if err != nil { return err }`) and a panic unwinds. -/
def Result.bind {α β : Type} : Result α → (α → Result β) → Result β
  | .ok value, f => f value
  | .error msg, _ => .error msg
  | .panic, _ => .panic

/-- The method `copyFromYamlNode`: the fields it writes into `o`. -/
def copyFromYamlNode (t : StyleConstants) (node : yaml.Fields) : yaml.Fields :=
  { Style := MapYamlStyle t node.Style
    Tag := node.Tag
    Value := node.Value
    Anchor := node.Anchor
    HeadComment := node.HeadComment
    LineComment := node.LineComment
    FootComment := node.FootComment
    Line := node.Line
    Column := node.Column }

/-- The method `copyToYamlNode`: the fields it writes into `node`. -/
def copyToYamlNode (t : StyleConstants) (o : yaml.Fields) : yaml.Fields :=
  { Style := MapToYamlStyle t o.Style
    Tag := o.Tag
    Value := o.Value
    Anchor := o.Anchor
    HeadComment := o.HeadComment
    LineComment := o.LineComment
    FootComment := o.FootComment
    Line := o.Line
    Column := o.Column }

/-- The method `decodeIntoChild`; `Decode` is yaml.v3's `Node.Decode`. -/
def decodeIntoChild (t : StyleConstants)
    (Decode : yaml.NodeTree → CandidateNode → Result CandidateNode)
    (o : CandidateNode) (childNode : yaml.NodeTree) : Result CandidateNode :=
  let newChild := CreateChild o
  if childNode.fields.Tag = "!!null" then
    .ok ((newChild.setKind .ScalarNode).setFields (copyFromYamlNode t childNode.fields))
  else
    Decode childNode newChild

/-- The call `o.decodeIntoChild(node.Content[0])` of the Document case. -/
def decodeFirstChild (t : StyleConstants)
    (Decode : yaml.NodeTree → CandidateNode → Result CandidateNode) (o : CandidateNode) :
    List yaml.NodeTree → Result CandidateNode
  | [] => .panic
  | first :: _ => decodeIntoChild t Decode o first

/-- The loop of the Mapping case (lines 129-147) over the part of
`node.Content` not yet visited; `node.Content[i+1]` panics on a last key
without a value. -/
def unmarshalMappingContent (t : StyleConstants)
    (Decode : yaml.NodeTree → CandidateNode → Result CandidateNode) (o : CandidateNode) :
    List yaml.NodeTree → Result (List CandidateNode)
  | [] => .ok []
  | [key] => (decodeIntoChild t Decode o key).bind fun _ => .panic
  | key :: value :: rest =>
    (decodeIntoChild t Decode o key).bind fun keyNode0 =>
      let keyNode := keyNode0.setIsMapKey true
      (decodeIntoChild t Decode o value).bind fun valueNode0 =>
        let valueNode := valueNode0.setKey keyNode
        (unmarshalMappingContent t Decode o rest).bind fun children =>
          .ok (keyNode :: valueNode :: children)

/-- The loop of the Sequence case (lines 154-168), from position `i` on. -/
def unmarshalSequenceContent (t : StyleConstants)
    (Decode : yaml.NodeTree → CandidateNode → Result CandidateNode) (o : CandidateNode) :
    Nat → List yaml.NodeTree → Result (List CandidateNode)
  | _, [] => .ok []
  | i, child :: rest =>
    let keyNode := (((CreateChild o).setIsMapKey true).setFields
      { (CreateChild o).fields with Tag := "!!int", Value := toString i }).setKind .ScalarNode
    (decodeIntoChild t Decode o child).bind fun valueNode0 =>
      let valueNode := valueNode0.setKey keyNode
      (unmarshalSequenceContent t Decode o (i + 1) rest).bind fun children =>
        .ok (valueNode :: children)

/-- The method `UnmarshalYAML`, on the receiver `o`. -/
def UnmarshalYAML (t : StyleConstants)
    (Decode : yaml.NodeTree → CandidateNode → Result CandidateNode) (o : CandidateNode)
    (node : yaml.NodeTree) : Result CandidateNode :=
  if node.Kind = yaml.DocumentNode then
    let o1 := (o.setKind .DocumentNode).setFields (copyFromYamlNode t node.fields)
    if node.Content.length = 0 then .ok o1
    else
      (decodeFirstChild t Decode o1 node.Content).bind fun singleChild =>
        .ok (o1.setContent [singleChild])
  else if node.Kind = yaml.AliasNode then
    .ok ((o.setKind .AliasNode).setFields (copyFromYamlNode t node.fields))
  else if node.Kind = yaml.ScalarNode then
    .ok ((o.setKind .ScalarNode).setFields (copyFromYamlNode t node.fields))
  else if node.Kind = yaml.MappingNode then
    let o1 := (o.setKind .MappingNode).setFields (copyFromYamlNode t node.fields)
    (unmarshalMappingContent t Decode o1 node.Content).bind fun children =>
      .ok (o1.setContent children)
  else if node.Kind = yaml.SequenceNode then
    let o1 := (o.setKind .SequenceNode).setFields (copyFromYamlNode t node.fields)
    (unmarshalSequenceContent t Decode o1 0 node.Content).bind fun children =>
      .ok (o1.setContent children)
  else if node.Kind = 0 then
    .ok (o.setFields (copyFromYamlNode t node.fields))
  else
    .error "orderedMap: invalid yaml node"

/-- The loop of the Mapping and Sequence case of `MarshalYAML` (lines
212-221); `Encode` is yaml.v3's `Node.Encode`. -/
def marshalContent (Encode : CandidateNode → Result yaml.NodeTree) :
    List CandidateNode → Result (List yaml.NodeTree)
  | [] => .ok []
  | child :: rest =>
    (Encode child).bind fun node =>
      (marshalContent Encode rest).bind fun children => .ok (node :: children)

/-- The method `MarshalYAML`; in the Document case `o.Content[0]` panics on an
empty content. -/
def MarshalYAML (t : StyleConstants) (Encode : CandidateNode → Result yaml.NodeTree)
    (o : CandidateNode) : Result yaml.NodeTree :=
  match o.Kind with
  | .DocumentNode =>
    match o.Content with
    | [] => .panic
    | first :: _ =>
      (Encode first).bind fun singleChild =>
        .ok (.mk yaml.DocumentNode (copyToYamlNode t o.fields) [singleChild])
  | .AliasNode => .ok (.mk yaml.AliasNode (copyToYamlNode t o.fields) [])
  | .ScalarNode => .ok (.mk yaml.ScalarNode (copyToYamlNode t o.fields) [])
  | .MappingNode =>
    (marshalContent Encode o.Content).bind fun nodes =>
      .ok (.mk yaml.MappingNode (copyToYamlNode t o.fields) nodes)
  | .SequenceNode =>
    (marshalContent Encode o.Content).bind fun nodes =>
      .ok (.mk yaml.SequenceNode (copyToYamlNode t o.fields) nodes)
  | .unset => .ok (.mk 0 (copyToYamlNode t o.fields) [])

end yqlib

/-! ## Specification-side vocabulary for the round trip -/

namespace yaml

mutual

/-- The premises of the round-trip claim as it is stated, and no more: no
Alias node, every Mapping has content of even length, every Document has
exactly one child, every node tagged `!!null` is a Scalar. -/
def NodeTree.asClaimed : NodeTree → Bool
  | .mk kind fields content =>
    (if fields.Tag = "!!null" then decide (kind = ScalarNode) else true)
    && !decide (kind = AliasNode)
    && (if kind = MappingNode then decide (content.length % 2 = 0) else true)
    && (if kind = DocumentNode then decide (content.length = 1) else true)
    && NodeTree.asClaimedList content

/-- Every tree of the list meets the premises of the claim. -/
def NodeTree.asClaimedList : List NodeTree → Bool
  | [] => true
  | node :: rest => NodeTree.asClaimed node && NodeTree.asClaimedList rest

end

end yaml

/-! ## The navigator's selector leaf and union, modelled from the spec -/

namespace treeops

open yaml

/-- Modelled from the spec: the path-element tree of the navigator, which is
not among the sources, with the two variants the union property needs: a
selector leaf and a union of two operands. -/
inductive PathTree where
  | selector (s : PathElement)
  | union (lhs rhs : PathTree)

/-- Modelled from the spec: de-duplication by node identity.  The first
occurrence of each underlying node is kept and later ones are dropped, in
first-seen order. -/
def dedupByNode : List CandidateNode → List CandidateNode
  | [] => []
  | c :: rest => c :: (dedupByNode rest).filter (fun d => d.Node != c.Node)

/-- Modelled from the spec: the selector leaf of the navigator.  Each input
candidate is delegated to the leaf traverser, the results are concatenated in
input order, and a traversal failure aborts the evaluation.  The candidates of
the spec are values; `spare` tells the traverser of the code which of them have
a path slice with spare capacity. -/
def traverseAll (Match : String → String → Bool) (spare : CandidateNode → Bool) (depth : Nat) :
    Heap → List CandidateNode → PathElement → Option (Heap × Outcome)
  | h, [], _ => some (h, .ok [])
  | h, c :: rest, s =>
    match Traverse Match (spare c) depth h c s with
    | none => none
    | some (h1, .ok found) =>
      match traverseAll Match spare depth h1 rest s with
      | none => none
      | some (h2, .ok more) => some (h2, .ok (found ++ more))
      | some (h2, .error msg) => some (h2, .error msg)
      | some (h2, .panic) => some (h2, .panic)
    | some (h1, .error msg) => some (h1, .error msg)
    | some (h1, .panic) => some (h1, .panic)

/-- Modelled from the spec: `evaluate` of the navigator on a selector leaf and
on a union.  A union evaluates both operands against the same input, the left
one first, concatenates the results and de-duplicates them by node identity. -/
def evaluate (Match : String → String → Bool) (spare : CandidateNode → Bool) (depth : Nat) :
    Heap → List CandidateNode → PathTree → Option (Heap × Outcome)
  | h, input, .selector s => traverseAll Match spare depth h input s
  | h, input, .union lhs rhs =>
    match evaluate Match spare depth h input lhs with
    | none => none
    | some (h1, .ok left) =>
      match evaluate Match spare depth h1 input rhs with
      | none => none
      | some (h2, .ok right) => some (h2, .ok (dedupByNode (left ++ right)))
      | some (h2, .error msg) => some (h2, .error msg)
      | some (h2, .panic) => some (h2, .panic)
    | some (h1, .error msg) => some (h1, .error msg)
    | some (h1, .panic) => some (h1, .panic)

end treeops

namespace examples

open yaml

/-- An assignment of the yqlib style constants: the values of yaml.v3. -/
def yqStyles : yqlib.StyleConstants :=
  { TaggedStyle := 1, DoubleQuotedStyle := 2, SingleQuotedStyle := 4, LiteralStyle := 8,
    FoldedStyle := 16, FlowStyle := 32 }

/-- The style of a tagged, double-quoted scalar such as `!!str "x"`:
`yaml.TaggedStyle | yaml.DoubleQuotedStyle`. -/
def taggedDoubleQuoted : Nat := TaggedStyle ||| DoubleQuotedStyle

/-- The document `a: [x, ~]` as a yaml node tree, with its Document node. -/
def sampleDocument : NodeTree :=
  .mk DocumentNode { Line := 1, Column := 1 }
    [ .mk MappingNode { Tag := "!!map", Line := 1, Column := 1 }
        [ .mk ScalarNode { Tag := "!!str", Value := "a", Line := 1, Column := 1 } [],
          .mk SequenceNode { Tag := "!!seq", Style := FlowStyle, Line := 1, Column := 4 }
            [ .mk ScalarNode { Tag := "!!str", Value := "x", Style := DoubleQuotedStyle,
                               Line := 1, Column := 5 } [],
              .mk ScalarNode { Tag := "!!null", Value := "~", Line := 1, Column := 8 } [] ] ] ]

/-- The mapping `{a: x, b: y}` as a yaml node tree. -/
def sampleMapping : NodeTree :=
  .mk MappingNode { Tag := "!!map" }
    [ .mk ScalarNode { Tag := "!!str", Value := "a" } [],
      .mk ScalarNode { Tag := "!!str", Value := "x" } [],
      .mk ScalarNode { Tag := "!!str", Value := "b" } [],
      .mk ScalarNode { Tag := "!!str", Value := "y" } [] ]

/-- A node whose kind is none of the constants of yaml.v3. -/
def invalidKindNode : NodeTree := .mk 3 {} []

/-- A Scalar node that has a child. -/
def scalarWithChild : NodeTree :=
  .mk ScalarNode { Tag := "!!str", Value := "a" }
    [ .mk ScalarNode { Tag := "!!str", Value := "b" } [] ]

/-- The literal selector `cat`. -/
def literalCat : treeops.PathElement := { Value := .str "cat", StringValue := "cat" }

/-- The candidate for the value of `cat` in `a: {cat: apple, mad: things}`. -/
def catCandidate : treeops.CandidateNode :=
  { Node := 2, Path := [.str "a", .str "cat"], Document := 0 }

/-- The null `~` of a flow sequence as a yaml node: a Scalar tagged `!!null`. -/
def nullScalar : NodeTree :=
  .mk ScalarNode { Tag := "!!null", Value := "~", Line := 1, Column := 8 } []

/-- A Document node with no children, `yaml.Node{Kind: yaml.DocumentNode}`. -/
def emptyDocument : NodeTree := .mk DocumentNode {} []

/-- The scalar `!!null "~"` as a yaml node: an explicit tag on a double-quoted
scalar, so its style is `yaml.TaggedStyle | yaml.DoubleQuotedStyle`. -/
def taggedNullScalar : NodeTree :=
  .mk ScalarNode { Tag := "!!null", Value := "~", Style := taggedDoubleQuoted,
                   Line := 1, Column := 4 } []

/-- A `Decode` for the examples, for children that have no children of their
own: it hands the node to `UnmarshalYAML`. -/
def scalarDecode (childNode : NodeTree) (newChild : yqlib.CandidateNode) :
    yqlib.Result yqlib.CandidateNode :=
  yqlib.UnmarshalYAML yqStyles (fun _ _ => .error "children are not decoded") newChild childNode

/-- An `Encode` for the examples, for candidates that have no children: it
returns what `MarshalYAML` returns. -/
def scalarEncode (x : yqlib.CandidateNode) : yqlib.Result NodeTree :=
  yqlib.MarshalYAML yqStyles (fun _ => .error "children are not encoded") x

/-- The heap of `[apple, sdfsd, apple]` after index `5` was traversed: three
placeholders of unset kind were allocated and appended to the sequence. -/
def extendedFruitHeap : Heap :=
  [ { Kind := SequenceNode, Tag := "!!seq", Content := [1, 2, 3, 4, 5, 6] },
    { Kind := ScalarNode, Tag := "!!str", Value := "apple" },
    { Kind := ScalarNode, Tag := "!!str", Value := "sdfsd" },
    { Kind := ScalarNode, Tag := "!!str", Value := "apple" }, {}, {}, {} ]

end examples

/-! ## The heap -/

namespace yaml

theorem Heap.deref_lt {h : Heap} {p : Nat} {n : Node} (hp : h.deref p = some n) :
    p < h.length := by
  unfold Heap.deref at hp
  exact (List.getElem?_eq_some.mp hp).1

theorem Heap.deref_write_same (h : Heap) (p : Nat) (n : Node) (hp : p < h.length) :
    (h.write p n).deref p = some n := by
  unfold Heap.deref Heap.write
  exact List.getElem?_set_self hp

theorem Heap.deref_write_other (h : Heap) (p q : Nat) (n : Node) (hne : p ≠ q) :
    (h.write p n).deref q = h.deref q := by
  unfold Heap.deref Heap.write
  exact List.getElem?_set_ne hne

theorem Heap.deref_append_old (h t : Heap) (q : Nat) (hq : q < h.length) :
    Heap.deref (h ++ t) q = h.deref q := by
  unfold Heap.deref
  exact List.getElem?_append_left hq

theorem Heap.deref_append_new (h t : Heap) (i : Nat) :
    Heap.deref (h ++ t) (h.length + i) = t[i]? := by
  unfold Heap.deref
  rw [List.getElem?_append_right (Nat.le_add_right _ _), Nat.add_sub_cancel_left]

theorem Heap.write_append_write (h t : Heap) (p : Nat) (a b : Node) (hp : p < h.length) :
    Heap.write (Heap.write h p a ++ t) p b = Heap.write (h ++ t) p b := by
  unfold Heap.write
  apply List.ext_getElem?
  intro i
  by_cases hi : p = i
  · subst hi
    rw [List.getElem?_set_self (by simp; omega), List.getElem?_set_self (by simp; omega)]
  · rw [List.getElem?_set_ne hi, List.getElem?_set_ne hi]
    by_cases hlt : i < h.length
    · rw [List.getElem?_append_left (by simpa using hlt), List.getElem?_append_left hlt,
        List.getElem?_set_ne hi]
    · rw [List.getElem?_append_right (by simpa using hlt), List.getElem?_append_right (by omega),
        List.length_set]

theorem Heap.write_self (h : Heap) (p : Nat) (n : Node) (hp : h.deref p = some n) :
    h.write p n = h := by
  unfold Heap.deref at hp
  unfold Heap.write
  apply List.ext_getElem?
  intro i
  by_cases hi : p = i
  · subst hi
    rw [List.getElem?_set_self (List.getElem?_eq_some.mp hp).1, hp]
  · rw [List.getElem?_set_ne hi]

end yaml

/-! ## Paths that share a backing array -/

namespace treeops

open yaml

/-- Without spare capacity the paths stay as they were built. -/
theorem sharePaths_false (ms : List CandidateNode) : sharePaths false ms = ms := by
  simp [sharePaths]

theorem sharePaths_length (spare : Bool) (ms : List CandidateNode) :
    (sharePaths spare ms).length = ms.length := by
  unfold sharePaths
  cases spare
  · simp
  · cases ms.getLast? <;> simp

/-- Each candidate that `sharePaths` leaves is one of the candidates built,
with the path of one of them (its own without spare capacity). -/
theorem sharePaths_mem (spare : Bool) (ms : List CandidateNode) (r : CandidateNode)
    (hr : r ∈ sharePaths spare ms) :
    ∃ m ∈ ms, ∃ l ∈ ms, r = { m with Path := l.Path } ∧ (spare = false → r = m) := by
  unfold sharePaths at hr
  cases spare with
  | false => exact ⟨r, by simpa using hr, r, by simpa using hr, rfl, fun _ => rfl⟩
  | true =>
    cases hlast : ms.getLast? with
    | none =>
      rw [hlast] at hr
      exact ⟨r, by simpa using hr, r, by simpa using hr, rfl, fun hf => by simp at hf⟩
    | some last =>
      rw [hlast] at hr
      simp only [if_true, List.mem_map] at hr
      obtain ⟨m, hm, hrm⟩ := hr
      exact ⟨m, hm, last, List.mem_of_getLast?_eq_some hlast, hrm.symm,
        fun hf => by simp at hf⟩

end treeops

/-! ## Mappings -/

namespace treeops

open yaml

theorem contentPairs_length : ∀ (l : List Nat), (contentPairs l).length = l.length / 2
  | [] => rfl
  | [_] => by simp [contentPairs]
  | _ :: _ :: rest => by
    simp only [contentPairs, List.length_cons, contentPairs_length rest]
    omega

theorem contentPairs_getElem? : ∀ (l : List Nat) (i : Nat) (hi : 2 * i + 1 < l.length),
    (contentPairs l)[i]? = some (l[2 * i], l[2 * i + 1])
  | [], _, hi => by simp at hi
  | [_], _, hi => by simp at hi
  | key :: value :: rest, 0, _ => by simp [contentPairs]
  | key :: value :: rest, i + 1, hi => by
    have hi2 : 2 * i + 1 < rest.length := by simp at hi; omega
    have ih := contentPairs_getElem? rest i hi2
    simp only [contentPairs, List.getElem?_cons_succ, ih]
    have e1 : 2 * (i + 1) = (2 * i) + 1 + 1 := by omega
    have e2 : 2 * (i + 1) + 1 = (2 * i + 1) + 1 + 1 := by omega
    simp [e1, e2]

/-- The scan returns the accumulated matches followed by one candidate per
matching pair, in content order. -/
theorem traverseMapLoop_eq (Match : String → String → Bool) (h : Heap) (c : CandidateNode)
    (s : PathElement) : ∀ (content : List Nat) (acc : List CandidateNode),
    content.length % 2 = 0 → (∀ p ∈ content, p < h.length) →
    traverseMapLoop Match h c s content acc
      = some (acc ++ ((contentPairs content).filter (pairMatches Match h s)).map
          (valueCandidate h c))
  | [], acc, _, _ => by simp [traverseMapLoop, contentPairs]
  | [_], _, heven, _ => by simp at heven
  | key :: value :: rest, acc, heven, hall => by
    have heven2 : rest.length % 2 = 0 := by simp at heven; omega
    have hall2 : ∀ p ∈ rest, p < h.length := fun p hp => hall p (by simp [hp])
    have hkey : key < h.length := hall key (by simp)
    have hk : h.deref key = some h[key] := by
      unfold Heap.deref; exact List.getElem?_eq_getElem hkey
    have htext : keyText h key = h[key].Value := by simp [keyText, hk]
    by_cases hm : keyMatches Match h[key] s = true
    · have hp : pairMatches Match h s (key, value) = true := by
        simpa [pairMatches, keyMatches, htext] using hm
      simp only [traverseMapLoop, hk, hm, if_true, contentPairs, List.filter_cons, hp,
        List.map_cons, traverseMapLoop_eq Match h c s rest _ heven2 hall2]
      simp [valueCandidate, htext]
    · have hp : pairMatches Match h s (key, value) = false := by
        simpa [pairMatches, keyMatches, htext] using hm
      simp only [traverseMapLoop, hk, hm, contentPairs, List.filter_cons, hp,
        traverseMapLoop_eq Match h c s rest _ heven2 hall2]
      simp

/-- On a node of kind Mapping, `Traverse` is `traverseMap`. -/
theorem Traverse_mapping (Match : String → String → Bool) (spare : Bool) (depth : Nat) (h : Heap)
    (c : CandidateNode) (s : PathElement) (node : Node)
    (hnode : h.deref c.Node = some node) (hkind : node.Kind = MappingNode) :
    Traverse Match spare (depth + 1) h c s = some (traverseMap Match spare h c s) := by
  simp [Traverse, hnode, hkind, MappingNode]

/-- On a node of kind Sequence, `Traverse` is `traverseArray`. -/
theorem Traverse_sequence (Match : String → String → Bool) (spare : Bool) (depth : Nat) (h : Heap)
    (c : CandidateNode) (s : PathElement) (node : Node)
    (hnode : h.deref c.Node = some node) (hkind : node.Kind = SequenceNode) :
    Traverse Match spare (depth + 1) h c s = some (traverseArray spare h c s) := by
  simp [Traverse, hnode, hkind, MappingNode, SequenceNode]

end treeops

namespace treeops

open yaml

/-- With at least one matching pair, `traverseMap` returns the matches, their
paths as `sharePaths` leaves them, and leaves the heap alone. -/
theorem traverseMap_of_match (Match : String → String → Bool) (spare : Bool) (h : Heap)
    (c : CandidateNode)
    (s : PathElement) (node : Node) (hnode : h.deref c.Node = some node)
    (heven : node.Content.length % 2 = 0) (hptr : ∀ p ∈ node.Content, p < h.length)
    (hmatch : ∃ kv ∈ contentPairs node.Content, pairMatches Match h s kv = true) :
    traverseMap Match spare h c s
      = (h, .ok (sharePaths spare
          (((contentPairs node.Content).filter (pairMatches Match h s)).map
            (valueCandidate h c)))) := by
  obtain ⟨kv, hkv, hm⟩ := hmatch
  have hne : ((contentPairs node.Content).filter (pairMatches Match h s)).map
      (valueCandidate h c) ≠ [] := by
    intro hnil
    have hmem : kv ∈ (contentPairs node.Content).filter (pairMatches Match h s) :=
      List.mem_filter.mpr ⟨hkv, hm⟩
    rw [List.map_eq_nil_iff] at hnil
    rw [hnil] at hmem
    simp at hmem
  have hlen : ¬ (((contentPairs node.Content).filter (pairMatches Match h s)).map
      (valueCandidate h c)).length = 0 := by
    intro h0
    exact hne (List.length_eq_zero.mp h0)
  simp only [traverseMap, hnode, traverseMapLoop_eq Match h c s node.Content [] heven hptr,
    List.nil_append, if_neg hlen]

/-- With no matching pair, `traverseMap` allocates a value node and a key node
and appends the pair to the mapping's content. -/
theorem traverseMap_of_no_match (Match : String → String → Bool) (spare : Bool) (h : Heap)
    (c : CandidateNode)
    (s : PathElement) (node : Node) (hnode : h.deref c.Node = some node)
    (heven : node.Content.length % 2 = 0) (hptr : ∀ p ∈ node.Content, p < h.length)
    (hnone : ∀ kv ∈ contentPairs node.Content, pairMatches Match h s kv = false) :
    traverseMap Match spare h c s
      = (Heap.write ((h ++ [({} : Node)]) ++ [{ Kind := ScalarNode, Value := s.StringValue }])
            c.Node
            { node with Content := node.Content ++ [h.length + 1, h.length] },
         .ok [{ Node := h.length, Path := c.Path ++ [.str s.StringValue],
                Document := c.Document }]) := by
  have hnil : (contentPairs node.Content).filter (pairMatches Match h s) = [] := by
    rw [List.filter_eq_nil_iff]
    intro kv hkv
    simp [hnone kv hkv]
  simp [traverseMap, hnode, traverseMapLoop_eq Match h c s node.Content [] heven hptr, hnil,
    Heap.alloc]

/-- What `Traverse` returns on a mapping with content of even length when at
least one key/value pair matches: without error and without touching the heap,
one candidate per matching pair, in content order (duplicated keys included),
with the pair's value node and the parent's document index.  Each pass appends
the parent's path followed by the key text of its pair; the paths read as
`sharePaths` leaves them, so with spare capacity they all end in the key text
of the last matching pair. -/
theorem traverse_mapping_returns_matching_pairs (Match : String → String → Bool) (spare : Bool)
    (depth : Nat) (h : Heap) (c : CandidateNode) (s : PathElement) (node : Node)
    (hnode : h.deref c.Node = some node) (hkind : node.Kind = MappingNode)
    (heven : node.Content.length % 2 = 0) (hptr : ∀ p ∈ node.Content, p < h.length)
    (hmatch : ∃ kv ∈ contentPairs node.Content, pairMatches Match h s kv = true) :
    Traverse Match spare (depth + 1) h c s
      = some (h, .ok (sharePaths spare
          (((contentPairs node.Content).filter (pairMatches Match h s)).map
            (fun kv => { Node := kv.2, Path := c.Path ++ [.str (keyText h kv.1)],
                         Document := c.Document })))) := by
  rw [Traverse_mapping Match spare depth h c s node hnode hkind,
    traverseMap_of_match Match spare h c s node hnode heven hptr hmatch]
  rfl

/-- An instance: `a.*a*` on `a: {cat: apple, mad: things}`, where the path
`[a]` has no spare capacity, yields the two values, at paths `[a cat]` and
`[a mad]`. -/
theorem traverse_mapping_returns_matching_pairs_witness :
    Traverse Match false 1 examples.wildHeap examples.atA examples.globA
      = some (examples.wildHeap,
          .ok [{ Node := 2, Path := [.str "a", .str "cat"], Document := 0 },
               { Node := 4, Path := [.str "a", .str "mad"], Document := 0 }]) :=
  traverse_mapping_returns_matching_pairs Match false 0 examples.wildHeap examples.atA examples.globA
    { Kind := MappingNode, Tag := "!!map", Content := [1, 2, 3, 4] }
    (by decide) (by decide) (by decide) (by decide) (by decide)

/-- Evaluation for C1 at the failing input: the glob `*a*` on the mapping
`{cat: apple, mad: things}`, reached at the path `[a b c]` whose slice has
spare capacity.  Both pairs match and `Traverse` returns their value nodes, but
both candidates carry the path `[a b c mad]`: the candidate for `cat` does not
have the parent's path followed by its own key text.  The same call on a path
without spare capacity returns the paths `[a b c cat]` and `[a b c mad]`. -/
theorem mapping_matches_share_the_last_key :
    Traverse Match true 1 examples.wildHeap examples.atABC examples.globA
        = some (examples.wildHeap,
            .ok [{ Node := 2, Path := [.str "a", .str "b", .str "c", .str "mad"], Document := 0 },
                 { Node := 4, Path := [.str "a", .str "b", .str "c", .str "mad"],
                   Document := 0 }])
    ∧ (contentPairs [1, 2, 3, 4]).filter (pairMatches Match examples.wildHeap examples.globA)
        = [(1, 2), (3, 4)]
    ∧ examples.atABC.Path ++ [.str (keyText examples.wildHeap 1)]
        = [.str "a", .str "b", .str "c", .str "cat"]
    ∧ Traverse Match false 1 examples.wildHeap examples.atABC examples.globA
        = some (examples.wildHeap,
            .ok [{ Node := 2, Path := [.str "a", .str "b", .str "c", .str "cat"], Document := 0 },
                 { Node := 4, Path := [.str "a", .str "b", .str "c", .str "mad"],
                   Document := 0 }]) := by
  refine ⟨by decide, by decide, by decide, by decide⟩

/-- The effect of auto-creation on the heap, shared by the statements about
selectors without a match. -/
theorem traverse_mapping_autocreates_pair_aux (Match : String → String → Bool) (spare : Bool)
    (depth : Nat) (h : Heap) (c : CandidateNode) (s : PathElement) (node : Node)
    (hnode : h.deref c.Node = some node) (hkind : node.Kind = MappingNode)
    (heven : node.Content.length % 2 = 0) (hptr : ∀ p ∈ node.Content, p < h.length)
    (hnone : ∀ kv ∈ contentPairs node.Content, pairMatches Match h s kv = false) :
    ∃ h1 : Heap,
      Traverse Match spare (depth + 1) h c s
        = some (h1, .ok [{ Node := h.length, Path := c.Path ++ [.str s.StringValue],
                           Document := c.Document }])
      ∧ h1.deref c.Node = some { node with Content := node.Content ++ [h.length + 1, h.length] }
      ∧ h1.deref (h.length + 1) = some { Kind := ScalarNode, Value := s.StringValue }
      ∧ h1.deref h.length = some {}
      ∧ h1.length = h.length + 2
      ∧ ∀ q, q < h.length → q ≠ c.Node → h1.deref q = h.deref q := by
  have hc : c.Node < h.length := Heap.deref_lt hnode
  refine ⟨Heap.write ((h ++ [({} : Node)]) ++ [{ Kind := ScalarNode, Value := s.StringValue }])
    c.Node { node with Content := node.Content ++ [h.length + 1, h.length] },
    ?_, ?_, ?_, ?_, ?_, ?_⟩
  · rw [Traverse_mapping Match spare depth h c s node hnode hkind,
      traverseMap_of_no_match Match spare h c s node hnode heven hptr hnone]
  · exact Heap.deref_write_same _ _ _ (by simp; omega)
  · rw [Heap.deref_write_other _ _ _ _ (by omega), List.append_assoc,
      Heap.deref_append_new h _ 1]
    rfl
  · rw [Heap.deref_write_other _ _ _ _ (by omega), List.append_assoc]
    exact Heap.deref_append_new h _ 0
  · simp [Heap.write]
  · intro q hq hne
    rw [Heap.deref_write_other _ _ _ _ (Ne.symm hne), List.append_assoc,
      Heap.deref_append_old _ _ _ hq]

/-- C2. On a mapping with content of even length, a selector that matches no
pair makes `Traverse` append exactly one key/value pair to the content (the key
a new Scalar node holding the selector text, the value a new node of unset
kind, every other node untouched) and return exactly one candidate: the new
value node, at the parent's path followed by the selector text. -/
theorem traverse_mapping_autocreates_pair (Match : String → String → Bool) (spare : Bool)
    (depth : Nat) (h : Heap) (c : CandidateNode) (s : PathElement) (node : Node)
    (hnode : h.deref c.Node = some node) (hkind : node.Kind = MappingNode)
    (heven : node.Content.length % 2 = 0) (hptr : ∀ p ∈ node.Content, p < h.length)
    (hnone : ∀ kv ∈ contentPairs node.Content, pairMatches Match h s kv = false) :
    ∃ h1 : Heap,
      Traverse Match spare (depth + 1) h c s
        = some (h1, .ok [{ Node := h.length, Path := c.Path ++ [.str s.StringValue],
                           Document := c.Document }])
      ∧ h1.deref c.Node = some { node with Content := node.Content ++ [h.length + 1, h.length] }
      ∧ h1.deref (h.length + 1) = some { Kind := ScalarNode, Value := s.StringValue }
      ∧ h1.deref h.length = some {}
      ∧ h1.length = h.length + 2
      ∧ ∀ q, q < h.length → q ≠ c.Node → h1.deref q = h.deref q :=
  traverse_mapping_autocreates_pair_aux Match spare depth h c s node hnode hkind heven hptr hnone

/-- Witness for C2: the literal `b` on the mapping `{c: apple}`. -/
theorem traverse_mapping_autocreates_pair_witness :
    ∃ h1 : Heap,
      Traverse Match false 1 examples.mismatchHeap examples.atA examples.literalB
        = some (h1, .ok [{ Node := 3, Path := [.str "a", .str "b"], Document := 0 }])
      ∧ h1.deref 0 = some { Kind := MappingNode, Tag := "!!map", Content := [1, 2, 4, 3] }
      ∧ h1.deref 4 = some { Kind := ScalarNode, Value := "b" }
      ∧ h1.deref 3 = some {}
      ∧ h1.length = 5
      ∧ ∀ q, q < 3 → q ≠ 0 → h1.deref q = examples.mismatchHeap.deref q :=
  traverse_mapping_autocreates_pair Match false 0 examples.mismatchHeap examples.atA examples.literalB
    { Kind := MappingNode, Tag := "!!map", Content := [1, 2] }
    (by decide) (by decide) (by decide) (by decide) (by decide)

end treeops

namespace treeops

open yaml

/-- Evaluation for C3 at the failing inputs: the splat on an empty mapping and
the glob `z*` on `{cat: apple, mad: things}` match nothing, yet `Traverse`
returns one candidate each time and appends a pair whose key holds the selector
text, `[]` and `z*`. -/
theorem glob_and_splat_without_match_autocreate :
    Traverse Match false 1 examples.emptyMapHeap examples.atRoot examples.splat
        = some ([ { Kind := MappingNode, Tag := "!!map", Content := [2, 1] }, {},
                  { Kind := ScalarNode, Value := "[]" } ],
                .ok [{ Node := 1, Path := [.str "[]"], Document := 0 }])
    ∧ (∀ h1, Traverse Match false 1 examples.emptyMapHeap examples.atRoot examples.splat
        ≠ some (h1, .ok []))
    ∧ (∀ kv ∈ contentPairs [1, 2, 3, 4],
        pairMatches Match examples.wildHeap examples.globZ kv = false)
    ∧ Traverse Match false 1 examples.wildHeap examples.atA examples.globZ
        = some ([ { Kind := MappingNode, Tag := "!!map", Content := [1, 2, 3, 4, 6, 5] },
                  { Kind := ScalarNode, Tag := "!!str", Value := "cat" },
                  { Kind := ScalarNode, Tag := "!!str", Value := "apple" },
                  { Kind := ScalarNode, Tag := "!!str", Value := "mad" },
                  { Kind := ScalarNode, Tag := "!!str", Value := "things" }, {},
                  { Kind := ScalarNode, Value := "z*" } ],
                .ok [{ Node := 5, Path := [.str "a", .str "z*"], Document := 0 }])
    ∧ (∀ h1, Traverse Match false 1 examples.wildHeap examples.atA examples.globZ
        ≠ some (h1, .ok [])) := by
  have hsplat : Traverse Match false 1 examples.emptyMapHeap examples.atRoot examples.splat
      = some ([ { Kind := MappingNode, Tag := "!!map", Content := [2, 1] }, {},
                { Kind := ScalarNode, Value := "[]" } ],
              .ok [{ Node := 1, Path := [.str "[]"], Document := 0 }]) := by decide
  have hglob : Traverse Match false 1 examples.wildHeap examples.atA examples.globZ
      = some ([ { Kind := MappingNode, Tag := "!!map", Content := [1, 2, 3, 4, 6, 5] },
                { Kind := ScalarNode, Tag := "!!str", Value := "cat" },
                { Kind := ScalarNode, Tag := "!!str", Value := "apple" },
                { Kind := ScalarNode, Tag := "!!str", Value := "mad" },
                { Kind := ScalarNode, Tag := "!!str", Value := "things" }, {},
                { Kind := ScalarNode, Value := "z*" } ],
              .ok [{ Node := 5, Path := [.str "a", .str "z*"], Document := 0 }]) := by decide
  refine ⟨hsplat, ?_, by decide, hglob, ?_⟩
  · intro h1 heq
    rw [hsplat] at heq
    simp at heq
  · intro h1 heq
    rw [hglob] at heq
    simp at heq

end treeops

namespace treeops

open yaml

/-- A pattern without `*` and `?` is accepted for exactly one text: itself. -/
theorem globMatch_literal : ∀ (pattern text : List Char), '*' ∉ pattern → '?' ∉ pattern →
    (globMatch pattern text = true ↔ text = pattern)
  | [], text, _, _ => by cases text <;> simp [globMatch]
  | p :: ps, [], hstar, _ => by
    simp only [List.mem_cons, not_or] at hstar
    have hp1 : (p == '*') = false := by simpa using fun e => hstar.1 e.symm
    simp [globMatch, hp1]
  | p :: ps, c :: cs, hstar, hq => by
    simp only [List.mem_cons, not_or] at hstar hq
    have hp1 : (p == '*') = false := by simpa using fun e => hstar.1 e.symm
    have hp2 : (p == '?') = false := by simpa using fun e => hq.1 e.symm
    have ih := globMatch_literal ps cs hstar.2 hq.2
    simp [globMatch, hp1, hp2, ih]

theorem Match_literal (text pattern : String) (hlit : isLiteral pattern) :
    Match text pattern = true ↔ text = pattern := by
  unfold Match
  rw [globMatch_literal pattern.data text.data hlit.1 hlit.2]
  exact ⟨fun hd => String.ext hd, fun e => by rw [e]⟩

/-- Evaluation for C4 at the failing input: the path step `b` on the value of
`a` in the document `a: {c: apple}` does not return an empty list; it appends
the pair `b: <new node>` to the mapping and returns the candidate for the new
value node, at path `[a b]`. -/
theorem literal_without_match_returns_a_candidate :
    Traverse Match false 1 examples.mismatchHeap examples.atA examples.literalB
        = some ([ { Kind := MappingNode, Tag := "!!map", Content := [1, 2, 4, 3] },
                  { Kind := ScalarNode, Tag := "!!str", Value := "c" },
                  { Kind := ScalarNode, Tag := "!!str", Value := "apple" }, {},
                  { Kind := ScalarNode, Value := "b" } ],
                .ok [{ Node := 3, Path := [.str "a", .str "b"], Document := 0 }])
    ∧ ∀ h1, Traverse Match false 1 examples.mismatchHeap examples.atA examples.literalB
        ≠ some (h1, .ok []) := by
  have hval : Traverse Match false 1 examples.mismatchHeap examples.atA examples.literalB
      = some ([ { Kind := MappingNode, Tag := "!!map", Content := [1, 2, 4, 3] },
                { Kind := ScalarNode, Tag := "!!str", Value := "c" },
                { Kind := ScalarNode, Tag := "!!str", Value := "apple" }, {},
                { Kind := ScalarNode, Value := "b" } ],
              .ok [{ Node := 3, Path := [.str "a", .str "b"], Document := 0 }]) := by decide
  refine ⟨hval, ?_⟩
  intro h1 heq
  rw [hval] at heq
  simp at heq

end treeops

/-! ## Sequences -/

namespace treeops

open yaml

theorem splatLoop_length (c : CandidateNode) : ∀ (l : List Nat) (start : Nat),
    (splatLoop c start l).length = l.length
  | [], _ => rfl
  | _ :: rest, start => by simp [splatLoop, splatLoop_length c rest (start + 1)]

theorem splatLoop_getElem? (c : CandidateNode) : ∀ (l : List Nat) (start i : Nat)
    (hi : i < l.length),
    (splatLoop c start l)[i]?
      = some { Node := l[i], Path := c.Path ++ [.int ((start + i : Nat) : Int)],
               Document := c.Document }
  | [], _, _, hi => by simp at hi
  | p :: rest, start, 0, _ => by simp [splatLoop]
  | p :: rest, start, i + 1, hi => by
    have hi2 : i < rest.length := by simpa using hi
    have ih := splatLoop_getElem? c rest (start + 1) i hi2
    simp only [splatLoop, List.getElem?_cons_succ, ih, List.getElem_cons_succ]
    have e : start + 1 + i = start + (i + 1) := by omega
    rw [e]

/-- The extension loop keeps the kind of the node it extends, however many
passes it makes. -/
theorem extendLoop_kind (p : Nat) (index : Int) : ∀ (passes : Nat) (h : Heap) (node : Node),
    h.deref p = some node →
    ∃ node1, (extendLoop passes h p index).deref p = some node1 ∧ node1.Kind = node.Kind
  | 0, h, node, hnode => ⟨node, by simp [extendLoop, hnode], rfl⟩
  | passes + 1, h, node, hnode => by
    have hp : p < h.length := Heap.deref_lt hnode
    by_cases hle : (node.Content.length : Int) ≤ index
    · have hw : (Heap.write (h ++ [({} : Node)]) p
          { node with Content := node.Content ++ [h.length] }).deref p
          = some { node with Content := node.Content ++ [h.length] } :=
        Heap.deref_write_same _ _ _ (by simp; omega)
      obtain ⟨node1, h1, h2⟩ := extendLoop_kind p index passes _ _ hw
      exact ⟨node1, by simpa [extendLoop, hnode, hle, Heap.alloc] using h1, h2⟩
    · exact ⟨node, by simp [extendLoop, hnode, hle], rfl⟩

/-- The extension loop in closed form: when `passes` is the distance from the
content length to `index + 1`, it allocates `passes` fresh nodes of unset kind
at the end of the heap and appends their pointers to the content. -/
theorem extendLoop_eq (p : Nat) (index : Int) : ∀ (passes : Nat) (h : Heap) (node : Node),
    h.deref p = some node → (node.Content.length : Int) + passes = index + 1 →
    extendLoop passes h p index
      = Heap.write (h ++ List.replicate passes ({} : Node)) p
          { node with Content := node.Content ++ List.range' h.length passes }
  | 0, h, node, hnode, _ => by
    simp only [extendLoop, List.replicate_zero, List.append_nil, List.range'_zero]
    exact (Heap.write_self h p node hnode).symm
  | passes + 1, h, node, hnode, hlen => by
    have hp : p < h.length := Heap.deref_lt hnode
    have hle : (node.Content.length : Int) ≤ index := by omega
    have hw : (Heap.write (h ++ [({} : Node)]) p
        { node with Content := node.Content ++ [h.length] }).deref p
        = some { node with Content := node.Content ++ [h.length] } :=
      Heap.deref_write_same _ _ _ (by simp; omega)
    have ih := extendLoop_eq p index passes _ _ hw (by simp; omega)
    simp only [extendLoop, hnode, hle, if_true, Heap.alloc]
    rw [ih, Heap.write_append_write _ _ _ _ _ (by simp; omega)]
    simp [Heap.write, List.replicate_succ, List.range'_succ]

/-- After its run the extension loop's guard `contentLength <= index` is
false: the pass count given to it in `traverseArray` is enough. -/
theorem extendLoop_exit (h : Heap) (p : Nat) (index : Int) (node : Node)
    (hnode : h.deref p = some node) :
    ∃ node1, (extendLoop (index + 1 - (node.Content.length : Int)).toNat h p index).deref p
        = some node1 ∧ index < (node1.Content.length : Int) := by
  have hp : p < h.length := Heap.deref_lt hnode
  by_cases hle : (node.Content.length : Int) ≤ index
  · rw [extendLoop_eq p index _ h node hnode (by omega)]
    refine ⟨_, Heap.deref_write_same _ _ _ (by simp; omega), ?_⟩
    simp only [List.length_append, List.length_range']
    omega
  · have h0 : (index + 1 - (node.Content.length : Int)).toNat = 0 := by omega
    rw [h0]
    exact ⟨node, by simpa [extendLoop] using hnode, by omega⟩

end treeops

namespace treeops

open yaml

theorem isSplat_int64 (s : PathElement) (i : Int) (hsel : s.Value = .int64 i) :
    isSplat s = false := by
  simp [isSplat, hsel]

/-- An index below the content length: nothing is appended, and the outcome
depends on the sign of the end-resolved index only. -/
theorem traverseArray_below (spare : Bool)
    (h : Heap) (c : CandidateNode) (s : PathElement) (node : Node)
    (i : Int) (hnode : h.deref c.Node = some node) (hsel : s.Value = .int64 i)
    (hhi : i < (node.Content.length : Int)) :
    traverseArray spare h c s
      = if (if i < 0 then (node.Content.length : Int) + i else i) < 0 then
          (h, .error ("Index [" ++ toString i ++ "] out of range, array size is "
                        ++ toString (node.Content.length : Int)))
        else
          match node.Content[(if i < 0 then (node.Content.length : Int) + i else i).toNat]? with
          | none => (h, .panic)
          | some p => (h, .ok [{ Node := p, Document := c.Document,
                                 Path := c.Path ++ [.int64 i] }]) := by
  have h0 : (i + 1 - (node.Content.length : Int)).toNat = 0 := by omega
  simp only [traverseArray, hnode, isSplat_int64 s i hsel, hsel, h0, extendLoop]
  rfl

/-- An index at or past the content length: the content is extended up to
position `k` with fresh nodes of unset kind and the last of them is returned. -/
theorem traverseArray_extend (spare : Bool)
    (h : Heap) (c : CandidateNode) (s : PathElement) (node : Node)
    (k : Int) (hnode : h.deref c.Node = some node) (hsel : s.Value = .int64 k)
    (hk : (node.Content.length : Int) ≤ k) :
    traverseArray spare h c s
      = (Heap.write (h ++ List.replicate (k + 1 - (node.Content.length : Int)).toNat ({} : Node))
            c.Node
            { node with Content := node.Content
                ++ List.range' h.length (k + 1 - (node.Content.length : Int)).toNat },
         .ok [{ Node := h.length + (k.toNat - node.Content.length), Document := c.Document,
                Path := c.Path ++ [.int64 k] }]) := by
  have hp : c.Node < h.length := Heap.deref_lt hnode
  have hk0 : ¬ k < 0 := by omega
  have hm : (node.Content.length : Int)
      + ((k + 1 - (node.Content.length : Int)).toNat : Nat) = k + 1 := by omega
  simp only [traverseArray, hnode, isSplat_int64 s k hsel, hsel]
  generalize (k + 1 - (node.Content.length : Int)).toNat = m at hm ⊢
  have hget : (node.Content ++ List.range' h.length m)[k.toNat]?
      = some (h.length + (k.toNat - node.Content.length)) := by
    rw [List.getElem?_append_right (by omega),
      List.getElem?_range' h.length 1 (show k.toNat - node.Content.length < m by omega)]
    simp
  rw [extendLoop_eq c.Node k m h node hnode hm]
  simp only [Heap.deref_write_same _ _ _ (show c.Node < (h ++ List.replicate m
    ({} : Node)).length by simp; omega), if_neg hk0, hget]
  simp

end treeops

namespace treeops

open yaml

/-- C5. On a sequence of length `n`, an index `i` with `-n <= i < n` makes
`Traverse` return, without error and without touching the heap, exactly one
candidate: the element at position `i` when `i >= 0`, the element at position
`n + i` when `i < 0`. -/
theorem traverse_sequence_index_in_range (Match : String → String → Bool) (spare : Bool)
    (depth : Nat)
    (h : Heap) (c : CandidateNode) (s : PathElement) (node : Node) (i : Int)
    (hnode : h.deref c.Node = some node) (hkind : node.Kind = SequenceNode)
    (hsel : s.Value = .int64 i)
    (hlo : -(node.Content.length : Int) ≤ i) (hhi : i < (node.Content.length : Int)) :
    ∃ elem : Nat,
      node.Content[(if 0 ≤ i then i else (node.Content.length : Int) + i).toNat]? = some elem
      ∧ Traverse Match spare (depth + 1) h c s
          = some (h, .ok [{ Node := elem, Path := c.Path ++ [.int64 i],
                            Document := c.Document }]) := by
  have hidx : (if i < 0 then (node.Content.length : Int) + i else i)
      = (if 0 ≤ i then i else (node.Content.length : Int) + i) := by
    split_ifs <;> omega
  have hnn : ¬ (if 0 ≤ i then i else (node.Content.length : Int) + i) < 0 := by
    split_ifs <;> omega
  have hlt : (if 0 ≤ i then i else (node.Content.length : Int) + i).toNat
      < node.Content.length := by
    split_ifs <;> omega
  refine ⟨node.Content[(if 0 ≤ i then i else (node.Content.length : Int) + i).toNat],
    List.getElem?_eq_getElem hlt, ?_⟩
  rw [Traverse_sequence Match spare depth h c s node hnode hkind,
    traverseArray_below spare h c s node i hnode hsel hhi, hidx, if_neg hnn,
    List.getElem?_eq_getElem hlt]

/-- Witness for C5: index `-1` on `[apple, sdfsd, apple]` selects the last
element. -/
theorem traverse_sequence_index_in_range_witness :
    ∃ elem : Nat,
      [1, 2, 3][(if (0 : Int) ≤ -1 then (-1 : Int) else ((3 : Nat) : Int) + -1).toNat]?
        = some elem
      ∧ Traverse Match false 1 examples.fruitHeap examples.atRoot (examples.indexSel (-1))
          = some (examples.fruitHeap,
              .ok [{ Node := elem, Path := [] ++ [.int64 (-1)], Document := 0 }]) :=
  traverse_sequence_index_in_range Match false 0 examples.fruitHeap examples.atRoot
    (examples.indexSel (-1)) { Kind := SequenceNode, Tag := "!!seq", Content := [1, 2, 3] } (-1)
    (by decide) (by decide) (by decide) (by decide) (by decide)

/-- C6. On a sequence of length `n`, an index `k >= n` makes `Traverse` extend
the content to length exactly `k + 1`: the first `n` positions keep their
elements, every position from `n` to `k` holds a node of unset kind, and the
single returned candidate's node is the element at position `k`. -/
theorem traverse_sequence_extends_to_index (Match : String → String → Bool) (spare : Bool)
    (depth : Nat)
    (h : Heap) (c : CandidateNode) (s : PathElement) (node : Node) (k : Int)
    (hnode : h.deref c.Node = some node) (hkind : node.Kind = SequenceNode)
    (hsel : s.Value = .int64 k) (hk : (node.Content.length : Int) ≤ k) :
    ∃ (h1 : Heap) (node1 : Node) (elem : Nat),
      Traverse Match spare (depth + 1) h c s
        = some (h1, .ok [{ Node := elem, Path := c.Path ++ [.int64 k],
                           Document := c.Document }])
      ∧ h1.deref c.Node = some node1
      ∧ (node1.Content.length : Int) = k + 1
      ∧ node1.Content.take node.Content.length = node.Content
      ∧ (∀ j : Nat, node.Content.length ≤ j → (j : Int) ≤ k →
          ∃ q, node1.Content[j]? = some q ∧ h1.deref q = some {})
      ∧ node1.Content[k.toNat]? = some elem := by
  have hp : c.Node < h.length := Heap.deref_lt hnode
  have hm : (node.Content.length : Int)
      + ((k + 1 - (node.Content.length : Int)).toNat : Nat) = k + 1 := by omega
  have hres := traverseArray_extend spare h c s node k hnode hsel hk
  generalize (k + 1 - (node.Content.length : Int)).toNat = m at hm hres
  have hget : ∀ j : Nat, node.Content.length ≤ j → (j : Int) ≤ k →
      (node.Content ++ List.range' h.length m)[j]?
        = some (h.length + (j - node.Content.length)) := by
    intro j hj hjk
    rw [List.getElem?_append_right hj,
      List.getElem?_range' h.length 1 (show j - node.Content.length < m by omega)]
    simp
  refine ⟨Heap.write (h ++ List.replicate m ({} : Node)) c.Node
      { node with Content := node.Content ++ List.range' h.length m },
    { node with Content := node.Content ++ List.range' h.length m },
    h.length + (k.toNat - node.Content.length), ?_, ?_, ?_, ?_, ?_, ?_⟩
  · rw [Traverse_sequence Match spare depth h c s node hnode hkind, hres]
  · exact Heap.deref_write_same _ _ _ (by simp; omega)
  · simp only [List.length_append, List.length_range']
    omega
  · exact List.take_left _ _
  · intro j hj hjk
    refine ⟨h.length + (j - node.Content.length), hget j hj hjk, ?_⟩
    rw [Heap.deref_write_other _ _ _ _ (by omega), Heap.deref_append_new,
      List.getElem?_replicate, if_pos (by omega)]
  · exact hget k.toNat (by omega) (by omega)

/-- Witness for C6: index `5` on `[apple, sdfsd, apple]`. -/
theorem traverse_sequence_extends_to_index_witness :
    ∃ (h1 : Heap) (node1 : Node) (elem : Nat),
      Traverse Match false 1 examples.fruitHeap examples.atRoot (examples.indexSel 5)
        = some (h1, .ok [{ Node := elem, Path := [] ++ [.int64 5], Document := 0 }])
      ∧ h1.deref 0 = some node1
      ∧ (node1.Content.length : Int) = 5 + 1
      ∧ node1.Content.take 3 = [1, 2, 3]
      ∧ (∀ j : Nat, 3 ≤ j → (j : Int) ≤ 5 →
          ∃ q, node1.Content[j]? = some q ∧ h1.deref q = some {})
      ∧ node1.Content[(5 : Int).toNat]? = some elem :=
  traverse_sequence_extends_to_index Match false 0 examples.fruitHeap examples.atRoot
    (examples.indexSel 5) { Kind := SequenceNode, Tag := "!!seq", Content := [1, 2, 3] } 5
    (by decide) (by decide) (by decide) (by decide)

end treeops

namespace treeops

open yaml

/-- C7. On a sequence of length `n`, `Traverse` with an index `i` returns an
error exactly when `i < -n`, that is when the index is still negative after the
length is added; the error message then names the index `i` and the length
`n`, and nothing was appended.  For every other index the call returns a list
of candidates (it neither fails nor panics). -/
theorem traverse_sequence_fails_iff (Match : String → String → Bool) (spare : Bool) (depth : Nat)
    (h : Heap) (c : CandidateNode) (s : PathElement) (node : Node) (i : Int)
    (hnode : h.deref c.Node = some node) (hkind : node.Kind = SequenceNode)
    (hsel : s.Value = .int64 i) :
    ((∃ h1 msg, Traverse Match spare (depth + 1) h c s = some (h1, .error msg))
        ↔ i < -(node.Content.length : Int))
    ∧ (i < -(node.Content.length : Int) →
        Traverse Match spare (depth + 1) h c s
          = some (h, .error ("Index [" ++ toString i ++ "] out of range, array size is "
                              ++ toString (node.Content.length : Int))))
    ∧ (-(node.Content.length : Int) ≤ i →
        ∃ h1 r, Traverse Match spare (depth + 1) h c s = some (h1, .ok r)) := by
  have hT := Traverse_sequence Match spare depth h c s node hnode hkind
  have herr : i < -(node.Content.length : Int) →
      Traverse Match spare (depth + 1) h c s
        = some (h, .error ("Index [" ++ toString i ++ "] out of range, array size is "
                            ++ toString (node.Content.length : Int))) := by
    intro hlt
    have hneg : (if i < 0 then (node.Content.length : Int) + i else i) < 0 := by
      split_ifs <;> omega
    rw [hT, traverseArray_below spare h c s node i hnode hsel (by omega), if_pos hneg]
  have hok : -(node.Content.length : Int) ≤ i →
      ∃ h1 r, Traverse Match spare (depth + 1) h c s = some (h1, .ok r) := by
    intro hge
    by_cases hhi : i < (node.Content.length : Int)
    · have hnn : ¬ (if i < 0 then (node.Content.length : Int) + i else i) < 0 := by
        split_ifs <;> omega
      have hlt : (if i < 0 then (node.Content.length : Int) + i else i).toNat
          < node.Content.length := by
        split_ifs <;> omega
      exact ⟨h, _, by rw [hT, traverseArray_below spare h c s node i hnode hsel hhi, if_neg hnn,
        List.getElem?_eq_getElem hlt]⟩
    · exact ⟨_, _, by rw [hT, traverseArray_extend spare h c s node i hnode hsel (by omega)]⟩
  refine ⟨⟨?_, fun hlt => ⟨h, _, herr hlt⟩⟩, herr, hok⟩
  rintro ⟨h1, msg, hres⟩
  by_contra hge
  obtain ⟨h2, r, hr⟩ := hok (by omega)
  rw [hr] at hres
  simp at hres

/-- Witness for C7: index `-4` on `[apple, sdfsd, apple]`. -/
theorem traverse_sequence_fails_iff_witness :
    ((∃ h1 msg, Traverse Match false 1 examples.fruitHeap examples.atRoot (examples.indexSel (-4))
          = some (h1, .error msg))
        ↔ (-4 : Int) < -((3 : Nat) : Int))
    ∧ ((-4 : Int) < -((3 : Nat) : Int) →
        Traverse Match false 1 examples.fruitHeap examples.atRoot (examples.indexSel (-4))
          = some (examples.fruitHeap,
              .error ("Index [" ++ toString (-4 : Int) ++ "] out of range, array size is "
                        ++ toString ((3 : Nat) : Int))))
    ∧ (-((3 : Nat) : Int) ≤ (-4 : Int) →
        ∃ h1 r, Traverse Match false 1 examples.fruitHeap examples.atRoot (examples.indexSel (-4))
          = some (h1, .ok r)) :=
  traverse_sequence_fails_iff Match false 0 examples.fruitHeap examples.atRoot
    (examples.indexSel (-4)) { Kind := SequenceNode, Tag := "!!seq", Content := [1, 2, 3] } (-4)
    (by decide) (by decide) (by decide)

/-- Evaluation for C8 at the failing input: index `5` on
`[apple, sdfsd, apple]` does not come back empty; `Traverse` extends the
sequence to six elements and returns the candidate for the new element at
position 5, so a count of the selector's matches is 1. -/
theorem index_past_end_returns_a_candidate :
    Traverse Match false 1 examples.fruitHeap examples.atRoot (examples.indexSel 5)
        = some ([ { Kind := SequenceNode, Tag := "!!seq", Content := [1, 2, 3, 4, 5, 6] },
                  { Kind := ScalarNode, Tag := "!!str", Value := "apple" },
                  { Kind := ScalarNode, Tag := "!!str", Value := "sdfsd" },
                  { Kind := ScalarNode, Tag := "!!str", Value := "apple" }, {}, {}, {} ],
                .ok [{ Node := 6, Path := [.int64 5], Document := 0 }])
    ∧ ∀ h1, Traverse Match false 1 examples.fruitHeap examples.atRoot (examples.indexSel 5)
        ≠ some (h1, .ok []) := by
  have hval : Traverse Match false 1 examples.fruitHeap examples.atRoot (examples.indexSel 5)
      = some ([ { Kind := SequenceNode, Tag := "!!seq", Content := [1, 2, 3, 4, 5, 6] },
                { Kind := ScalarNode, Tag := "!!str", Value := "apple" },
                { Kind := ScalarNode, Tag := "!!str", Value := "sdfsd" },
                { Kind := ScalarNode, Tag := "!!str", Value := "apple" }, {}, {}, {} ],
              .ok [{ Node := 6, Path := [.int64 5], Document := 0 }]) := by decide
  refine ⟨hval, ?_⟩
  intro h1 heq
  rw [hval] at heq
  simp at heq

/-- What `Traverse` returns for the splat on a sequence of length `n`: without
error and without touching the heap, exactly `n` candidates.  The pass for
position `i` builds the element at position `i`, at the parent's path followed
by the integer `i`, with the parent's document index; the paths read as
`sharePaths` leaves them, so with spare capacity they all end in `n - 1`. -/
theorem traverse_sequence_splat (Match : String → String → Bool) (spare : Bool) (depth : Nat)
    (h : Heap) (c : CandidateNode) (s : PathElement) (node : Node)
    (hnode : h.deref c.Node = some node) (hkind : node.Kind = SequenceNode)
    (hsel : s.Value = .str "[]") :
    ∃ r : List CandidateNode,
      Traverse Match spare (depth + 1) h c s = some (h, .ok (sharePaths spare r))
      ∧ r.length = node.Content.length
      ∧ ∀ (i : Nat) (hi : i < node.Content.length),
          r[i]? = some { Node := node.Content[i], Path := c.Path ++ [.int (i : Int)],
                         Document := c.Document } := by
  have hs : isSplat s = true := by simp [isSplat, hsel]
  refine ⟨splatLoop c 0 node.Content, ?_, splatLoop_length c _ 0, ?_⟩
  · rw [Traverse_sequence Match spare depth h c s node hnode hkind]
    simp [traverseArray, hnode, hs]
  · intro i hi
    have := splatLoop_getElem? c node.Content 0 i hi
    simpa using this

/-- An instance: the splat on `[apple, sdfsd, apple]` at the root, whose path
has no spare capacity. -/
theorem traverse_sequence_splat_witness :
    ∃ r : List CandidateNode,
      Traverse Match false 1 examples.fruitHeap examples.atRoot examples.splat
        = some (examples.fruitHeap, .ok (sharePaths false r))
      ∧ r.length = 3
      ∧ ∀ (i : Nat) (hi : i < 3),
          r[i]? = some { Node := [1, 2, 3][i], Path := [] ++ [.int (i : Int)], Document := 0 } :=
  traverse_sequence_splat Match false 0 examples.fruitHeap examples.atRoot examples.splat
    { Kind := SequenceNode, Tag := "!!seq", Content := [1, 2, 3] }
    (by decide) (by decide) (by decide)

/-- Evaluation for C9 at the failing input: the splat on
`[apple, sdfsd, apple]`, reached at the path `[a b c]` whose slice has spare
capacity.  `Traverse` returns the three elements in order, but all three
candidates carry the path `[a b c 2]`: the candidates for positions 0 and 1 do
not have the parent's path followed by their own position.  The same call on a
path without spare capacity returns the paths ending in 0, 1 and 2. -/
theorem sequence_splat_shares_the_last_index :
    Traverse Match true 1 examples.fruitHeap examples.atABC examples.splat
        = some (examples.fruitHeap,
            .ok [{ Node := 1, Path := [.str "a", .str "b", .str "c", .int 2], Document := 0 },
                 { Node := 2, Path := [.str "a", .str "b", .str "c", .int 2], Document := 0 },
                 { Node := 3, Path := [.str "a", .str "b", .str "c", .int 2], Document := 0 }])
    ∧ examples.atABC.Path ++ [.int 0] = [.str "a", .str "b", .str "c", .int 0]
    ∧ Traverse Match false 1 examples.fruitHeap examples.atABC examples.splat
        = some (examples.fruitHeap,
            .ok [{ Node := 1, Path := [.str "a", .str "b", .str "c", .int 0], Document := 0 },
                 { Node := 2, Path := [.str "a", .str "b", .str "c", .int 1], Document := 0 },
                 { Node := 3, Path := [.str "a", .str "b", .str "c", .int 2], Document := 0 }]) := by
  refine ⟨by decide, by decide, by decide⟩

end treeops

/-! ## Nodes of unset kind -/

namespace treeops

open yaml

theorem guessKind_cases (s : PathElement) :
    guessKind s = SequenceNode ∨ guessKind s = MappingNode := by
  unfold guessKind
  cases s.Value <;> simp

/-- The call `traverseMap` keeps the kind of the node it is called on,
whatever its outcome. -/
theorem traverseMap_kind (Match : String → String → Bool) (spare : Bool)
    (h : Heap) (c : CandidateNode)
    (s : PathElement) (node : Node) (hnode : h.deref c.Node = some node) :
    ∃ node1, (traverseMap Match spare h c s).1.deref c.Node = some node1
      ∧ node1.Kind = node.Kind := by
  have hp : c.Node < h.length := Heap.deref_lt hnode
  unfold traverseMap
  simp only [hnode]
  cases traverseMapLoop Match h c s node.Content [] with
  | none => exact ⟨node, hnode, rfl⟩
  | some newMatches =>
    by_cases hlen : newMatches.length = 0
    · simp only [hlen, if_true, Heap.alloc]
      exact ⟨_, Heap.deref_write_same _ _ _ (by simp; omega), rfl⟩
    · simp only [hlen, if_false]
      exact ⟨node, hnode, rfl⟩

/-- The call `traverseArray` keeps the kind of the node it is called on,
whatever its outcome. -/
theorem traverseArray_kind (spare : Bool)
    (h : Heap) (c : CandidateNode) (s : PathElement) (node : Node)
    (hnode : h.deref c.Node = some node) :
    ∃ node1, (traverseArray spare h c s).1.deref c.Node = some node1 ∧ node1.Kind = node.Kind := by
  unfold traverseArray
  simp only [hnode]
  by_cases hs : isSplat s = true
  · simp only [hs, if_true]
    exact ⟨node, hnode, rfl⟩
  · simp only [hs]
    cases hv : s.Value with
    | int64 index =>
      obtain ⟨node1, h1, h2⟩ := extendLoop_kind c.Node index
        (index + 1 - (node.Content.length : Int)).toNat h node hnode
      refine ⟨node1, ?_, h2⟩
      simp only [Bool.false_eq_true, if_false, h1]
      repeat' split
      all_goals exact h1
    | str _ => exact ⟨node, by simpa using hnode, rfl⟩
    | int _ => exact ⟨node, by simpa using hnode, rfl⟩
    | other => exact ⟨node, by simpa using hnode, rfl⟩

/-- C10. On a node of unset kind, `Traverse` first sets the kind: Sequence
when the selector's value is an integer (`int` or `int64`), Mapping otherwise.
The call then behaves exactly as on the same heap with that kind already
written into the node (same result, same final heap), it returns, and the
node has the inferred kind afterwards. -/
theorem traverse_unset_kind_infers_shape (Match : String → String → Bool) (spare : Bool)
    (depth : Nat)
    (h : Heap) (c : CandidateNode) (s : PathElement) (node : Node)
    (hnode : h.deref c.Node = some node) (hkind : node.Kind = 0) :
    ((∃ i, s.Value = .int i ∨ s.Value = .int64 i) → guessKind s = SequenceNode)
    ∧ ((∀ i, s.Value ≠ .int i ∧ s.Value ≠ .int64 i) → guessKind s = MappingNode)
    ∧ Traverse Match spare (depth + 1) h c s
        = Traverse Match spare (depth + 1) (h.write c.Node { node with Kind := guessKind s }) c s
    ∧ ∃ (h1 : Heap) (out : Outcome) (node1 : Node),
        Traverse Match spare (depth + 1) h c s = some (h1, out)
        ∧ h1.deref c.Node = some node1
        ∧ node1.Kind = guessKind s
        ∧ (guessKind s = MappingNode →
            (h1, out) = traverseMap Match spare (h.write c.Node { node with Kind := MappingNode }) c s)
        ∧ (guessKind s = SequenceNode →
            (h1, out) = traverseArray spare (h.write c.Node { node with Kind := SequenceNode }) c s) := by
  have hp : c.Node < h.length := Heap.deref_lt hnode
  have hw : (h.write c.Node { node with Kind := guessKind s }).deref c.Node
      = some { node with Kind := guessKind s } := Heap.deref_write_same _ _ _ hp
  refine ⟨?_, ?_, ?_, ?_⟩
  · rintro ⟨i, hi | hi⟩ <;> simp [guessKind, hi]
  · intro hno
    unfold guessKind
    cases hv : s.Value with
    | int i => exact absurd hv (hno i).1
    | int64 i => exact absurd hv (hno i).2
    | str _ => rfl
    | other => rfl
  · rcases guessKind_cases s with hg | hg
    · rw [Traverse_sequence Match spare depth _ c s _ hw (by simpa using hg)]
      simp [Traverse, hnode, hkind, hg, SequenceNode, MappingNode]
    · rw [Traverse_mapping Match spare depth _ c s _ hw (by simpa using hg)]
      simp [Traverse, hnode, hkind, hg, MappingNode]
  · rcases guessKind_cases s with hg | hg
    · obtain ⟨node1, h1, h2⟩ := traverseArray_kind spare
        (h.write c.Node { node with Kind := guessKind s }) c s _ hw
      refine ⟨(traverseArray spare (h.write c.Node { node with Kind := guessKind s }) c s).1,
        (traverseArray spare (h.write c.Node { node with Kind := guessKind s }) c s).2,
        node1, ?_, h1, by simpa using h2, ?_, ?_⟩
      · simp [Traverse, hnode, hkind, hg, SequenceNode, MappingNode]
      · intro hm
        rw [hg] at hm
        exact absurd hm (by decide)
      · intro _
        rw [hg]
    · obtain ⟨node1, h1, h2⟩ := traverseMap_kind Match spare
        (h.write c.Node { node with Kind := guessKind s }) c s _ hw
      refine ⟨(traverseMap Match spare (h.write c.Node { node with Kind := guessKind s }) c s).1,
        (traverseMap Match spare (h.write c.Node { node with Kind := guessKind s }) c s).2,
        node1, ?_, h1, by simpa using h2, ?_, ?_⟩
      · simp [Traverse, hnode, hkind, hg, MappingNode]
      · intro _
        rw [hg]
      · intro hm
        rw [hg] at hm
        exact absurd hm (by decide)

/-- Witness for C10: the literal `b` on a fresh node makes it a mapping. -/
theorem traverse_unset_kind_infers_shape_witness :
    ((∃ i, examples.literalB.Value = .int i ∨ examples.literalB.Value = .int64 i) →
        guessKind examples.literalB = SequenceNode)
    ∧ ((∀ i, examples.literalB.Value ≠ .int i ∧ examples.literalB.Value ≠ .int64 i) →
        guessKind examples.literalB = MappingNode)
    ∧ Traverse Match false 1 examples.unsetHeap examples.atRoot examples.literalB
        = Traverse Match false 1 (examples.unsetHeap.write 0
            { ({} : Node) with Kind := guessKind examples.literalB })
            examples.atRoot examples.literalB
    ∧ ∃ (h1 : Heap) (out : Outcome) (node1 : Node),
        Traverse Match false 1 examples.unsetHeap examples.atRoot examples.literalB = some (h1, out)
        ∧ h1.deref 0 = some node1
        ∧ node1.Kind = guessKind examples.literalB
        ∧ (guessKind examples.literalB = MappingNode →
            (h1, out) = traverseMap Match false (examples.unsetHeap.write 0
              { ({} : Node) with Kind := MappingNode }) examples.atRoot examples.literalB)
        ∧ (guessKind examples.literalB = SequenceNode →
            (h1, out) = traverseArray false (examples.unsetHeap.write 0
              { ({} : Node) with Kind := SequenceNode }) examples.atRoot examples.literalB) :=
  traverse_unset_kind_infers_shape Match false 0 examples.unsetHeap examples.atRoot examples.literalB
    {} (by decide) (by decide)

end treeops

/-! ## Documents and leaves -/

namespace treeops

open yaml

/-- On a Document node with a first child, `Traverse` is `Traverse` on that
child, at the empty path, with one level of recursion less. -/
theorem Traverse_document (Match : String → String → Bool) (spare : Bool) (depth : Nat) (h : Heap)
    (c : CandidateNode) (s : PathElement) (node : Node) (root : Nat) (rest : List Nat)
    (hnode : h.deref c.Node = some node) (hkind : node.Kind = DocumentNode)
    (hcontent : node.Content = root :: rest) :
    Traverse Match spare (depth + 1) h c s
      = Traverse Match false depth h { Node := root, Path := [], Document := c.Document } s := by
  simp [Traverse, hnode, hkind, hcontent, DocumentNode, MappingNode, SequenceNode]

/-- On a node whose kind is none of unset, Mapping, Sequence and Document,
`Traverse` returns no candidates and leaves the heap alone. -/
theorem Traverse_leaf (Match : String → String → Bool) (spare : Bool) (depth : Nat) (h : Heap)
    (c : CandidateNode) (s : PathElement) (node : Node)
    (hnode : h.deref c.Node = some node) (h0 : node.Kind ≠ 0)
    (h4 : node.Kind ≠ MappingNode) (h2 : node.Kind ≠ SequenceNode)
    (h1 : node.Kind ≠ DocumentNode) :
    Traverse Match spare (depth + 1) h c s = some (h, .ok []) := by
  simp [Traverse, hnode, h0, h4, h2, h1]

/-- C11. On a Document node with one root child `r`, `Traverse` returns the
same result and leaves the same heap as `Traverse` on the candidate for `r`
(same document index, empty path: a nil slice, without capacity) with the same
selector, one level of recursion further down; so whenever the call on `r`
returns, the call on the document returns the same. -/
theorem traverse_document_unwraps_root (Match : String → String → Bool) (spare : Bool) (depth : Nat)
    (h : Heap) (c : CandidateNode) (s : PathElement) (node : Node) (r : Nat)
    (hnode : h.deref c.Node = some node) (hkind : node.Kind = DocumentNode)
    (hcontent : node.Content = [r]) :
    Traverse Match spare (depth + 1) h c s
        = Traverse Match false depth h { Node := r, Path := [], Document := c.Document } s
    ∧ ∀ res, Traverse Match false depth h { Node := r, Path := [], Document := c.Document } s
          = some res → Traverse Match spare (depth + 1) h c s = some res := by
  have heq := Traverse_document Match spare depth h c s node r [] hnode hkind hcontent
  exact ⟨heq, fun res hres => by rw [heq, hres]⟩

/-- Witness for C11: the step `a` on the Document node of `a: {c: apple}`. -/
theorem traverse_document_unwraps_root_witness :
    Traverse Match false (1 + 1) examples.docHeap examples.atRoot examples.literalA
        = Traverse Match false 1 examples.docHeap { Node := 1, Path := [], Document := 0 }
            examples.literalA
    ∧ ∀ res, Traverse Match false 1 examples.docHeap { Node := 1, Path := [], Document := 0 }
          examples.literalA = some res →
        Traverse Match false (1 + 1) examples.docHeap examples.atRoot examples.literalA = some res :=
  traverse_document_unwraps_root Match false 1 examples.docHeap examples.atRoot examples.literalA
    { Kind := DocumentNode, Content := [1] } 1 (by decide) (by decide) (by decide)

/-- C12. On a Scalar or Alias node `Traverse` returns no candidates and no
error, and leaves the heap, the node included, unchanged. -/
theorem traverse_scalar_or_alias_returns_nothing (Match : String → String → Bool) (spare : Bool)
    (depth : Nat) (h : Heap) (c : CandidateNode) (s : PathElement) (node : Node)
    (hnode : h.deref c.Node = some node)
    (hkind : node.Kind = ScalarNode ∨ node.Kind = AliasNode) :
    Traverse Match spare (depth + 1) h c s = some (h, .ok []) := by
  rcases hkind with hk | hk
  · exact Traverse_leaf Match spare depth h c s node hnode (by rw [hk]; decide) (by rw [hk]; decide)
      (by rw [hk]; decide) (by rw [hk]; decide)
  · exact Traverse_leaf Match spare depth h c s node hnode (by rw [hk]; decide) (by rw [hk]; decide)
      (by rw [hk]; decide) (by rw [hk]; decide)

/-- Witness for C12: the step `a` on the scalar `apple`. -/
theorem traverse_scalar_or_alias_returns_nothing_witness :
    Traverse Match false 1 examples.docHeap examples.atApple examples.literalA
      = some (examples.docHeap, .ok []) :=
  traverse_scalar_or_alias_returns_nothing Match false 0 examples.docHeap examples.atApple
    examples.literalA { Kind := ScalarNode, Tag := "!!str", Value := "apple" }
    (by decide) (Or.inl (by decide))

end treeops

/-! ## What a call can do to the heap and to the paths -/

namespace treeops

open yaml

/-- A scan that does not panic went through a content of even length, and
each candidate it added is the candidate of a matching pair. -/
theorem traverseMapLoop_some (Match : String → String → Bool) (h : Heap) (c : CandidateNode)
    (s : PathElement) : ∀ (content : List Nat) (acc ms : List CandidateNode),
    traverseMapLoop Match h c s content acc = some ms →
    content.length % 2 = 0
      ∧ ∀ r ∈ ms, r ∈ acc ∨ ∃ kv ∈ contentPairs content,
          pairMatches Match h s kv = true ∧ r = valueCandidate h c kv
  | [], acc, ms, hres => by
    simp only [traverseMapLoop, Option.some.injEq] at hres
    subst hres
    exact ⟨rfl, fun r hr => Or.inl hr⟩
  | [_], _, _, hres => by simp [traverseMapLoop] at hres
  | key :: value :: rest, acc, ms, hres => by
    cases hk : h.deref key with
    | none => simp [traverseMapLoop, hk] at hres
    | some k =>
      have htext : keyText h key = k.Value := by simp [keyText, hk]
      by_cases hm : keyMatches Match k s = true
      · have hp : pairMatches Match h s (key, value) = true := by
          simpa [pairMatches, keyMatches, htext] using hm
        simp only [traverseMapLoop, hk, hm, if_true] at hres
        obtain ⟨hev, hmem⟩ := traverseMapLoop_some Match h c s rest _ ms hres
        refine ⟨by simp; omega, fun r hr => ?_⟩
        rcases hmem r hr with hacc | ⟨kv, hkv, hkm, hr2⟩
        · rcases List.mem_append.mp hacc with ha | hb
          · exact Or.inl ha
          · refine Or.inr ⟨(key, value), by simp [contentPairs], hp, ?_⟩
            simp only [List.mem_singleton] at hb
            simp [hb, valueCandidate, htext]
        · exact Or.inr ⟨kv, by simp [contentPairs, hkv], hkm, hr2⟩
      · simp only [traverseMapLoop, hk, hm] at hres
        obtain ⟨hev, hmem⟩ := traverseMapLoop_some Match h c s rest _ ms hres
        refine ⟨by simp; omega, fun r hr => ?_⟩
        rcases hmem r hr with hacc | ⟨kv, hkv, hkm, hr2⟩
        · exact Or.inl hacc
        · exact Or.inr ⟨kv, by simp [contentPairs, hkv], hkm, hr2⟩

/-- The three ways `traverseMap` can end on a resolvable node: a panic that
leaves the heap alone, the matches of an even content with the heap left
alone, or the auto-created pair appended to an even content. -/
theorem traverseMap_cases (Match : String → String → Bool) (spare : Bool) (h : Heap)
    (c : CandidateNode)
    (s : PathElement) (node : Node) (hnode : h.deref c.Node = some node) :
    traverseMap Match spare h c s = (h, .panic)
    ∨ (node.Content.length % 2 = 0
        ∧ ∃ rs, traverseMap Match spare h c s = (h, .ok rs)
          ∧ ∀ r ∈ rs, ∃ kv ∈ contentPairs node.Content,
              pairMatches Match h s kv = true
              ∧ ∃ last ∈ contentPairs node.Content, pairMatches Match h s last = true
                ∧ r = { valueCandidate h c kv with Path := (valueCandidate h c last).Path }
                ∧ (spare = false → r = valueCandidate h c kv))
    ∨ (node.Content.length % 2 = 0
        ∧ traverseMap Match spare h c s
          = (Heap.write (h ++ [({} : Node), { Kind := ScalarNode, Value := s.StringValue }])
                c.Node { node with Content := node.Content ++ [h.length + 1, h.length] },
             .ok [{ Node := h.length, Path := c.Path ++ [.str s.StringValue],
                    Document := c.Document }])) := by
  cases hloop : traverseMapLoop Match h c s node.Content [] with
  | none => exact Or.inl (by simp [traverseMap, hnode, hloop])
  | some ms =>
    obtain ⟨hev, hmem⟩ := traverseMapLoop_some Match h c s node.Content [] ms hloop
    by_cases hlen : ms.length = 0
    · refine Or.inr (Or.inr ⟨hev, ?_⟩)
      simp [traverseMap, hnode, hloop, hlen, Heap.alloc]
    · refine Or.inr (Or.inl ⟨hev, sharePaths spare ms,
        by simp [traverseMap, hnode, hloop, hlen], ?_⟩)
      intro r hr
      obtain ⟨m, hm, l, hl, hrm, hown⟩ := sharePaths_mem spare ms r hr
      rcases hmem m hm with hacc | ⟨kv, hkv, hkm, hm2⟩
      · simp at hacc
      · rcases hmem l hl with hacc | ⟨last, hlast, hlm, hl2⟩
        · simp at hacc
        · refine ⟨kv, hkv, hkm, last, hlast, hlm, ?_, ?_⟩
          · rw [hrm, hm2, hl2]
          · intro hf
            rw [hown hf, hm2]

/-- The heap `traverseArray` leaves behind on a resolvable node: some number
of fresh nodes of unset kind (possibly none) appended to the node's content. -/
theorem traverseArray_heap (spare : Bool)
    (h : Heap) (c : CandidateNode) (s : PathElement) (node : Node)
    (hnode : h.deref c.Node = some node) :
    ∃ m : Nat, (traverseArray spare h c s).1
      = Heap.write (h ++ List.replicate m ({} : Node)) c.Node
          { node with Content := node.Content ++ List.range' h.length m } := by
  have hself : h = Heap.write (h ++ List.replicate 0 ({} : Node)) c.Node
      { node with Content := node.Content ++ List.range' h.length 0 } := by
    simp only [List.replicate_zero, List.append_nil, List.range'_zero]
    exact (Heap.write_self h c.Node node hnode).symm
  by_cases hs : isSplat s = true
  · refine ⟨0, ?_⟩
    rw [← hself]
    simp [traverseArray, hnode, hs]
  · cases hv : s.Value with
    | int64 index =>
      by_cases hle : (node.Content.length : Int) ≤ index
      · exact ⟨_, by rw [traverseArray_extend spare h c s node index hnode hv hle]⟩
      · refine ⟨0, ?_⟩
        rw [← hself, traverseArray_below spare h c s node index hnode hv (by omega)]
        repeat' split
        all_goals rfl
    | str _ => exact ⟨0, by rw [← hself]; simp [traverseArray, hnode, hs, hv]⟩
    | int _ => exact ⟨0, by rw [← hself]; simp [traverseArray, hnode, hs, hv]⟩
    | other => exact ⟨0, by rw [← hself]; simp [traverseArray, hnode, hs, hv]⟩

/-- Every candidate `traverseArray` returns sits one segment below the
candidate it was called on, in the same document. -/
theorem traverseArray_paths (spare : Bool)
    (h : Heap) (c : CandidateNode) (s : PathElement) (h1 : Heap)
    (rs : List CandidateNode) (hres : traverseArray spare h c s = (h1, .ok rs)) :
    ∀ r ∈ rs, ∃ seg, r.Path = c.Path ++ [seg] ∧ r.Document = c.Document := by
  have hsplat : ∀ (l : List Nat) (start : Nat), ∀ r ∈ splatLoop c start l,
      ∃ seg, r.Path = c.Path ++ [seg] ∧ r.Document = c.Document := by
    intro l
    induction l with
    | nil => intro start r hr; simp [splatLoop] at hr
    | cons p rest ih =>
      intro start r hr
      simp only [splatLoop, List.mem_cons] at hr
      rcases hr with hr | hr
      · exact ⟨_, by rw [hr], by rw [hr]⟩
      · exact ih _ r hr
  cases hnode : h.deref c.Node with
  | none => simp [traverseArray, hnode] at hres
  | some node =>
    by_cases hs : isSplat s = true
    · simp only [traverseArray, hnode, hs, if_true, Prod.mk.injEq, Outcome.ok.injEq] at hres
      intro r hr
      rw [← hres.2] at hr
      obtain ⟨m, hm, l, hl, hrm, _⟩ := sharePaths_mem spare _ r hr
      obtain ⟨seg, hseg, _⟩ := hsplat _ _ l hl
      obtain ⟨_, _, hdoc⟩ := hsplat _ _ m hm
      exact ⟨seg, by rw [hrm]; exact hseg, by rw [hrm]; exact hdoc⟩
    · cases hv : s.Value with
      | int64 index =>
        by_cases hle : (node.Content.length : Int) ≤ index
        · rw [traverseArray_extend spare h c s node index hnode hv hle] at hres
          simp only [Prod.mk.injEq, Outcome.ok.injEq] at hres
          intro r hr
          rw [← hres.2] at hr
          simp only [List.mem_singleton] at hr
          exact ⟨_, by rw [hr], by rw [hr]⟩
        · rw [traverseArray_below spare h c s node index hnode hv (by omega)] at hres
          by_cases hneg : (if index < 0 then (node.Content.length : Int) + index else index) < 0
          · rw [if_pos hneg] at hres
            simp at hres
          · rw [if_neg hneg] at hres
            cases hget : node.Content[(if index < 0 then (node.Content.length : Int) + index
                else index).toNat]? with
            | none =>
              rw [hget] at hres
              simp at hres
            | some p =>
              rw [hget] at hres
              simp only [Prod.mk.injEq, Outcome.ok.injEq] at hres
              intro r hr
              rw [← hres.2] at hr
              simp only [List.mem_singleton] at hr
              exact ⟨_, by rw [hr], by rw [hr]⟩
      | str _ => simp [traverseArray, hnode, hs, hv] at hres
      | int _ => simp [traverseArray, hnode, hs, hv] at hres
      | other => simp [traverseArray, hnode, hs, hv] at hres

/-- Every candidate `traverseMap` returns sits one segment below the candidate
it was called on, in the same document. -/
theorem traverseMap_paths (Match : String → String → Bool) (spare : Bool)
    (h : Heap) (c : CandidateNode)
    (s : PathElement) (h1 : Heap) (rs : List CandidateNode)
    (hres : traverseMap Match spare h c s = (h1, .ok rs)) :
    ∀ r ∈ rs, ∃ seg, r.Path = c.Path ++ [seg] ∧ r.Document = c.Document := by
  cases hnode : h.deref c.Node with
  | none => simp [traverseMap, hnode] at hres
  | some node =>
    rcases traverseMap_cases Match spare h c s node hnode with hp | ⟨_, rs1, hok, hmem⟩ | ⟨_, hnew⟩
    · rw [hp] at hres
      simp at hres
    · rw [hok] at hres
      simp only [Prod.mk.injEq, Outcome.ok.injEq] at hres
      intro r hr
      rw [← hres.2] at hr
      obtain ⟨kv, _, _, last, _, _, hr2, _⟩ := hmem r hr
      exact ⟨_, by rw [hr2]; rfl, by rw [hr2]; rfl⟩
    · rw [hnew] at hres
      simp only [Prod.mk.injEq, Outcome.ok.injEq] at hres
      intro r hr
      rw [← hres.2] at hr
      simp only [List.mem_singleton] at hr
      exact ⟨_, by rw [hr], by rw [hr]⟩

end treeops

namespace treeops

open yaml

/-- On a Document node without children `Traverse` panics on `Content[0]`. -/
theorem Traverse_document_empty (Match : String → String → Bool) (spare : Bool)
    (depth : Nat) (h : Heap)
    (c : CandidateNode) (s : PathElement) (node : Node)
    (hnode : h.deref c.Node = some node) (hkind : node.Kind = DocumentNode)
    (hcontent : node.Content = []) :
    Traverse Match spare (depth + 1) h c s = some (h, .panic) := by
  simp [Traverse, hnode, hkind, hcontent, DocumentNode, MappingNode, SequenceNode]

/-- The dispatch of `Traverse` on a resolvable node, by the kind of the node:
a Document recurses into its first child, a leaf returns nothing, and a
Mapping or Sequence (given or guessed for a node of unset kind) goes to
`traverseMap` or `traverseArray` on the heap with that kind written in. -/
theorem Traverse_cases (Match : String → String → Bool) (spare : Bool) (depth : Nat) (h : Heap)
    (c : CandidateNode) (s : PathElement) (node : Node)
    (hnode : h.deref c.Node = some node) :
    (node.Kind = DocumentNode
        ∧ ((node.Content = [] ∧ Traverse Match spare (depth + 1) h c s = some (h, .panic))
          ∨ ∃ root rest, node.Content = root :: rest
              ∧ Traverse Match spare (depth + 1) h c s
                = Traverse Match false depth h { Node := root, Path := [], Document := c.Document } s))
    ∨ (node.Kind ≠ DocumentNode ∧ node.Kind ≠ MappingNode
        ∧ Traverse Match spare (depth + 1) h c s = some (h, .ok []))
    ∨ ((node.Kind = MappingNode ∨ node.Kind = 0)
        ∧ Traverse Match spare (depth + 1) h c s
          = some (traverseMap Match spare (h.write c.Node { node with Kind := MappingNode }) c s))
    ∨ ((node.Kind = SequenceNode ∨ node.Kind = 0)
        ∧ Traverse Match spare (depth + 1) h c s
          = some (traverseArray spare (h.write c.Node { node with Kind := SequenceNode }) c s)) := by
  by_cases h0 : node.Kind = 0
  · rcases guessKind_cases s with hg | hg
    · refine Or.inr (Or.inr (Or.inr ⟨Or.inr h0, ?_⟩))
      simp [Traverse, hnode, h0, hg, SequenceNode, MappingNode]
    · refine Or.inr (Or.inr (Or.inl ⟨Or.inr h0, ?_⟩))
      simp [Traverse, hnode, h0, hg, MappingNode]
  · by_cases h4 : node.Kind = MappingNode
    · refine Or.inr (Or.inr (Or.inl ⟨Or.inl h4, ?_⟩))
      have hself : ({ node with Kind := MappingNode } : Node) = node := by rw [← h4]
      rw [hself, Heap.write_self h c.Node node hnode]
      exact Traverse_mapping Match spare depth h c s node hnode h4
    · by_cases h2 : node.Kind = SequenceNode
      · refine Or.inr (Or.inr (Or.inr ⟨Or.inl h2, ?_⟩))
        have hself : ({ node with Kind := SequenceNode } : Node) = node := by rw [← h2]
        rw [hself, Heap.write_self h c.Node node hnode]
        exact Traverse_sequence Match spare depth h c s node hnode h2
      · by_cases h1 : node.Kind = DocumentNode
        · refine Or.inl ⟨h1, ?_⟩
          cases hc : node.Content with
          | nil => exact Or.inl ⟨rfl, Traverse_document_empty Match spare depth h c s node hnode h1 hc⟩
          | cons root rest =>
            exact Or.inr ⟨root, rest, rfl,
              Traverse_document Match spare depth h c s node root rest hnode h1 hc⟩
        · exact Or.inr (Or.inl ⟨h1, h4, Traverse_leaf Match spare depth h c s node hnode h0 h4 h2 h1⟩)

/-- Every candidate `Traverse` returns has a path of the form `c.Path ++ [seg]`
or `[seg]`, and the document index of the candidate it was called on. -/
theorem Traverse_paths_aux (Match : String → String → Bool) (spare : Bool)
    : ∀ (depth : Nat) (h : Heap)
    (c : CandidateNode) (s : PathElement) (h1 : Heap) (rs : List CandidateNode),
    Traverse Match spare depth h c s = some (h1, .ok rs) →
    ∀ r ∈ rs, (∃ seg, r.Path = c.Path ++ [seg] ∨ r.Path = [seg]) ∧ r.Document = c.Document
  | 0, _, _, _, _, _, hres => by simp [Traverse] at hres
  | depth + 1, h, c, s, h1, rs, hres => by
    cases hnode : h.deref c.Node with
    | none => simp [Traverse, hnode] at hres
    | some node =>
      rcases Traverse_cases Match spare depth h c s node hnode with
        ⟨_, ⟨_, hp⟩ | ⟨root, rest, _, hrec⟩⟩ | ⟨_, _, hleaf⟩ | ⟨_, hmap⟩ | ⟨_, hseq⟩
      · rw [hp] at hres
        simp at hres
      · rw [hrec] at hres
        intro r hr
        obtain ⟨⟨seg, hseg⟩, hdoc⟩ := Traverse_paths_aux Match false depth h _ s h1 rs hres r hr
        refine ⟨⟨seg, Or.inr ?_⟩, hdoc⟩
        rcases hseg with hseg | hseg
        · simpa using hseg
        · exact hseg
      · rw [hleaf] at hres
        simp only [Option.some.injEq, Prod.mk.injEq, Outcome.ok.injEq] at hres
        intro r hr
        rw [← hres.2] at hr
        simp at hr
      · rw [hmap] at hres
        intro r hr
        obtain ⟨seg, hseg, hdoc⟩ := traverseMap_paths Match spare _ c s h1 rs
          (Option.some.inj hres) r hr
        exact ⟨⟨seg, Or.inl hseg⟩, hdoc⟩
      · rw [hseq] at hres
        intro r hr
        obtain ⟨seg, hseg, hdoc⟩ := traverseArray_paths spare _ c s h1 rs (Option.some.inj hres) r hr
        exact ⟨⟨seg, Or.inl hseg⟩, hdoc⟩

end treeops

namespace treeops

open yaml

/-- Counterexample to C13: two mappings `{a: apple}` that differ only in which
node is the key (node 1 or node 2, two distinct scalars `a`) give the very same
candidate for the matched pair, so nothing in the candidate refers to the key
node: it holds the value node, the path and the document index only. -/
theorem candidate_does_not_identify_key_node :
    Traverse Match false 1 examples.keyOneHeap examples.atRoot examples.literalA
        = some (examples.keyOneHeap, .ok [{ Node := 3, Path := [.str "a"], Document := 0 }])
    ∧ Traverse Match false 1 examples.keyTwoHeap examples.atRoot examples.literalA
        = some (examples.keyTwoHeap, .ok [{ Node := 3, Path := [.str "a"], Document := 0 }])
    ∧ contentPairs [1, 3] = [(1, 3)]
    ∧ contentPairs [2, 3] = [(2, 3)]
    ∧ examples.keyOneHeap.deref 1 ≠ examples.keyOneHeap.deref 2 := by
  refine ⟨by decide, by decide, by decide, by decide, by decide⟩

/-- C13, amended. On a mapping with content of even length and a selector that
matches at least one pair, every candidate `Traverse` returns is made of three
things only: the value node of a matching pair, a path, and the parent's
document index; no reference to the key node is carried.  When the parent's
path has no spare capacity, the path is the parent's path followed by the text
of that pair's key: the key is named by its text in the last path segment. -/
theorem traverse_mapping_candidates_carry_key_text (Match : String → String → Bool)
    (spare : Bool) (depth : Nat) (h : Heap) (c : CandidateNode) (s : PathElement) (node : Node)
    (hnode : h.deref c.Node = some node) (hkind : node.Kind = MappingNode)
    (heven : node.Content.length % 2 = 0) (hptr : ∀ p ∈ node.Content, p < h.length)
    (hmatch : ∃ kv ∈ contentPairs node.Content, pairMatches Match h s kv = true) :
    ∃ rs : List CandidateNode,
      Traverse Match spare (depth + 1) h c s = some (h, .ok rs)
      ∧ ∀ r ∈ rs, ∃ kv ∈ contentPairs node.Content,
          pairMatches Match h s kv = true
          ∧ r.Node = kv.2
          ∧ r.Document = c.Document
          ∧ (spare = false →
              r = { Node := kv.2, Path := c.Path ++ [.str (keyText h kv.1)],
                    Document := c.Document }
              ∧ r.Path.getLast? = some (.str (keyText h kv.1))) := by
  refine ⟨_, by rw [Traverse_mapping Match spare depth h c s node hnode hkind,
    traverseMap_of_match Match spare h c s node hnode heven hptr hmatch], ?_⟩
  intro r hr
  obtain ⟨m, hm, l, _, hrm, hown⟩ := sharePaths_mem spare _ r hr
  obtain ⟨kv, hkv, hm2⟩ := List.mem_map.mp hm
  have hkv2 := List.mem_filter.mp hkv
  refine ⟨kv, hkv2.1, hkv2.2, ?_, ?_, ?_⟩
  · rw [hrm, ← hm2]
    rfl
  · rw [hrm, ← hm2]
    rfl
  · intro hf
    rw [hown hf, ← hm2]
    exact ⟨rfl, by simp [valueCandidate]⟩

/-- Witness for the amended C13: `a.*a*` on `a: {cat: apple, mad: things}`. -/
theorem traverse_mapping_candidates_carry_key_text_witness :
    ∃ rs : List CandidateNode,
      Traverse Match false 1 examples.wildHeap examples.atA examples.globA
        = some (examples.wildHeap, .ok rs)
      ∧ ∀ r ∈ rs, ∃ kv ∈ contentPairs [1, 2, 3, 4],
          pairMatches Match examples.wildHeap examples.globA kv = true
          ∧ r.Node = kv.2
          ∧ r.Document = 0
          ∧ (false = false →
              r = { Node := kv.2,
                    Path := [.str "a"] ++ [.str (keyText examples.wildHeap kv.1)],
                    Document := 0 }
              ∧ r.Path.getLast? = some (.str (keyText examples.wildHeap kv.1))) :=
  traverse_mapping_candidates_carry_key_text Match false 0 examples.wildHeap examples.atA
    examples.globA { Kind := MappingNode, Tag := "!!map", Content := [1, 2, 3, 4] }
    (by decide) (by decide) (by decide) (by decide) (by decide)

/-- Counterexample to C16: on a Document candidate that carries the path `[x]`,
the step `a` returns a candidate at path `[a]`, which is not `[x]` followed by
one segment and does not have length two. -/
theorem document_candidate_path_is_dropped :
    Traverse Match false 2 examples.docHeap examples.docWithPath examples.literalA
        = some (examples.docHeap, .ok [{ Node := 3, Path := [.str "a"], Document := 0 }])
    ∧ examples.docWithPath.Path = [.str "x"]
    ∧ (¬ ∃ seg, ([.str "a"] : List PathSegment) = examples.docWithPath.Path ++ [seg])
    ∧ ([.str "a"] : List PathSegment).length ≠ examples.docWithPath.Path.length + 1 := by
  refine ⟨by decide, by decide, ?_, by decide⟩
  rintro ⟨seg, hseg⟩
  simp [examples.docWithPath] at hseg

/-- C16, amended. Every candidate `Traverse` returns has the document index of
the candidate `c` it was called on and a path that adds exactly one segment: to
`c`'s path when `c`'s node is a Mapping, a Sequence or of unset kind, and to
the empty root path when `c`'s node is a Document (the recursion into the root
child starts from the empty path), which is `c`'s path plus one segment exactly
when a Document candidate has the empty path. -/
theorem traverse_paths_add_one_segment (Match : String → String → Bool) (spare : Bool) (depth : Nat)
    (h : Heap) (c : CandidateNode) (s : PathElement) (node : Node) (h1 : Heap)
    (rs : List CandidateNode) (hnode : h.deref c.Node = some node)
    (hres : Traverse Match spare depth h c s = some (h1, .ok rs)) :
    ∀ r ∈ rs,
      (∃ seg, r.Path = (if node.Kind = DocumentNode then [] else c.Path) ++ [seg])
      ∧ r.Path.length = (if node.Kind = DocumentNode then 0 else c.Path.length) + 1
      ∧ r.Document = c.Document := by
  have hmain : ∀ r ∈ rs,
      (∃ seg, r.Path = (if node.Kind = DocumentNode then [] else c.Path) ++ [seg])
      ∧ r.Document = c.Document := by
    cases depth with
    | zero => simp [Traverse] at hres
    | succ depth =>
      rcases Traverse_cases Match spare depth h c s node hnode with
        ⟨hd, ⟨_, hp⟩ | ⟨root, rest, _, hrec⟩⟩ | ⟨hnd, _, hleaf⟩ | ⟨hk, hmap⟩ | ⟨hk, hseq⟩
      · rw [hp] at hres
        simp at hres
      · rw [hrec] at hres
        intro r hr
        obtain ⟨⟨seg, hseg⟩, hdoc⟩ := Traverse_paths_aux Match false depth h _ s h1 rs hres r hr
        refine ⟨⟨seg, ?_⟩, hdoc⟩
        rw [if_pos hd]
        rcases hseg with hseg | hseg
        · simpa using hseg
        · simpa using hseg
      · rw [hleaf] at hres
        simp only [Option.some.injEq, Prod.mk.injEq, Outcome.ok.injEq] at hres
        intro r hr
        rw [← hres.2] at hr
        simp at hr
      · have hnd : ¬ node.Kind = DocumentNode := by
          rcases hk with hk | hk <;> rw [hk] <;> decide
        rw [hmap] at hres
        intro r hr
        obtain ⟨seg, hseg, hdoc⟩ := traverseMap_paths Match spare _ c s h1 rs
          (Option.some.inj hres) r hr
        exact ⟨⟨seg, by rw [if_neg hnd]; exact hseg⟩, hdoc⟩
      · have hnd : ¬ node.Kind = DocumentNode := by
          rcases hk with hk | hk <;> rw [hk] <;> decide
        rw [hseq] at hres
        intro r hr
        obtain ⟨seg, hseg, hdoc⟩ := traverseArray_paths spare _ c s h1 rs (Option.some.inj hres) r hr
        exact ⟨⟨seg, by rw [if_neg hnd]; exact hseg⟩, hdoc⟩
  intro r hr
  obtain ⟨⟨seg, hseg⟩, hdoc⟩ := hmain r hr
  refine ⟨⟨seg, hseg⟩, ?_, hdoc⟩
  rw [hseg]
  split_ifs <;> simp

/-- Witness for the amended C16: the step `a` on the Document node of
`a: {c: apple}`, called at the empty path. -/
theorem traverse_paths_add_one_segment_witness :
    Traverse Match false 2 examples.docHeap examples.atRoot examples.literalA
        = some (examples.docHeap, .ok [{ Node := 3, Path := [.str "a"], Document := 0 }])
    ∧ ∀ r ∈ [({ Node := 3, Path := [.str "a"], Document := 0 } : CandidateNode)],
      (∃ seg, r.Path
          = (if (DocumentNode : Kind) = DocumentNode then [] else examples.atRoot.Path) ++ [seg])
      ∧ r.Path.length
          = (if (DocumentNode : Kind) = DocumentNode then 0 else examples.atRoot.Path.length) + 1
      ∧ r.Document = examples.atRoot.Document :=
  ⟨by decide,
   traverse_paths_add_one_segment Match false 2 examples.docHeap examples.atRoot examples.literalA
    { Kind := DocumentNode, Content := [1] } examples.docHeap
    [{ Node := 3, Path := [.str "a"], Document := 0 }] (by decide) (by decide)⟩

end treeops

namespace treeops

open yaml

/-- A panic of `traverseArray` leaves the heap as it was. -/
theorem traverseArray_panic (spare : Bool)
    (h : Heap) (c : CandidateNode) (s : PathElement) (node : Node)
    (hnode : h.deref c.Node = some node) (hpanic : (traverseArray spare h c s).2 = .panic) :
    (traverseArray spare h c s).1 = h := by
  by_cases hs : isSplat s = true
  · simp [traverseArray, hnode, hs]
  · cases hv : s.Value with
    | int64 index =>
      by_cases hle : (node.Content.length : Int) ≤ index
      · rw [traverseArray_extend spare h c s node index hnode hv hle] at hpanic
        simp at hpanic
      · rw [traverseArray_below spare h c s node index hnode hv (by omega)]
        repeat' split
        all_goals rfl
    | str _ => simp [traverseArray, hnode, hs, hv]
    | int _ => simp [traverseArray, hnode, hs, hv]
    | other => simp [traverseArray, hnode, hs, hv]

theorem AppendsOnly.refl (h : Heap) : AppendsOnly h h := by
  intro p n hn
  exact ⟨n, hn, List.prefix_refl _, fun _ q hq => by simp at hq⟩

/-- The heap a call leaves behind when the node it is called on is not a
Document: fresh nodes at the end of the heap and, in the node itself, a kind
(given, or guessed when it was unset) and pointers appended to the content.
A Sequence gets fresh nodes of unset kind only; a Mapping has an even content
after any outcome but a panic; a panic appends nothing. -/
theorem Traverse_shape (Match : String → String → Bool) (spare : Bool) (depth : Nat) (h : Heap)
    (c : CandidateNode) (s : PathElement) (node : Node)
    (hnode : h.deref c.Node = some node) (hnd : node.Kind ≠ DocumentNode) :
    ∃ (k : Kind) (fresh : Heap) (extra : List Nat) (out : Outcome),
      Traverse Match spare (depth + 1) h c s
        = some (Heap.write (h ++ fresh) c.Node
                  { node with Kind := k, Content := node.Content ++ extra }, out)
      ∧ (k = node.Kind ∨ node.Kind = 0)
      ∧ (k = SequenceNode →
          fresh = List.replicate extra.length ({} : Node)
          ∧ extra = List.range' h.length extra.length)
      ∧ (k = MappingNode → out ≠ .panic → (node.Content ++ extra).length % 2 = 0)
      ∧ (∀ n ∈ fresh, n.Kind ≠ MappingNode)
      ∧ (out = .panic → fresh = [] ∧ extra = []) := by
  have hp : c.Node < h.length := Heap.deref_lt hnode
  rcases Traverse_cases Match spare depth h c s node hnode with
    ⟨hd, _⟩ | ⟨_, h4, hleaf⟩ | ⟨hk, hmap⟩ | ⟨hk, hseq⟩
  · exact absurd hd hnd
  · refine ⟨node.Kind, [], [], .ok [], ?_, Or.inl rfl, fun _ => ⟨rfl, rfl⟩,
      fun hk => absurd hk h4, fun n hn => by simp at hn, fun hpanic => by simp at hpanic⟩
    rw [hleaf]
    simp only [List.append_nil]
    rw [Heap.write_self h c.Node node hnode]
  · have hw : (h.write c.Node { node with Kind := MappingNode }).deref c.Node
        = some { node with Kind := MappingNode } := Heap.deref_write_same _ _ _ hp
    have hkind : MappingNode = node.Kind ∨ node.Kind = 0 := by
      rcases hk with hk | hk
      · exact Or.inl hk.symm
      · exact Or.inr hk
    have hlen : (h.write c.Node { node with Kind := MappingNode }).length = h.length := by
      simp [Heap.write]
    rcases traverseMap_cases Match spare _ c s _ hw with hpanic | ⟨hev, rs, hok, _⟩ | ⟨hev, hnew⟩
    · refine ⟨MappingNode, [], [], .panic, ?_, hkind, fun hk2 => absurd hk2 (by decide),
        fun _ hne => absurd rfl hne, fun n hn => by simp at hn, fun _ => ⟨rfl, rfl⟩⟩
      rw [hmap, hpanic]
      simp
    · refine ⟨MappingNode, [], [], .ok rs, ?_, hkind, fun hk2 => absurd hk2 (by decide),
        fun _ _ => by simpa using hev, fun n hn => by simp at hn,
        fun hpanic => by simp at hpanic⟩
      rw [hmap, hok]
      simp
    · refine ⟨MappingNode, [({} : Node), { Kind := ScalarNode, Value := s.StringValue }],
        [h.length + 1, h.length],
        .ok [{ Node := h.length, Path := c.Path ++ [.str s.StringValue],
               Document := c.Document }],
        ?_, hkind, fun hk2 => absurd hk2 (by decide),
        fun _ _ => ?_, ?_, fun hpanic => by simp at hpanic⟩
      · rw [hmap, hnew, Heap.write_append_write _ _ _ _ _ hp, hlen]
      · simp only [List.length_append] at hev ⊢
        simp only [List.length_cons, List.length_nil]
        omega
      · intro n hn
        simp only [List.mem_cons, List.mem_singleton, List.not_mem_nil, or_false] at hn
        rcases hn with hn | hn
        · rw [hn]; decide
        · rw [hn]; simp [ScalarNode, MappingNode]
  · have hw : (h.write c.Node { node with Kind := SequenceNode }).deref c.Node
        = some { node with Kind := SequenceNode } := Heap.deref_write_same _ _ _ hp
    have hkind : SequenceNode = node.Kind ∨ node.Kind = 0 := by
      rcases hk with hk | hk
      · exact Or.inl hk.symm
      · exact Or.inr hk
    have hlen : (h.write c.Node { node with Kind := SequenceNode }).length = h.length := by
      simp [Heap.write]
    obtain ⟨m, hm⟩ := traverseArray_heap spare _ c s _ hw
    by_cases hpanic : (traverseArray spare (h.write c.Node { node with Kind := SequenceNode }) c s).2
        = .panic
    · refine ⟨SequenceNode, [], [], .panic, ?_, hkind, fun _ => ⟨rfl, rfl⟩,
        fun hk2 => absurd hk2 (by decide), fun n hn => by simp at hn, fun _ => ⟨rfl, rfl⟩⟩
      have hpair : traverseArray spare (h.write c.Node { node with Kind := SequenceNode }) c s
          = ((traverseArray spare (h.write c.Node { node with Kind := SequenceNode }) c s).1,
             (traverseArray spare (h.write c.Node { node with Kind := SequenceNode }) c s).2) := rfl
      rw [hseq, hpair, hpanic, traverseArray_panic spare _ c s _ hw hpanic]
      simp
    · refine ⟨SequenceNode, List.replicate m ({} : Node), List.range' h.length m,
        (traverseArray spare (h.write c.Node { node with Kind := SequenceNode }) c s).2, ?_, hkind,
        fun _ => by simp, fun hk2 => absurd hk2 (by decide), ?_, fun hp2 => absurd hp2 hpanic⟩
      · rw [hseq]
        have hpair : traverseArray spare (h.write c.Node { node with Kind := SequenceNode }) c s
            = ((traverseArray spare (h.write c.Node { node with Kind := SequenceNode }) c s).1,
               (traverseArray spare (h.write c.Node { node with Kind := SequenceNode }) c s).2) := rfl
        rw [hpair, hm, Heap.write_append_write _ _ _ _ _ hp, hlen]
      · intro n hn
        rw [List.eq_of_mem_replicate hn]
        decide

end treeops

namespace treeops

open yaml

/-- Appending pointers to one node's content, with fresh nodes of unset kind
behind them when the node is a Sequence, appends only. -/
theorem AppendsOnly.of_shape (h fresh : Heap) (p0 : Nat) (node : Node) (k : Kind)
    (extra : List Nat) (hnode : h.deref p0 = some node)
    (hseq : k = SequenceNode →
      fresh = List.replicate extra.length ({} : Node)
      ∧ extra = List.range' h.length extra.length) :
    AppendsOnly h (Heap.write (h ++ fresh) p0
      { node with Kind := k, Content := node.Content ++ extra }) := by
  have hp0 : p0 < h.length := Heap.deref_lt hnode
  intro p n hn
  have hp : p < h.length := Heap.deref_lt hn
  by_cases hpp : p = p0
  · subst hpp
    have hnn : n = node := by
      rw [hnode] at hn
      exact (Option.some.inj hn).symm
    subst hnn
    refine ⟨_, Heap.deref_write_same _ _ _ (by simp; omega), List.prefix_append _ _, ?_⟩
    intro hk q hq
    obtain ⟨hfresh, hextra⟩ := hseq hk
    simp only [List.drop_left] at hq
    rw [hextra] at hq
    obtain ⟨hq1, hq2⟩ := List.mem_range'_1.mp hq
    have hqe : q = h.length + (q - h.length) := by omega
    rw [Heap.deref_write_other _ _ _ _ (by omega), hqe, Heap.deref_append_new, hfresh,
      List.getElem?_replicate, if_pos (by omega)]
  · refine ⟨n, ?_, List.prefix_refl _, fun _ q hq => by simp at hq⟩
    rw [Heap.deref_write_other _ _ _ _ (Ne.symm hpp), Heap.deref_append_old _ _ _ hp, hn]

/-- Whatever its outcome, a call of `Traverse` that returns appends only. -/
theorem Traverse_appendsOnly (Match : String → String → Bool) (spare : Bool)
    : ∀ (depth : Nat) (h : Heap)
    (c : CandidateNode) (s : PathElement) (h1 : Heap) (out : Outcome),
    Traverse Match spare depth h c s = some (h1, out) → AppendsOnly h h1
  | 0, _, _, _, _, _, hres => by simp [Traverse] at hres
  | depth + 1, h, c, s, h1, out, hres => by
    cases hnode : h.deref c.Node with
    | none =>
      simp only [Traverse, hnode, Option.some.injEq, Prod.mk.injEq] at hres
      rw [← hres.1]
      exact AppendsOnly.refl h
    | some node =>
      by_cases hd : node.Kind = DocumentNode
      · rcases Traverse_cases Match spare depth h c s node hnode with
          ⟨_, ⟨_, hp⟩ | ⟨root, rest, _, hrec⟩⟩ | ⟨hnd, _, _⟩ | ⟨hk, _⟩ | ⟨hk, _⟩
        · rw [hp] at hres
          simp only [Option.some.injEq, Prod.mk.injEq] at hres
          rw [← hres.1]
          exact AppendsOnly.refl h
        · rw [hrec] at hres
          exact Traverse_appendsOnly Match false depth h _ s h1 out hres
        · exact absurd hd hnd
        · rcases hk with hk | hk <;> rw [hk] at hd <;> exact absurd hd (by decide)
        · rcases hk with hk | hk <;> rw [hk] at hd <;> exact absurd hd (by decide)
      · obtain ⟨k, fresh, extra, out1, hshape, _, hseq, _, _, _⟩ :=
          Traverse_shape Match spare depth h c s node hnode hd
        rw [hshape] at hres
        simp only [Option.some.injEq, Prod.mk.injEq] at hres
        rw [← hres.1]
        exact AppendsOnly.of_shape h fresh c.Node node k extra hnode hseq

/-- A call of `Traverse` on a resolvable node that is not a Document returns
with any positive recursion bound. -/
theorem Traverse_returns (Match : String → String → Bool) (spare : Bool) (depth : Nat) (h : Heap)
    (c : CandidateNode) (s : PathElement) (node : Node)
    (hnode : h.deref c.Node = some node) (hnd : node.Kind ≠ DocumentNode) :
    ∃ h1 out, Traverse Match spare (depth + 1) h c s = some (h1, out) := by
  obtain ⟨k, fresh, extra, out, hshape, _⟩ := Traverse_shape Match spare depth h c s node hnode hnd
  exact ⟨_, out, hshape⟩

/-- C15. `Traverse` only ever appends.  On a node that is not a Document the
call returns with any positive recursion bound, and whenever a call returns,
with candidates, an error or a panic, every node that existed before is still
there with its old content as a prefix of its new content (nothing removed,
replaced or reordered), and every element appended to a node that is a
Sequence afterwards is a node of unset kind. -/
theorem traverse_only_appends (Match : String → String → Bool) (spare : Bool) (h : Heap)
    (c : CandidateNode) (s : PathElement) (node : Node)
    (hnode : h.deref c.Node = some node) :
    (node.Kind ≠ DocumentNode →
        ∀ depth, ∃ h1 out, Traverse Match spare (depth + 1) h c s = some (h1, out))
    ∧ ∀ depth h1 out, Traverse Match spare depth h c s = some (h1, out) →
        ∀ p n, h.deref p = some n →
          ∃ n1, h1.deref p = some n1 ∧ n.Content <+: n1.Content
            ∧ (n1.Kind = SequenceNode →
                ∀ q ∈ n1.Content.drop n.Content.length, h1.deref q = some {}) :=
  ⟨fun hnd depth => Traverse_returns Match spare depth h c s node hnode hnd,
   fun depth h1 out hres => Traverse_appendsOnly Match spare depth h c s h1 out hres⟩

/-- Witness for C15: index `5` on `[apple, sdfsd, apple]`. -/
theorem traverse_only_appends_witness :
    ((SequenceNode : Kind) ≠ DocumentNode →
        ∀ depth, ∃ h1 out,
          Traverse Match false (depth + 1) examples.fruitHeap examples.atRoot (examples.indexSel 5)
            = some (h1, out))
    ∧ ∀ depth h1 out,
        Traverse Match false depth examples.fruitHeap examples.atRoot (examples.indexSel 5)
          = some (h1, out) →
        ∀ p n, examples.fruitHeap.deref p = some n →
          ∃ n1, h1.deref p = some n1 ∧ n.Content <+: n1.Content
            ∧ (n1.Kind = SequenceNode →
                ∀ q ∈ n1.Content.drop n.Content.length, h1.deref q = some {}) :=
  traverse_only_appends Match false examples.fruitHeap examples.atRoot (examples.indexSel 5)
    { Kind := SequenceNode, Tag := "!!seq", Content := [1, 2, 3] } (by decide)

end treeops

namespace treeops

open yaml

/-- A call of `Traverse` keeps every Mapping at an even content length, when
it does not panic or when the nodes of unset kind have an even content length
as well. -/
theorem Traverse_mappings_even (Match : String → String → Bool) (spare : Bool)
    : ∀ (depth : Nat) (h : Heap)
    (c : CandidateNode) (s : PathElement) (h1 : Heap) (out : Outcome),
    (∀ n ∈ h, n.Kind = MappingNode → n.Content.length % 2 = 0) →
    Traverse Match spare depth h c s = some (h1, out) →
    (out ≠ .panic ∨ ∀ n ∈ h, n.Kind = 0 → n.Content.length % 2 = 0) →
    ∀ n ∈ h1, n.Kind = MappingNode → n.Content.length % 2 = 0
  | 0, _, _, _, _, _, _, hres, _ => by simp [Traverse] at hres
  | depth + 1, h, c, s, h1, out, heven, hres, hcase => by
    cases hnode : h.deref c.Node with
    | none =>
      simp only [Traverse, hnode, Option.some.injEq, Prod.mk.injEq] at hres
      rw [← hres.1]
      exact heven
    | some node =>
      have hmem : node ∈ h := List.getElem?_mem hnode
      by_cases hd : node.Kind = DocumentNode
      · rcases Traverse_cases Match spare depth h c s node hnode with
          ⟨_, ⟨_, hp⟩ | ⟨root, rest, _, hrec⟩⟩ | ⟨hnd, _, _⟩ | ⟨hk, _⟩ | ⟨hk, _⟩
        · rw [hp] at hres
          simp only [Option.some.injEq, Prod.mk.injEq] at hres
          rw [← hres.1]
          exact heven
        · rw [hrec] at hres
          exact Traverse_mappings_even Match false depth h _ s h1 out heven hres hcase
        · exact absurd hd hnd
        · rcases hk with hk | hk <;> rw [hk] at hd <;> exact absurd hd (by decide)
        · rcases hk with hk | hk <;> rw [hk] at hd <;> exact absurd hd (by decide)
      · obtain ⟨k, fresh, extra, out1, hshape, hkind, _, hmapeven, hfresh, hpanic⟩ :=
          Traverse_shape Match spare depth h c s node hnode hd
        rw [hshape] at hres
        simp only [Option.some.injEq, Prod.mk.injEq] at hres
        obtain ⟨hheap, hout⟩ := hres
        subst hout
        intro n hn hnk
        rw [← hheap] at hn
        rcases List.mem_or_eq_of_mem_set hn with hold | hnew
        · rcases List.mem_append.mp hold with hh | hf
          · exact heven n hh hnk
          · exact absurd hnk (hfresh n hf)
        · rw [hnew] at hnk ⊢
          have hk : k = MappingNode := hnk
          by_cases hp : out1 = .panic
          · obtain ⟨_, hextra⟩ := hpanic hp
            have hunset : ∀ n ∈ h, n.Kind = 0 → n.Content.length % 2 = 0 := by
              rcases hcase with hne | hu
              · exact absurd hp hne
              · exact hu
            simp only [hextra, List.append_nil]
            rcases hkind with hkk | hk0
            · exact heven node hmem (by rw [← hkk, hk])
            · exact hunset node hmem hk0
          · exact hmapeven hk hp

/-- C14. If every Mapping of the heap has content of even length before a
call of `Traverse`, then after every call that returns (with candidates or
with an error) every Mapping of the heap, so every Mapping reachable from the
candidate's node, has content of even length: a node whose kind was guessed as
Mapping and a mapping that received an auto-created pair included.  The same
holds after a panic when the nodes of unset kind have content of even length
too, as every node the traverser creates has. -/
theorem traverse_keeps_mappings_even (Match : String → String → Bool) (spare : Bool) (depth : Nat)
    (h : Heap) (c : CandidateNode) (s : PathElement) (h1 : Heap) (out : Outcome)
    (heven : ∀ n ∈ h, n.Kind = MappingNode → n.Content.length % 2 = 0)
    (hres : Traverse Match spare depth h c s = some (h1, out)) :
    (out ≠ .panic → ∀ n ∈ h1, n.Kind = MappingNode → n.Content.length % 2 = 0)
    ∧ ((∀ n ∈ h, n.Kind = 0 → n.Content.length % 2 = 0) →
        ∀ n ∈ h1, n.Kind = MappingNode → n.Content.length % 2 = 0) :=
  ⟨fun hne => Traverse_mappings_even Match spare depth h c s h1 out heven hres (Or.inl hne),
   fun hu => Traverse_mappings_even Match spare depth h c s h1 out heven hres (Or.inr hu)⟩

/-- Witness for C14: the literal `b` on `{c: apple}` appends a pair, and the
literal `b` on a fresh node of unset kind makes it a mapping with one pair. -/
theorem traverse_keeps_mappings_even_witness :
    ((Outcome.ok [{ Node := 3, Path := [.str "a", .str "b"], Document := 0 }] ≠ .panic →
        ∀ n ∈ ([ { Kind := MappingNode, Tag := "!!map", Content := [1, 2, 4, 3] },
                 { Kind := ScalarNode, Tag := "!!str", Value := "c" },
                 { Kind := ScalarNode, Tag := "!!str", Value := "apple" }, {},
                 { Kind := ScalarNode, Value := "b" } ] : Heap),
          n.Kind = MappingNode → n.Content.length % 2 = 0)
      ∧ ((∀ n ∈ examples.mismatchHeap, n.Kind = 0 → n.Content.length % 2 = 0) →
        ∀ n ∈ ([ { Kind := MappingNode, Tag := "!!map", Content := [1, 2, 4, 3] },
                 { Kind := ScalarNode, Tag := "!!str", Value := "c" },
                 { Kind := ScalarNode, Tag := "!!str", Value := "apple" }, {},
                 { Kind := ScalarNode, Value := "b" } ] : Heap),
          n.Kind = MappingNode → n.Content.length % 2 = 0))
    ∧ Traverse Match false 1 examples.unsetHeap examples.atRoot examples.literalB
        = some ([ { Kind := MappingNode, Content := [2, 1] }, {},
                  { Kind := ScalarNode, Value := "b" } ],
                .ok [{ Node := 1, Path := [.str "b"], Document := 0 }]) :=
  ⟨traverse_keeps_mappings_even Match false 1 examples.mismatchHeap examples.atA examples.literalB
      [ { Kind := MappingNode, Tag := "!!map", Content := [1, 2, 4, 3] },
        { Kind := ScalarNode, Tag := "!!str", Value := "c" },
        { Kind := ScalarNode, Tag := "!!str", Value := "apple" }, {},
        { Kind := ScalarNode, Value := "b" } ]
      (.ok [{ Node := 3, Path := [.str "a", .str "b"], Document := 0 }])
      (by decide) (by decide),
   by decide⟩

end treeops

/-! ## Styles and the node model of yqlib -/

namespace yqlib

open yaml

/-- Evaluation for C17 at the failing input: the style of a tagged,
double-quoted scalar, `TaggedStyle | DoubleQuotedStyle = 3`, is no case of the
switch of `MapYamlStyle`, which returns 0 for it, and whatever the constants of
yqlib are, `MapToYamlStyle` does not give it back. -/
theorem style_round_trip_loses_combined_flags :
    examples.taggedDoubleQuoted = 3
    ∧ (∀ t : StyleConstants, MapYamlStyle t examples.taggedDoubleQuoted = 0)
    ∧ (∀ t : StyleConstants,
        MapToYamlStyle t (MapYamlStyle t examples.taggedDoubleQuoted)
          ≠ examples.taggedDoubleQuoted)
    ∧ MapToYamlStyle examples.yqStyles
        (MapYamlStyle examples.yqStyles examples.taggedDoubleQuoted) = 0 := by
  have h3 : examples.taggedDoubleQuoted = 3 := by decide
  have hmap : ∀ t : StyleConstants, MapYamlStyle t examples.taggedDoubleQuoted = 0 := by
    intro t
    rw [h3]
    simp [MapYamlStyle, TaggedStyle, DoubleQuotedStyle, SingleQuotedStyle, LiteralStyle,
      FoldedStyle, FlowStyle]
  refine ⟨h3, hmap, ?_, by decide⟩
  intro t
  rw [hmap t, h3]
  unfold MapToYamlStyle
  split_ifs <;> decide

theorem CandidateNode.Key_setKey (c k : CandidateNode) : (c.setKey k).Key = some k := by
  cases c; simp [CandidateNode.setKey, CandidateNode.Key]

theorem CandidateNode.IsMapKey_setIsMapKey (c : CandidateNode) (b : Bool) :
    (c.setIsMapKey b).IsMapKey = b := by
  cases c; simp [CandidateNode.setIsMapKey, CandidateNode.IsMapKey]

theorem CandidateNode.Content_setContent (c : CandidateNode) (l : List CandidateNode) :
    (c.setContent l).Content = l := by
  cases c; simp [CandidateNode.setContent, CandidateNode.Content]

theorem CandidateNode.Kind_setContent (c : CandidateNode) (l : List CandidateNode) :
    (c.setContent l).Kind = c.Kind := by
  cases c; simp [CandidateNode.setContent, CandidateNode.Kind]

theorem CandidateNode.Kind_setFields (c : CandidateNode) (f : Fields) :
    (c.setFields f).Kind = c.Kind := by
  cases c; simp [CandidateNode.setFields, CandidateNode.Kind]

theorem CandidateNode.Kind_setKind (c : CandidateNode) (k : yqlib.Kind) :
    (c.setKind k).Kind = k := by
  cases c; simp [CandidateNode.setKind, CandidateNode.Kind]

theorem CandidateNode.fields_setContent (c : CandidateNode) (l : List CandidateNode) :
    (c.setContent l).fields = c.fields := by
  cases c; simp [CandidateNode.setContent, CandidateNode.fields]

theorem CandidateNode.fields_setFields (c : CandidateNode) (f : Fields) :
    (c.setFields f).fields = f := by
  cases c; simp [CandidateNode.setFields, CandidateNode.fields]

theorem CandidateNode.Content_setFields (c : CandidateNode) (f : Fields) :
    (c.setFields f).Content = c.Content := by
  cases c; simp [CandidateNode.setFields, CandidateNode.Content]

theorem CandidateNode.Content_setKind (c : CandidateNode) (k : yqlib.Kind) :
    (c.setKind k).Content = c.Content := by
  cases c; simp [CandidateNode.setKind, CandidateNode.Content]

theorem Result.bind_eq_ok {α β : Type} (r : Result α) (f : α → Result β) (b : β)
    (h : r.bind f = .ok b) : ∃ a, r = .ok a ∧ f a = .ok b := by
  cases r with
  | ok a => exact ⟨a, rfl, h⟩
  | error msg => simp [Result.bind] at h
  | panic => simp [Result.bind] at h

/-- The Mapping case of `UnmarshalYAML`. -/
theorem UnmarshalYAML_mapping (t : StyleConstants)
    (Decode : NodeTree → CandidateNode → Result CandidateNode) (o : CandidateNode)
    (fields : Fields) (content : List NodeTree) :
    UnmarshalYAML t Decode o (.mk MappingNode fields content)
      = (unmarshalMappingContent t Decode
            ((o.setKind .MappingNode).setFields (copyFromYamlNode t fields)) content).bind
          fun children =>
            .ok (((o.setKind .MappingNode).setFields (copyFromYamlNode t fields)).setContent
              children) := by
  simp [UnmarshalYAML, NodeTree.Kind, NodeTree.fields, NodeTree.Content, MappingNode,
    DocumentNode, AliasNode, ScalarNode]

/-- The Sequence case of `UnmarshalYAML`. -/
theorem UnmarshalYAML_sequence (t : StyleConstants)
    (Decode : NodeTree → CandidateNode → Result CandidateNode) (o : CandidateNode)
    (fields : Fields) (content : List NodeTree) :
    UnmarshalYAML t Decode o (.mk SequenceNode fields content)
      = (unmarshalSequenceContent t Decode
            ((o.setKind .SequenceNode).setFields (copyFromYamlNode t fields)) 0 content).bind
          fun children =>
            .ok (((o.setKind .SequenceNode).setFields (copyFromYamlNode t fields)).setContent
              children) := by
  simp [UnmarshalYAML, NodeTree.Kind, NodeTree.fields, NodeTree.Content, MappingNode,
    DocumentNode, AliasNode, ScalarNode, SequenceNode]

/-- The children the Mapping loop builds: as many as the yaml node has, the
one at an even position flagged as a map key and the one after it referring to
it as its key. -/
theorem unmarshalMappingContent_ok (t : StyleConstants)
    (Decode : NodeTree → CandidateNode → Result CandidateNode) (o : CandidateNode) :
    ∀ (l : List NodeTree) (cs : List CandidateNode),
    unmarshalMappingContent t Decode o l = .ok cs →
    cs.length = l.length
      ∧ ∀ i, 2 * i + 1 < l.length →
          ∃ k v, cs[2 * i]? = some k ∧ k.IsMapKey = true
            ∧ cs[2 * i + 1]? = some v ∧ v.Key = some k
  | [], cs, hres => by
    simp only [unmarshalMappingContent, Result.ok.injEq] at hres
    subst hres
    exact ⟨rfl, fun i hi => by simp at hi⟩
  | [key], cs, hres => by
    simp only [unmarshalMappingContent] at hres
    obtain ⟨_, _, hbad⟩ := Result.bind_eq_ok _ _ _ hres
    simp at hbad
  | key :: value :: rest, cs, hres => by
    simp only [unmarshalMappingContent] at hres
    obtain ⟨keyNode0, _, hres⟩ := Result.bind_eq_ok _ _ _ hres
    obtain ⟨valueNode0, _, hres⟩ := Result.bind_eq_ok _ _ _ hres
    obtain ⟨children, hrest, hres⟩ := Result.bind_eq_ok _ _ _ hres
    simp only [Result.ok.injEq] at hres
    subst hres
    obtain ⟨hlen, hpairs⟩ := unmarshalMappingContent_ok t Decode o rest children hrest
    refine ⟨by simp [hlen], ?_⟩
    intro i hi
    cases i with
    | zero =>
      exact ⟨keyNode0.setIsMapKey true, valueNode0.setKey (keyNode0.setIsMapKey true),
        by simp, CandidateNode.IsMapKey_setIsMapKey _ _, by simp,
        CandidateNode.Key_setKey _ _⟩
    | succ j =>
      have hj : 2 * j + 1 < rest.length := by simp at hi; omega
      obtain ⟨k, v, hk, hkey, hv, hvk⟩ := hpairs j hj
      refine ⟨k, v, ?_, hkey, ?_, hvk⟩
      · have e : 2 * (j + 1) = (2 * j) + 1 + 1 := by omega
        rw [e]; simpa using hk
      · have e : 2 * (j + 1) + 1 = (2 * j + 1) + 1 + 1 := by omega
        rw [e]; simpa using hv

/-- C19. When `UnmarshalYAML` succeeds on a yaml Mapping node with `2m`
children, the resulting node has kind Mapping and `2m` children, and for every
`i < m` the child at position `2i` has the is-map-key flag set and the child at
position `2i+1` has that child as its key back-reference.  This holds whatever
yaml.v3's `Decode` leaves in a child. -/
theorem unmarshal_mapping_links_keys (t : StyleConstants)
    (Decode : NodeTree → CandidateNode → Result CandidateNode) (o r : CandidateNode)
    (fields : Fields) (content : List NodeTree) (m : Nat)
    (hlen : content.length = 2 * m)
    (hres : UnmarshalYAML t Decode o (.mk MappingNode fields content) = .ok r) :
    r.Kind = .MappingNode
    ∧ r.Content.length = 2 * m
    ∧ ∀ i, i < m →
        ∃ k v, r.Content[2 * i]? = some k ∧ k.IsMapKey = true
          ∧ r.Content[2 * i + 1]? = some v ∧ v.Key = some k := by
  rw [UnmarshalYAML_mapping] at hres
  obtain ⟨children, hchildren, hres⟩ := Result.bind_eq_ok _ _ _ hres
  simp only [Result.ok.injEq] at hres
  subst hres
  obtain ⟨hl, hpairs⟩ := unmarshalMappingContent_ok t Decode _ content children hchildren
  refine ⟨?_, ?_, ?_⟩
  · rw [CandidateNode.Kind_setContent, CandidateNode.Kind_setFields,
      CandidateNode.Kind_setKind]
  · rw [CandidateNode.Content_setContent, hl, hlen]
  · intro i hi
    rw [CandidateNode.Content_setContent]
    exact hpairs i (by omega)

/-- Witness for C19: the yaml mapping `{a: x, b: y}`. -/
theorem unmarshal_mapping_links_keys_witness :
    ∃ r : CandidateNode,
      UnmarshalYAML examples.yqStyles examples.scalarDecode CandidateNode.zero
        examples.sampleMapping = .ok r
      ∧ r.Kind = .MappingNode
      ∧ r.Content.length = 2 * 2
      ∧ ∀ i, i < 2 →
          ∃ k v, r.Content[2 * i]? = some k ∧ k.IsMapKey = true
            ∧ r.Content[2 * i + 1]? = some v ∧ v.Key = some k :=
  ⟨_, rfl, unmarshal_mapping_links_keys examples.yqStyles examples.scalarDecode
    CandidateNode.zero _ { Tag := "!!map" }
    [ .mk ScalarNode { Tag := "!!str", Value := "a" } [],
      .mk ScalarNode { Tag := "!!str", Value := "x" } [],
      .mk ScalarNode { Tag := "!!str", Value := "b" } [],
      .mk ScalarNode { Tag := "!!str", Value := "y" } [] ] 2 rfl rfl⟩

end yqlib

/-! ## The round trip through `UnmarshalYAML` and `MarshalYAML` -/

namespace yqlib

open yaml

/-- What a style becomes on the way through `MapYamlStyle` and back through
`MapToYamlStyle`. -/
theorem copy_round_trip (t : StyleConstants) (fields : Fields) :
    copyToYamlNode t (copyFromYamlNode t fields)
      = { fields with Style := MapToYamlStyle t (MapYamlStyle t fields.Style) } := rfl

/-- The new child does not depend on the receiver. -/
theorem decodeIntoChild_receiver (t : StyleConstants)
    (Decode : NodeTree → CandidateNode → Result CandidateNode) (o o1 : CandidateNode)
    (childNode : NodeTree) :
    decodeIntoChild t Decode o childNode = decodeIntoChild t Decode o1 childNode := rfl

/-- When `Decode` returns without error on a child, so does `decodeIntoChild`;
on a child tagged `!!null` it does so without `Decode`. -/
theorem decodeIntoChild_ok (t : StyleConstants)
    (Decode : NodeTree → CandidateNode → Result CandidateNode) (o : CandidateNode)
    (childNode : NodeTree)
    (hdec : childNode.fields.Tag ≠ "!!null" →
      ∀ newChild, ∃ c, Decode childNode newChild = .ok c) :
    ∃ d, decodeIntoChild t Decode o childNode = .ok d := by
  by_cases htag : childNode.fields.Tag = "!!null"
  · exact ⟨((CreateChild o).setKind .ScalarNode).setFields
      (copyFromYamlNode t childNode.fields), by simp [decodeIntoChild, htag]⟩
  · obtain ⟨c, hc⟩ := hdec htag (CreateChild o)
    exact ⟨c, by simp [decodeIntoChild, htag, hc]⟩

/-- The Mapping loop on a content of even length whose children decode: it
returns one candidate per child, in order, each the decoded child with at most
its map-key flag or its key reference set. -/
theorem unmarshalMappingContent_total (t : StyleConstants)
    (Decode : NodeTree → CandidateNode → Result CandidateNode) (o : CandidateNode) :
    ∀ (l : List NodeTree), l.length % 2 = 0 →
    (∀ child ∈ l, child.fields.Tag ≠ "!!null" →
      ∀ newChild, ∃ c, Decode child newChild = .ok c) →
    ∃ cs, unmarshalMappingContent t Decode o l = .ok cs
      ∧ cs.length = l.length
      ∧ ∀ (i : Nat) child, l[i]? = some child →
          ∃ d ci, decodeIntoChild t Decode o child = .ok d ∧ cs[i]? = some ci
            ∧ (ci = d ∨ ci = d.setIsMapKey true ∨ ∃ k, ci = d.setKey k)
  | [], _, _ => ⟨[], rfl, rfl, fun i child hi => by simp at hi⟩
  | [_], hev, _ => by simp at hev
  | key :: value :: rest, hev, hdec => by
    obtain ⟨dk, hk⟩ := decodeIntoChild_ok t Decode o key (hdec key (by simp))
    obtain ⟨dv, hv⟩ := decodeIntoChild_ok t Decode o value (hdec value (by simp))
    obtain ⟨cs, hcs, hlen, hrel⟩ := unmarshalMappingContent_total t Decode o rest
      (by simp at hev; omega) (fun child hc => hdec child (by simp [hc]))
    refine ⟨dk.setIsMapKey true :: dv.setKey (dk.setIsMapKey true) :: cs, ?_, by simp [hlen], ?_⟩
    · simp only [unmarshalMappingContent, hk, hv, hcs, Result.bind]
    · intro i child hi
      match i, hi with
      | 0, hi =>
        simp only [List.getElem?_cons_zero, Option.some.injEq] at hi
        subst hi
        exact ⟨dk, dk.setIsMapKey true, hk, by simp, Or.inr (Or.inl rfl)⟩
      | 1, hi =>
        simp only [List.getElem?_cons_succ, List.getElem?_cons_zero, Option.some.injEq] at hi
        subst hi
        exact ⟨dv, dv.setKey (dk.setIsMapKey true), hv, by simp,
          Or.inr (Or.inr ⟨dk.setIsMapKey true, rfl⟩)⟩
      | j + 2, hi =>
        simp only [List.getElem?_cons_succ] at hi
        obtain ⟨d, ci, hd, hci, hrel2⟩ := hrel j child hi
        exact ⟨d, ci, hd, by simpa using hci, hrel2⟩

/-- The Sequence loop on a content whose children decode: it returns one
candidate per child, in order, each the decoded child with its key reference
set. -/
theorem unmarshalSequenceContent_total (t : StyleConstants)
    (Decode : NodeTree → CandidateNode → Result CandidateNode) (o : CandidateNode) :
    ∀ (l : List NodeTree) (start : Nat),
    (∀ child ∈ l, child.fields.Tag ≠ "!!null" →
      ∀ newChild, ∃ c, Decode child newChild = .ok c) →
    ∃ cs, unmarshalSequenceContent t Decode o start l = .ok cs
      ∧ cs.length = l.length
      ∧ ∀ (i : Nat) child, l[i]? = some child →
          ∃ d ci, decodeIntoChild t Decode o child = .ok d ∧ cs[i]? = some ci
            ∧ (ci = d ∨ ci = d.setIsMapKey true ∨ ∃ k, ci = d.setKey k)
  | [], _, _ => ⟨[], rfl, rfl, fun i child hi => by simp at hi⟩
  | first :: rest, start, hdec => by
    obtain ⟨d0, h0⟩ := decodeIntoChild_ok t Decode o first (hdec first (by simp))
    obtain ⟨cs, hcs, hlen, hrel⟩ := unmarshalSequenceContent_total t Decode o rest (start + 1)
      (fun child hc => hdec child (by simp [hc]))
    refine ⟨d0.setKey ((((CreateChild o).setIsMapKey true).setFields
        { (CreateChild o).fields with Tag := "!!int", Value := toString start }).setKind
          .ScalarNode) :: cs,
      by simp only [unmarshalSequenceContent, h0, hcs, Result.bind], by simp [hlen], ?_⟩
    intro i child hi
    match i, hi with
    | 0, hi =>
      simp only [List.getElem?_cons_zero, Option.some.injEq] at hi
      subst hi
      exact ⟨d0, _, h0, List.getElem?_cons_zero, Or.inr (Or.inr ⟨_, rfl⟩)⟩
    | j + 1, hi =>
      simp only [List.getElem?_cons_succ] at hi
      obtain ⟨d, ci, hd, hci, hrel2⟩ := hrel j child hi
      exact ⟨d, ci, hd, by simpa using hci, hrel2⟩

/-- When `Encode` returns without error on each child, the loop of
`MarshalYAML` returns one node per child, in order: what `Encode` leaves for
that child. -/
theorem marshalContent_total (Encode : CandidateNode → Result NodeTree) :
    ∀ (cs : List CandidateNode), (∀ ci ∈ cs, ∃ mi, Encode ci = .ok mi) →
    ∃ ms, marshalContent Encode cs = .ok ms
      ∧ ms.length = cs.length
      ∧ ∀ (i : Nat) ci, cs[i]? = some ci → ∃ mi, Encode ci = .ok mi ∧ ms[i]? = some mi
  | [], _ => ⟨[], rfl, rfl, fun i ci hi => by simp at hi⟩
  | first :: rest, henc => by
    obtain ⟨m0, h0⟩ := henc first (by simp)
    obtain ⟨ms, hms, hlen, hrel⟩ := marshalContent_total Encode rest
      (fun ci hc => henc ci (by simp [hc]))
    refine ⟨m0 :: ms, by simp only [marshalContent, h0, hms, Result.bind], by simp [hlen], ?_⟩
    intro i ci hi
    match i, hi with
    | 0, hi =>
      simp only [List.getElem?_cons_zero, Option.some.injEq] at hi
      subst hi
      exact ⟨m0, h0, by simp⟩
    | j + 1, hi =>
      simp only [List.getElem?_cons_succ] at hi
      obtain ⟨mi, hmi, hget⟩ := hrel j ci hi
      exact ⟨mi, hmi, by simpa using hget⟩

/-- Counterexample to C18: a node whose kind is none of the constants meets
every premise of the claim, and `UnmarshalYAML` returns an error on it; a
Scalar node with a child meets them too, and comes back from `UnmarshalYAML`
and `MarshalYAML` without its child.  Neither call reaches yaml.v3. -/
theorem round_trip_fails_on_unlisted_shapes :
    examples.invalidKindNode.asClaimed = true
    ∧ (∀ Decode, UnmarshalYAML examples.yqStyles Decode CandidateNode.zero
        examples.invalidKindNode = .error "orderedMap: invalid yaml node")
    ∧ examples.scalarWithChild.asClaimed = true
    ∧ (∀ Decode Encode, ∃ c,
        UnmarshalYAML examples.yqStyles Decode CandidateNode.zero examples.scalarWithChild
          = .ok c
        ∧ MarshalYAML examples.yqStyles Encode c
          = .ok (.mk ScalarNode { Tag := "!!str", Value := "a" } []))
    ∧ examples.scalarWithChild.Content.length = 1
    ∧ (NodeTree.mk ScalarNode { Tag := "!!str", Value := "a" } []).Content.length = 0 :=
  ⟨rfl, fun _ => rfl, rfl, fun _ _ => ⟨_, rfl, rfl⟩, rfl, rfl⟩

/-- C18, amended. Take a yaml node that is a Document with exactly one child,
a Mapping with content of even length, a Sequence, or a Scalar or a node of
unset kind without children, and suppose that yaml.v3's `Decode` returns
without error on each child that is not tagged `!!null`.  Then `UnmarshalYAML`
on a fresh receiver succeeds, with one child per child of the node, in order.
If moreover yaml.v3's `Encode` returns without error on these children,
`MarshalYAML` of the result returns a node of the same kind with the same tag,
value, anchor, comments, line and column, the style
`MapToYamlStyle(MapYamlStyle(style))`, and as many children in the same order:
child `i` is what `Encode` leaves for the candidate that child `i` was decoded
into.  What `Decode` and `Encode` leave in a child is theirs to say. -/
theorem unmarshal_marshal_round_trip (t : StyleConstants)
    (Decode : NodeTree → CandidateNode → Result CandidateNode)
    (Encode : CandidateNode → Result NodeTree)
    (kind : yaml.Kind) (fields : Fields) (content : List NodeTree)
    (hkind : kind = DocumentNode ∨ kind = SequenceNode ∨ kind = MappingNode
      ∨ kind = ScalarNode ∨ kind = 0)
    (hmap : kind = MappingNode → content.length % 2 = 0)
    (hdoc : kind = DocumentNode → content.length = 1)
    (hleaf : kind = ScalarNode ∨ kind = 0 → content = [])
    (hdec : ∀ child ∈ content, child.fields.Tag ≠ "!!null" →
      ∀ newChild, ∃ c, Decode child newChild = .ok c) :
    ∃ c, UnmarshalYAML t Decode CandidateNode.zero (.mk kind fields content) = .ok c
      ∧ c.Content.length = content.length
      ∧ (∀ (i : Nat) child, content[i]? = some child →
          ∃ d ci, decodeIntoChild t Decode CandidateNode.zero child = .ok d
            ∧ c.Content[i]? = some ci
            ∧ (ci = d ∨ ci = d.setIsMapKey true ∨ ∃ k, ci = d.setKey k))
      ∧ ((∀ ci ∈ c.Content, ∃ mi, Encode ci = .ok mi) →
          ∃ m, MarshalYAML t Encode c = .ok m
            ∧ m.Kind = kind
            ∧ m.fields = { fields with Style := MapToYamlStyle t (MapYamlStyle t fields.Style) }
            ∧ m.Content.length = content.length
            ∧ ∀ (i : Nat) ci, c.Content[i]? = some ci →
                ∃ mi, Encode ci = .ok mi ∧ m.Content[i]? = some mi) := by
  rcases hkind with hk | hk | hk | hk | hk
  · -- Document
    subst hk
    have hlen := hdoc rfl
    match content, hlen, hdec with
    | [child], _, hdec =>
      obtain ⟨d, hd⟩ := decodeIntoChild_ok t Decode CandidateNode.zero child
        (hdec child (by simp))
      refine ⟨.mk .DocumentNode (copyFromYamlNode t fields) false none [d], ?_, rfl, ?_, ?_⟩
      · have hd1 := hd
        rw [decodeIntoChild_receiver t Decode CandidateNode.zero
          ((CandidateNode.zero.setKind .DocumentNode).setFields (copyFromYamlNode t fields))]
          at hd1
        simp only [UnmarshalYAML, NodeTree.Kind, NodeTree.fields, NodeTree.Content,
          decodeFirstChild, hd1, Result.bind]
        simp [CandidateNode.zero, CandidateNode.setKind, CandidateNode.setFields,
          CandidateNode.setContent]
      · intro i c0 hi
        match i, hi with
        | 0, hi =>
          simp only [List.getElem?_cons_zero, Option.some.injEq] at hi
          subst hi
          exact ⟨d, d, hd, by simp [CandidateNode.Content], Or.inl rfl⟩
        | j + 1, hi => simp at hi
      · intro henc
        obtain ⟨mi, hmi⟩ := henc d (by simp [CandidateNode.Content])
        refine ⟨.mk DocumentNode (copyToYamlNode t (copyFromYamlNode t fields)) [mi], ?_, rfl,
          copy_round_trip t fields, rfl, ?_⟩
        · simp [MarshalYAML, CandidateNode.Kind, CandidateNode.Content, CandidateNode.fields,
            hmi, Result.bind]
        · intro i ci hi
          match i, hi with
          | 0, hi =>
            simp only [CandidateNode.Content, List.getElem?_cons_zero, Option.some.injEq] at hi
            subst hi
            exact ⟨mi, hmi, by simp [NodeTree.Content]⟩
          | j + 1, hi => simp [CandidateNode.Content] at hi
  · -- Sequence
    subst hk
    obtain ⟨cs, hcs, hlen, hrel⟩ := unmarshalSequenceContent_total t Decode
      ((CandidateNode.zero.setKind .SequenceNode).setFields (copyFromYamlNode t fields))
      content 0 hdec
    refine ⟨.mk .SequenceNode (copyFromYamlNode t fields) false none cs, ?_, hlen, ?_, ?_⟩
    · rw [UnmarshalYAML_sequence, hcs]
      rfl
    · intro i child hi
      exact hrel i child hi
    · intro henc
      obtain ⟨ms, hms, hmlen, hmrel⟩ := marshalContent_total Encode cs henc
      refine ⟨.mk SequenceNode (copyToYamlNode t (copyFromYamlNode t fields)) ms, ?_, rfl,
        copy_round_trip t fields, by simp [NodeTree.Content, hmlen, hlen], hmrel⟩
      simp [MarshalYAML, CandidateNode.Kind, CandidateNode.Content, CandidateNode.fields,
        hms, Result.bind]
  · -- Mapping
    subst hk
    obtain ⟨cs, hcs, hlen, hrel⟩ := unmarshalMappingContent_total t Decode
      ((CandidateNode.zero.setKind .MappingNode).setFields (copyFromYamlNode t fields))
      content (hmap rfl) hdec
    refine ⟨.mk .MappingNode (copyFromYamlNode t fields) false none cs, ?_, hlen, ?_, ?_⟩
    · rw [UnmarshalYAML_mapping, hcs]
      rfl
    · intro i child hi
      exact hrel i child hi
    · intro henc
      obtain ⟨ms, hms, hmlen, hmrel⟩ := marshalContent_total Encode cs henc
      refine ⟨.mk MappingNode (copyToYamlNode t (copyFromYamlNode t fields)) ms, ?_, rfl,
        copy_round_trip t fields, by simp [NodeTree.Content, hmlen, hlen], hmrel⟩
      simp [MarshalYAML, CandidateNode.Kind, CandidateNode.Content, CandidateNode.fields,
        hms, Result.bind]
  · -- Scalar
    subst hk
    have hc := hleaf (Or.inl rfl)
    subst hc
    exact ⟨.mk .ScalarNode (copyFromYamlNode t fields) false none [], rfl, rfl,
      fun i child hi => by simp at hi,
      fun _ => ⟨.mk ScalarNode (copyToYamlNode t (copyFromYamlNode t fields)) [], rfl, rfl,
        copy_round_trip t fields, rfl, fun i ci hi => by simp [CandidateNode.Content] at hi⟩⟩
  · -- unset kind
    subst hk
    have hc := hleaf (Or.inr rfl)
    subst hc
    exact ⟨.mk .unset (copyFromYamlNode t fields) false none [], rfl, rfl,
      fun i child hi => by simp at hi,
      fun _ => ⟨.mk 0 (copyToYamlNode t (copyFromYamlNode t fields)) [], rfl, rfl,
        copy_round_trip t fields, rfl, fun i ci hi => by simp [CandidateNode.Content] at hi⟩⟩

/-- Witness for the amended C18: the mapping `{a: x, b: y}`, with a `Decode`
and an `Encode` that hand each scalar to `UnmarshalYAML` and `MarshalYAML`;
the mapping comes back as it was. -/
theorem unmarshal_marshal_round_trip_witness :
    (∃ c, UnmarshalYAML examples.yqStyles examples.scalarDecode CandidateNode.zero
          examples.sampleMapping = .ok c
        ∧ MarshalYAML examples.yqStyles examples.scalarEncode c = .ok examples.sampleMapping)
    ∧ ∃ c, UnmarshalYAML examples.yqStyles examples.scalarDecode CandidateNode.zero
        (.mk MappingNode { Tag := "!!map" } examples.sampleMapping.Content) = .ok c
      ∧ c.Content.length = examples.sampleMapping.Content.length
      ∧ (∀ (i : Nat) child, examples.sampleMapping.Content[i]? = some child →
          ∃ d ci,
            decodeIntoChild examples.yqStyles examples.scalarDecode CandidateNode.zero child
              = .ok d
            ∧ c.Content[i]? = some ci
            ∧ (ci = d ∨ ci = d.setIsMapKey true ∨ ∃ k, ci = d.setKey k))
      ∧ ((∀ ci ∈ c.Content, ∃ mi, examples.scalarEncode ci = .ok mi) →
          ∃ m, MarshalYAML examples.yqStyles examples.scalarEncode c = .ok m
            ∧ m.Kind = MappingNode
            ∧ m.fields = { ({ Tag := "!!map" } : Fields) with
                Style := MapToYamlStyle examples.yqStyles
                  (MapYamlStyle examples.yqStyles ({ Tag := "!!map" } : Fields).Style) }
            ∧ m.Content.length = examples.sampleMapping.Content.length
            ∧ ∀ (i : Nat) ci, c.Content[i]? = some ci →
                ∃ mi, examples.scalarEncode ci = .ok mi ∧ m.Content[i]? = some mi) :=
  ⟨⟨_, rfl, rfl⟩,
   unmarshal_marshal_round_trip examples.yqStyles examples.scalarDecode examples.scalarEncode
    MappingNode { Tag := "!!map" } examples.sampleMapping.Content
    (by decide) (fun _ => rfl) (fun h => absurd h (by decide))
    (fun h => absurd h (by decide))
    (fun child hc _ newChild => by
      simp only [examples.sampleMapping, NodeTree.Content, List.mem_cons, List.mem_singleton,
        List.not_mem_nil, or_false] at hc
      rcases hc with rfl | rfl | rfl | rfl <;> exact ⟨_, rfl⟩)⟩

end yqlib

/-! ## Union and de-duplication -/

namespace treeops

open yaml

theorem dedupByNode_sublist : ∀ (l : List CandidateNode), (dedupByNode l).Sublist l
  | [] => List.Sublist.slnil
  | c :: rest => by
    simp only [dedupByNode]
    exact List.Sublist.cons₂ c ((List.filter_sublist _).trans (dedupByNode_sublist rest))

theorem dedupByNode_nodup : ∀ (l : List CandidateNode),
    ((dedupByNode l).map (fun c => c.Node)).Nodup
  | [] => by simp [dedupByNode]
  | c :: rest => by
    simp only [dedupByNode, List.map_cons, List.nodup_cons]
    refine ⟨?_, ?_⟩
    · intro hmem
      obtain ⟨d, hd, hnode⟩ := List.mem_map.mp hmem
      have := (List.mem_filter.mp hd).2
      simp [hnode] at this
    · exact ((dedupByNode_nodup rest).sublist ((List.filter_sublist _).map _))

theorem dedupByNode_first : ∀ (l : List CandidateNode), ∀ c ∈ dedupByNode l,
    l.find? (fun d => d.Node == c.Node) = some c
  | [], c, hc => by simp [dedupByNode] at hc
  | a :: rest, c, hc => by
    simp only [dedupByNode, List.mem_cons] at hc
    rcases hc with hc | hc
    · subst hc
      simp
    · obtain ⟨hmem, hne⟩ := List.mem_filter.mp hc
      have hne2 : (a.Node == c.Node) = false := by
        simp only [bne_iff_ne, ne_eq] at hne
        simpa using fun e => hne e.symm
      rw [List.find?_cons, hne2]
      exact dedupByNode_first rest c hmem

theorem dedupByNode_complete : ∀ (l : List CandidateNode), ∀ c ∈ l,
    ∃ d ∈ dedupByNode l, d.Node = c.Node
  | [], c, hc => by simp at hc
  | a :: rest, c, hc => by
    simp only [List.mem_cons] at hc
    rcases hc with hc | hc
    · exact ⟨a, by simp [dedupByNode], by rw [hc]⟩
    · obtain ⟨d, hd, hnode⟩ := dedupByNode_complete rest c hc
      by_cases hda : d.Node = a.Node
      · exact ⟨a, by simp [dedupByNode], by rw [← hda, hnode]⟩
      · refine ⟨d, ?_, hnode⟩
        simp only [dedupByNode, List.mem_cons]
        exact Or.inr (List.mem_filter.mpr ⟨hd, by simpa using hda⟩)

theorem dedupByNode_append : ∀ (xs ys : List CandidateNode),
    dedupByNode (xs ++ ys)
      = dedupByNode xs
        ++ (dedupByNode ys).filter (fun d => decide (d.Node ∉ xs.map (fun c => c.Node)))
  | [], ys => by simp [dedupByNode]
  | a :: xs, ys => by
    have ih := dedupByNode_append xs ys
    show dedupByNode (a :: (xs ++ ys)) = _
    rw [dedupByNode, ih, List.filter_append, List.filter_filter, dedupByNode, List.cons_append]
    congr 2
    apply List.filter_congr
    intro d _
    by_cases hda : d.Node = a.Node <;> simp [hda]

theorem dedupByNode_append_self (xs : List CandidateNode) :
    dedupByNode (xs ++ xs) = dedupByNode xs := by
  rw [dedupByNode_append]
  have hnil : (dedupByNode xs).filter (fun d => decide (d.Node ∉ xs.map (fun c => c.Node)))
      = [] := by
    rw [List.filter_eq_nil_iff]
    intro d hd
    have hmem : d ∈ xs := (dedupByNode_sublist xs).subset hd
    simp only [decide_eq_true_eq, not_not]
    exact List.mem_map.mpr ⟨d, hmem, rfl⟩
  rw [hnil, List.append_nil]

theorem dedupByNode_of_nodup : ∀ (xs : List CandidateNode),
    (xs.map (fun c => c.Node)).Nodup → dedupByNode xs = xs
  | [], _ => rfl
  | a :: rest, hnd => by
    simp only [List.map_cons, List.nodup_cons] at hnd
    simp only [dedupByNode, dedupByNode_of_nodup rest hnd.2]
    congr 1
    rw [List.filter_eq_self]
    intro d hd
    simp only [bne_iff_ne, ne_eq]
    intro hda
    exact hnd.1 (List.mem_map.mpr ⟨d, hd, hda⟩)

/-- Counterexample to C20.  On the input set that lists the root of
`[apple, sdfsd, apple]` twice, the splat alone yields six candidates, each
element twice, while the splat united with itself yields the three elements
once.  And on the root listed once, `X = ([] or 5)` alone yields the elements
0, 1, 2 and the new element 5, four distinct nodes, while `X or X` yields six
candidates: the second evaluation of `X` sees the sequence as the first one
extended it. -/
theorem union_with_itself_differs_from_operand :
    evaluate Match (fun _ => false) 1 examples.fruitHeap [examples.atRoot, examples.atRoot]
        (.selector examples.splat)
      = some (examples.fruitHeap,
          .ok [{ Node := 1, Path := [.int 0], Document := 0 },
               { Node := 2, Path := [.int 1], Document := 0 },
               { Node := 3, Path := [.int 2], Document := 0 },
               { Node := 1, Path := [.int 0], Document := 0 },
               { Node := 2, Path := [.int 1], Document := 0 },
               { Node := 3, Path := [.int 2], Document := 0 }])
    ∧ evaluate Match (fun _ => false) 1 examples.fruitHeap [examples.atRoot, examples.atRoot]
        (.union (.selector examples.splat) (.selector examples.splat))
      = some (examples.fruitHeap,
          .ok [{ Node := 1, Path := [.int 0], Document := 0 },
               { Node := 2, Path := [.int 1], Document := 0 },
               { Node := 3, Path := [.int 2], Document := 0 }])
    ∧ evaluate Match (fun _ => false) 1 examples.fruitHeap [examples.atRoot]
        (.union (.selector examples.splat) (.selector (examples.indexSel 5)))
      = some (examples.extendedFruitHeap,
          .ok [{ Node := 1, Path := [.int 0], Document := 0 },
               { Node := 2, Path := [.int 1], Document := 0 },
               { Node := 3, Path := [.int 2], Document := 0 },
               { Node := 6, Path := [.int64 5], Document := 0 }])
    ∧ evaluate Match (fun _ => false) 1 examples.fruitHeap [examples.atRoot]
        (.union (.union (.selector examples.splat) (.selector (examples.indexSel 5)))
          (.union (.selector examples.splat) (.selector (examples.indexSel 5))))
      = some (examples.extendedFruitHeap,
          .ok [{ Node := 1, Path := [.int 0], Document := 0 },
               { Node := 2, Path := [.int 1], Document := 0 },
               { Node := 3, Path := [.int 2], Document := 0 },
               { Node := 6, Path := [.int64 5], Document := 0 },
               { Node := 4, Path := [.int 3], Document := 0 },
               { Node := 5, Path := [.int 4], Document := 0 }]) := by
  refine ⟨by decide, by decide, by decide, by decide⟩

/-- C20, amended.  A union whose operands evaluate to `ls` and `rs` yields the
concatenation `ls ++ rs` with every later candidate of an already seen node
dropped: no two candidates of the result have the same underlying node, the
result keeps the first occurrence of each node in first-seen order and loses
no node.  And for every expression `X` whose evaluation on the input leaves
the document as it was (nothing auto-created), `X or X` yields the result of
`X` with its later duplicates removed, which is the same sequence as `X` alone
when no two candidates of that result have the same underlying node. -/
theorem union_deduplicates_by_node (Match : String → String → Bool)
    (spare : CandidateNode → Bool) (depth : Nat)
    (h hL hR : Heap) (input ls rs : List CandidateNode) (L R : PathTree)
    (hleft : evaluate Match spare depth h input L = some (hL, .ok ls))
    (hright : evaluate Match spare depth hL input R = some (hR, .ok rs)) :
    (∃ us, evaluate Match spare depth h input (.union L R) = some (hR, .ok us)
      ∧ (us.map (fun c => c.Node)).Nodup
      ∧ us.Sublist (ls ++ rs)
      ∧ (∀ c ∈ us, (ls ++ rs).find? (fun d => d.Node == c.Node) = some c)
      ∧ (∀ c ∈ ls ++ rs, ∃ d ∈ us, d.Node = c.Node))
    ∧ ∀ (X : PathTree) (h0 : Heap) (xs : List CandidateNode),
        evaluate Match spare depth h0 input X = some (h0, .ok xs) →
        evaluate Match spare depth h0 input (.union X X) = some (h0, .ok (dedupByNode xs))
        ∧ ((xs.map (fun c => c.Node)).Nodup →
            evaluate Match spare depth h0 input (.union X X) = some (h0, .ok xs)) := by
  refine ⟨⟨dedupByNode (ls ++ rs), ?_, dedupByNode_nodup _, dedupByNode_sublist _,
    dedupByNode_first _, dedupByNode_complete _⟩, ?_⟩
  · rw [evaluate, hleft]
    simp only [hright]
  · intro X h0 xs hX
    have hunion : evaluate Match spare depth h0 input (.union X X)
        = some (h0, .ok (dedupByNode xs)) := by
      rw [evaluate, hX]
      simp only [hX, dedupByNode_append_self]
    refine ⟨hunion, fun hnd => ?_⟩
    rw [hunion, dedupByNode_of_nodup xs hnd]

/-- Witness for the amended C20: `a.(cat or cat)` on
`a: {cat: apple, mad: things}` yields the single candidate at path `[a cat]`. -/
theorem union_deduplicates_by_node_witness :
    (∃ us, evaluate Match (fun _ => false) 1 examples.wildHeap [examples.atA]
        (.union (.selector examples.literalCat) (.selector examples.literalCat))
        = some (examples.wildHeap, .ok us)
      ∧ (us.map (fun c => c.Node)).Nodup
      ∧ us.Sublist ([examples.catCandidate] ++ [examples.catCandidate])
      ∧ (∀ c ∈ us, ([examples.catCandidate] ++ [examples.catCandidate]).find?
            (fun d => d.Node == c.Node) = some c)
      ∧ (∀ c ∈ [examples.catCandidate] ++ [examples.catCandidate], ∃ d ∈ us, d.Node = c.Node))
    ∧ ∀ (X : PathTree) (h0 : Heap) (xs : List CandidateNode),
        evaluate Match (fun _ => false) 1 h0 [examples.atA] X = some (h0, .ok xs) →
        evaluate Match (fun _ => false) 1 h0 [examples.atA] (.union X X)
          = some (h0, .ok (dedupByNode xs))
        ∧ ((xs.map (fun c => c.Node)).Nodup →
            evaluate Match (fun _ => false) 1 h0 [examples.atA] (.union X X)
              = some (h0, .ok xs)) :=
  union_deduplicates_by_node Match (fun _ => false) 1 examples.wildHeap examples.wildHeap
    examples.wildHeap [examples.atA] [examples.catCandidate] [examples.catCandidate]
    (.selector examples.literalCat) (.selector examples.literalCat) (by decide) (by decide)

end treeops

/-! ## Null children and empty documents -/

namespace yqlib

open yaml

/-- What `decodeIntoChild` returns on a yaml node tagged `!!null`: with a nil
error, the new child of the receiver with its kind set to Scalar and the fields
of `copyFromYamlNode`, that is tag, value, anchor, the three comments, line and
column of the yaml node, and `MapYamlStyle` of its style.  yaml.v3's `Decode`
plays no part: the result is the same for every `Decode`. -/
theorem decodeIntoChild_null_copies_scalar (t : StyleConstants)
    (Decode : NodeTree → CandidateNode → Result CandidateNode) (o : CandidateNode)
    (childNode : NodeTree) (htag : childNode.fields.Tag = "!!null") :
    ∃ newChild, decodeIntoChild t Decode o childNode = .ok newChild
      ∧ newChild
          = ((CreateChild o).setKind .ScalarNode).setFields (copyFromYamlNode t childNode.fields)
      ∧ newChild.Kind = .ScalarNode
      ∧ newChild.fields.Style = MapYamlStyle t childNode.fields.Style
      ∧ newChild.fields.Tag = childNode.fields.Tag
      ∧ newChild.fields.Value = childNode.fields.Value
      ∧ newChild.fields.Anchor = childNode.fields.Anchor
      ∧ newChild.fields.HeadComment = childNode.fields.HeadComment
      ∧ newChild.fields.LineComment = childNode.fields.LineComment
      ∧ newChild.fields.FootComment = childNode.fields.FootComment
      ∧ newChild.fields.Line = childNode.fields.Line
      ∧ newChild.fields.Column = childNode.fields.Column := by
  refine ⟨_, by simp [decodeIntoChild, htag], rfl, ?_⟩
  cases hc : CreateChild o
  simp [CandidateNode.setKind, CandidateNode.setFields, CandidateNode.Kind,
    CandidateNode.fields, copyFromYamlNode]

/-- An instance: the null `~`, with a `Decode` that panics. -/
theorem decodeIntoChild_null_copies_scalar_witness :
    ∃ newChild,
      decodeIntoChild examples.yqStyles (fun _ _ => .panic) CandidateNode.zero
          examples.nullScalar
        = .ok newChild
      ∧ newChild
          = ((CreateChild CandidateNode.zero).setKind .ScalarNode).setFields
              (copyFromYamlNode examples.yqStyles examples.nullScalar.fields)
      ∧ newChild.Kind = .ScalarNode
      ∧ newChild.fields.Style = MapYamlStyle examples.yqStyles examples.nullScalar.fields.Style
      ∧ newChild.fields.Tag = examples.nullScalar.fields.Tag
      ∧ newChild.fields.Value = examples.nullScalar.fields.Value
      ∧ newChild.fields.Anchor = examples.nullScalar.fields.Anchor
      ∧ newChild.fields.HeadComment = examples.nullScalar.fields.HeadComment
      ∧ newChild.fields.LineComment = examples.nullScalar.fields.LineComment
      ∧ newChild.fields.FootComment = examples.nullScalar.fields.FootComment
      ∧ newChild.fields.Line = examples.nullScalar.fields.Line
      ∧ newChild.fields.Column = examples.nullScalar.fields.Column :=
  decodeIntoChild_null_copies_scalar examples.yqStyles (fun _ _ => .panic) CandidateNode.zero
    examples.nullScalar rfl

/-- Evaluation for C21 at the failing input: the scalar `!!null "~"`, whose
style is `TaggedStyle | DoubleQuotedStyle = 3`.  Whatever the style constants
and `Decode` are, `decodeIntoChild` returns a Scalar child with the tag, value,
line and column of the yaml node but with style 0, from which `MapToYamlStyle`
does not give the style of the yaml node back: the style is not copied. -/
theorem null_child_loses_combined_style :
    examples.taggedNullScalar.fields.Tag = "!!null"
    ∧ examples.taggedNullScalar.fields.Style = 3
    ∧ ∀ (t : StyleConstants) (Decode : NodeTree → CandidateNode → Result CandidateNode)
        (o : CandidateNode),
        ∃ newChild, decodeIntoChild t Decode o examples.taggedNullScalar = .ok newChild
          ∧ newChild.Kind = .ScalarNode
          ∧ newChild.fields.Tag = "!!null"
          ∧ newChild.fields.Value = "~"
          ∧ newChild.fields.Line = 1
          ∧ newChild.fields.Column = 4
          ∧ newChild.fields.Style = 0
          ∧ MapToYamlStyle t newChild.fields.Style ≠ examples.taggedNullScalar.fields.Style := by
  refine ⟨rfl, by decide, fun t Decode o => ?_⟩
  have hstyle : MapYamlStyle t examples.taggedNullScalar.fields.Style = 0 := by
    have h3 : examples.taggedNullScalar.fields.Style = 3 := by decide
    rw [h3]
    simp [MapYamlStyle, TaggedStyle, DoubleQuotedStyle, SingleQuotedStyle, LiteralStyle,
      FoldedStyle, FlowStyle]
  obtain ⟨newChild, hres, _, hkind, hst, htag, hval, _, _, _, _, hline, hcol⟩ :=
    decodeIntoChild_null_copies_scalar t Decode o examples.taggedNullScalar rfl
  refine ⟨newChild, hres, hkind, by rw [htag]; rfl, by rw [hval]; rfl, by rw [hline]; rfl,
    by rw [hcol]; rfl, by rw [hst, hstyle], ?_⟩
  rw [hst, hstyle]
  have h3 : examples.taggedNullScalar.fields.Style = 3 := by decide
  rw [h3]
  unfold MapToYamlStyle
  split_ifs <;> decide

/-- Evaluation for C24 at the failing input: on a Document node with no
children `UnmarshalYAML` returns, with a nil error, a Document candidate whose
content is empty, and `MarshalYAML` of that candidate panics at `o.Content[0]`,
whatever the style constants are and before yaml.v3 is reached. -/
theorem marshal_panics_on_empty_document :
    examples.emptyDocument.Kind = DocumentNode
    ∧ examples.emptyDocument.Content = []
    ∧ (∀ (t : StyleConstants) (Decode : NodeTree → CandidateNode → Result CandidateNode)
        (Encode : CandidateNode → Result NodeTree), ∃ c,
        UnmarshalYAML t Decode CandidateNode.zero examples.emptyDocument = .ok c
        ∧ c.Kind = .DocumentNode
        ∧ c.Content = []
        ∧ MarshalYAML t Encode c = .panic) :=
  ⟨rfl, rfl, fun _ _ _ => ⟨_, rfl, rfl, rfl, rfl⟩⟩

end yqlib

/-! ## Failed and repeated index traversals -/

namespace treeops

open yaml

/-- C22. A call of `Traverse` on a Sequence that returns an error leaves the
heap as it was: the sequence has the content it had before the call, and no
placeholder was allocated.  The selector is then an index below minus the
length. -/
theorem traverse_sequence_error_is_atomic (Match : String → String → Bool) (spare : Bool)
    (depth : Nat)
    (h : Heap) (c : CandidateNode) (s : PathElement) (node : Node) (h1 : Heap) (msg : String)
    (hnode : h.deref c.Node = some node) (hkind : node.Kind = SequenceNode)
    (hres : Traverse Match spare depth h c s = some (h1, .error msg)) :
    h1 = h
    ∧ h1.deref c.Node = some node
    ∧ ∃ i, s.Value = .int64 i ∧ i < -(node.Content.length : Int) := by
  cases depth with
  | zero => simp [Traverse] at hres
  | succ depth =>
    rw [Traverse_sequence Match spare depth h c s node hnode hkind] at hres
    have hres2 : traverseArray spare h c s = (h1, .error msg) := Option.some.inj hres
    by_cases hs : isSplat s = true
    · simp [traverseArray, hnode, hs] at hres2
    · cases hv : s.Value with
      | int64 i =>
        by_cases hhi : i < (node.Content.length : Int)
        · rw [traverseArray_below spare h c s node i hnode hv hhi] at hres2
          by_cases hneg : (if i < 0 then (node.Content.length : Int) + i else i) < 0
          · rw [if_pos hneg] at hres2
            have hh : h = h1 := (Prod.mk.inj hres2).1
            subst hh
            refine ⟨rfl, hnode, i, rfl, ?_⟩
            split_ifs at hneg <;> omega
          · rw [if_neg hneg] at hres2
            cases hget : node.Content[(if i < 0 then (node.Content.length : Int) + i
                else i).toNat]? with
            | none => simp [hget] at hres2
            | some p => simp [hget] at hres2
        · rw [traverseArray_extend spare h c s node i hnode hv (by omega)] at hres2
          simp at hres2
      | str _ => simp [traverseArray, hnode, hs, hv] at hres2
      | int _ => simp [traverseArray, hnode, hs, hv] at hres2
      | other => simp [traverseArray, hnode, hs, hv] at hres2

/-- Witness for C22: index `-4` on `[apple, sdfsd, apple]`. -/
theorem traverse_sequence_error_is_atomic_witness :
    Traverse Match false 1 examples.fruitHeap examples.atRoot (examples.indexSel (-4))
        = some (examples.fruitHeap, .error "Index [-4] out of range, array size is 3")
    ∧ examples.fruitHeap = examples.fruitHeap
    ∧ examples.fruitHeap.deref examples.atRoot.Node
        = some { Kind := SequenceNode, Tag := "!!seq", Content := [1, 2, 3] }
    ∧ ∃ i, (examples.indexSel (-4)).Value = .int64 i
        ∧ i < -(((3 : Nat) : Int)) :=
  ⟨by decide,
   traverse_sequence_error_is_atomic Match false 1 examples.fruitHeap examples.atRoot
    (examples.indexSel (-4)) { Kind := SequenceNode, Tag := "!!seq", Content := [1, 2, 3] }
    examples.fruitHeap "Index [-4] out of range, array size is 3"
    (by decide) (by decide) (by decide)⟩

/-- C23. A call of `Traverse` with an index on a Sequence that returns
candidates can be repeated at once: on the heap the first call left, the
second call returns the same list of candidates (same node, same path, same
document index) and leaves that heap as it is, so the content of the sequence
does not change again. -/
theorem traverse_sequence_index_idempotent (Match : String → String → Bool) (spare : Bool)
    (depth : Nat)
    (h : Heap) (c : CandidateNode) (s : PathElement) (node : Node) (i : Int) (h1 : Heap)
    (rs : List CandidateNode)
    (hnode : h.deref c.Node = some node) (hkind : node.Kind = SequenceNode)
    (hsel : s.Value = .int64 i)
    (hres : Traverse Match spare depth h c s = some (h1, .ok rs)) :
    Traverse Match spare depth h1 c s = some (h1, .ok rs)
    ∧ ∃ node1, h1.deref c.Node = some node1 ∧ node1.Kind = SequenceNode
        ∧ node.Content <+: node1.Content := by
  cases depth with
  | zero => simp [Traverse] at hres
  | succ depth =>
    have hres0 := hres
    rw [Traverse_sequence Match spare depth h c s node hnode hkind] at hres
    have hres2 : traverseArray spare h c s = (h1, .ok rs) := Option.some.inj hres
    by_cases hhi : i < (node.Content.length : Int)
    · have hh : h1 = h := by
        rw [traverseArray_below spare h c s node i hnode hsel hhi] at hres2
        by_cases hneg : (if i < 0 then (node.Content.length : Int) + i else i) < 0
        · rw [if_pos hneg] at hres2
          simp at hres2
        · rw [if_neg hneg] at hres2
          cases hget : node.Content[(if i < 0 then (node.Content.length : Int) + i
              else i).toNat]? with
          | none => simp [hget] at hres2
          | some p =>
            simp only [hget] at hres2
            exact (Prod.mk.inj hres2).1.symm
      subst hh
      exact ⟨hres0, node, hnode, hkind, List.prefix_refl _⟩
    · have hp : c.Node < h.length := Heap.deref_lt hnode
      have hk : (node.Content.length : Int) ≤ i := by omega
      rw [traverseArray_extend spare h c s node i hnode hsel hk] at hres2
      obtain ⟨hh, hr⟩ := Prod.mk.inj hres2
      have hnode1 : h1.deref c.Node
          = some { node with
              Content := node.Content
                ++ List.range' h.length (i + 1 - (node.Content.length : Int)).toNat } := by
        rw [← hh]
        exact Heap.deref_write_same _ _ _ (by simp; omega)
      refine ⟨?_, _, hnode1, hkind, List.prefix_append _ _⟩
      have hget : (node.Content
          ++ List.range' h.length (i + 1 - (node.Content.length : Int)).toNat)[i.toNat]?
          = some (h.length + (i.toNat - node.Content.length)) := by
        rw [List.getElem?_append_right (by omega),
          List.getElem?_range' h.length 1 (by omega)]
        simp
      rw [Traverse_sequence Match spare depth h1 c s _ hnode1 hkind,
        traverseArray_below spare h1 c s _ i hnode1 hsel
          (by simp only [List.length_append, List.length_range']; omega)]
      have hi0 : ¬ i < 0 := by omega
      simp only [if_neg hi0, hget]
      rw [← Outcome.ok.inj hr]

/-- Witness for C23: index `5` on `[apple, sdfsd, apple]`, which the first
call extends to six elements. -/
theorem traverse_sequence_index_idempotent_witness :
    Traverse Match false 1 examples.fruitHeap examples.atRoot (examples.indexSel 5)
        = some (examples.extendedFruitHeap, .ok [{ Node := 6, Path := [.int64 5], Document := 0 }])
    ∧ Traverse Match false 1 examples.extendedFruitHeap examples.atRoot (examples.indexSel 5)
        = some (examples.extendedFruitHeap, .ok [{ Node := 6, Path := [.int64 5], Document := 0 }])
    ∧ ∃ node1, examples.extendedFruitHeap.deref examples.atRoot.Node = some node1
        ∧ node1.Kind = SequenceNode
        ∧ [1, 2, 3] <+: node1.Content :=
  ⟨by decide,
   traverse_sequence_index_idempotent Match false 1 examples.fruitHeap examples.atRoot
    (examples.indexSel 5) { Kind := SequenceNode, Tag := "!!seq", Content := [1, 2, 3] } 5
    examples.extendedFruitHeap [{ Node := 6, Path := [.int64 5], Document := 0 }]
    (by decide) (by decide) (by decide) (by decide)⟩

end treeops

/-! ## Totality on well-formed trees -/

namespace treeops

open yaml

/-- What `wellFormedTree` says about the node at the root of the tree. -/
theorem wellFormedTree_succ (s : PathElement) (height : Nat) (h : Heap) (p : Nat)
    (hw : wellFormedTree s (height + 1) h p = true) :
    ∃ node, h.deref p = some node
      ∧ (node.Kind = MappingNode ∨ (node.Kind = 0 ∧ guessKind s = MappingNode) →
          node.Content.length % 2 = 0)
      ∧ (node.Kind = DocumentNode → node.Content ≠ [])
      ∧ ∀ q ∈ node.Content, wellFormedTree s height h q = true := by
  cases hnode : h.deref p with
  | none => simp [wellFormedTree, hnode] at hw
  | some node =>
    simp only [wellFormedTree, hnode, Bool.and_eq_true, List.all_eq_true] at hw
    obtain ⟨⟨hmap, hdoc⟩, hall⟩ := hw
    refine ⟨node, rfl, ?_, ?_, hall⟩
    · intro hk
      rw [if_pos hk] at hmap
      exact of_decide_eq_true hmap
    · intro hk hc
      rw [if_pos hk, hc] at hdoc
      simp at hdoc

/-- The root of a well-formed tree resolves. -/
theorem wellFormedTree_resolves (s : PathElement) : ∀ (height : Nat) (h : Heap) (p : Nat),
    wellFormedTree s height h p = true → p < h.length
  | 0, _, _, hw => by simp [wellFormedTree] at hw
  | height + 1, h, p, hw => by
    obtain ⟨node, hnode, _⟩ := wellFormedTree_succ s height h p hw
    exact Heap.deref_lt hnode

/-- On a resolvable node, `traverseArray` with the splat or an `int64` index
returns candidates or its error: it does not panic. -/
theorem traverseArray_total (spare : Bool)
    (h : Heap) (c : CandidateNode) (s : PathElement) (node : Node)
    (hnode : h.deref c.Node = some node)
    (hsel : isSplat s = true ∨ ∃ i, s.Value = .int64 i) :
    (traverseArray spare h c s).2 ≠ .panic := by
  by_cases hs : isSplat s = true
  · simp [traverseArray, hnode, hs]
  · rcases hsel with hs1 | ⟨i, hv⟩
    · exact absurd hs1 hs
    · by_cases hhi : i < (node.Content.length : Int)
      · rw [traverseArray_below spare h c s node i hnode hv hhi]
        by_cases hneg : (if i < 0 then (node.Content.length : Int) + i else i) < 0
        · rw [if_pos hneg]
          simp
        · have hlt : (if i < 0 then (node.Content.length : Int) + i else i).toNat
              < node.Content.length := by
            split_ifs at hneg ⊢ <;> omega
          rw [if_neg hneg, List.getElem?_eq_getElem hlt]
          simp
      · rw [traverseArray_extend spare h c s node i hnode hv (by omega)]
        simp

/-- On a resolvable node whose content has even length and resolves,
`traverseMap` returns candidates: it does not panic. -/
theorem traverseMap_total (Match : String → String → Bool) (spare : Bool)
    (h : Heap) (c : CandidateNode)
    (s : PathElement) (node : Node) (hnode : h.deref c.Node = some node)
    (heven : node.Content.length % 2 = 0) (hres : ∀ p ∈ node.Content, p < h.length) :
    (traverseMap Match spare h c s).2 ≠ .panic := by
  simp only [traverseMap, hnode, traverseMapLoop_eq Match h c s node.Content [] heven hres]
  split_ifs <;> simp [Heap.alloc]

/-- On a well-formed tree of height at most `height`, under the splat or an
`int64` index, `Traverse` returns with every recursion bound from `height` on,
always the same heap and outcome, and the outcome is no panic. -/
theorem Traverse_total_aux (Match : String → String → Bool) (spare : Bool) (s : PathElement)
    (hsel : isSplat s = true ∨ ∃ i, s.Value = .int64 i) :
    ∀ (height : Nat) (h : Heap) (c : CandidateNode),
    wellFormedTree s height h c.Node = true →
    ∃ h1 out, out ≠ .panic
      ∧ ∀ depth, height ≤ depth → Traverse Match spare depth h c s = some (h1, out)
  | 0, _, _, hw => by simp [wellFormedTree] at hw
  | height + 1, h, c, hw => by
    obtain ⟨node, hnode, hmap, hdoc, hall⟩ := wellFormedTree_succ s height h c.Node hw
    have hp : c.Node < h.length := Heap.deref_lt hnode
    suffices hmain : ∃ h1 out, out ≠ Outcome.panic
        ∧ ∀ d, height ≤ d → Traverse Match spare (d + 1) h c s = some (h1, out) by
      obtain ⟨h1, out, hne, hd⟩ := hmain
      refine ⟨h1, out, hne, fun depth hle => ?_⟩
      cases depth with
      | zero => omega
      | succ d => exact hd d (by omega)
    have hres : ∀ (k : Kind) (q : Nat), q ∈ node.Content →
        q < (h.write c.Node { node with Kind := k }).length := by
      intro k q hq
      have hlt := wellFormedTree_resolves s height h q (hall q hq)
      simpa [Heap.write] using hlt
    by_cases h0 : node.Kind = 0
    · rcases guessKind_cases s with hg | hg
      · have hT : ∀ d, Traverse Match spare (d + 1) h c s
            = some (traverseArray spare (h.write c.Node { node with Kind := SequenceNode }) c s) := by
          intro d
          simp [Traverse, hnode, h0, hg, SequenceNode, MappingNode]
        exact ⟨(traverseArray spare (h.write c.Node { node with Kind := SequenceNode }) c s).1,
          (traverseArray spare (h.write c.Node { node with Kind := SequenceNode }) c s).2,
          traverseArray_total spare (h.write c.Node { node with Kind := SequenceNode }) c s
            { node with Kind := SequenceNode } (Heap.deref_write_same h c.Node _ hp) hsel,
          fun d _ => hT d⟩
      · have hT : ∀ d, Traverse Match spare (d + 1) h c s
            = some (traverseMap Match spare (h.write c.Node { node with Kind := MappingNode }) c s) := by
          intro d
          simp [Traverse, hnode, h0, hg, MappingNode]
        exact ⟨(traverseMap Match spare (h.write c.Node { node with Kind := MappingNode }) c s).1,
          (traverseMap Match spare (h.write c.Node { node with Kind := MappingNode }) c s).2,
          traverseMap_total Match spare (h.write c.Node { node with Kind := MappingNode }) c s
            { node with Kind := MappingNode } (Heap.deref_write_same h c.Node _ hp)
            (hmap (Or.inr ⟨h0, hg⟩)) (hres MappingNode),
          fun d _ => hT d⟩
    · by_cases h4 : node.Kind = MappingNode
      · refine ⟨_, _, traverseMap_total Match spare h c s node hnode (hmap (Or.inl h4)) ?_,
          fun d _ => Traverse_mapping Match spare d h c s node hnode h4⟩
        intro q hq
        exact wellFormedTree_resolves s height h q (hall q hq)
      · by_cases h2 : node.Kind = SequenceNode
        · exact ⟨_, _, traverseArray_total spare h c s node hnode hsel,
            fun d _ => Traverse_sequence Match spare d h c s node hnode h2⟩
        · by_cases hdk : node.Kind = DocumentNode
          · cases hc : node.Content with
            | nil => exact absurd hc (hdoc hdk)
            | cons root rest =>
              have hroot : wellFormedTree s height h root = true :=
                hall root (by rw [hc]; exact List.mem_cons_self _ _)
              obtain ⟨h1, out, hne, hd⟩ := Traverse_total_aux Match false s hsel height h
                { Node := root, Path := [], Document := c.Document } hroot
              refine ⟨h1, out, hne, fun d hle => ?_⟩
              rw [Traverse_document Match spare d h c s node root rest hnode hdk hc]
              exact hd d hle
          · exact ⟨h, .ok [], by simp,
              fun d _ => Traverse_leaf Match spare d h c s node hnode h0 h4 h2 hdk⟩

/-- Counterexample to C25: a node of unset kind with one child is a finite
tree without Mappings and Documents, so it meets the premises of the claim;
under the splat `Traverse` makes it a Mapping and panics at `contents[index+1]`,
one past the end of its content. -/
theorem unset_node_with_odd_content_panics :
    asClaimedTree 2 examples.unsetOddHeap examples.atRoot.Node = true
    ∧ isSplat examples.splat = true
    ∧ Traverse Match false 1 examples.unsetOddHeap examples.atRoot examples.splat
        = some ([ { Kind := MappingNode, Content := [1] },
                  { Kind := ScalarNode, Tag := "!!str", Value := "x" } ], .panic)
    ∧ ∀ depth, Traverse Match false (depth + 1) examples.unsetOddHeap examples.atRoot examples.splat
        = some ([ { Kind := MappingNode, Content := [1] },
                  { Kind := ScalarNode, Tag := "!!str", Value := "x" } ], .panic) := by
  refine ⟨by decide, by decide, by decide, fun depth => ?_⟩
  rfl

/-- C25, amended. `Traverse` is total on well-formed trees.  On a finite tree
in which every Mapping has content of even length, every node of unset kind
that the selector makes a Mapping has content of even length too, and every
Document has at least one child, and for a selector whose value is the splat or
an `int64` index, `Traverse` returns: with every recursion bound from the
height of the tree on it yields the same heap and the same outcome, which is a
list of candidates or the index error and never a panic (no index past the end
of a content list, no nil dereference, no failed type assertion).  The
extension loop ends wherever it runs: after the passes it makes, its guard
`contentLength <= index` is false. -/
theorem traverse_total_on_well_formed_trees (Match : String → String → Bool) (spare : Bool)
    (height : Nat)
    (h : Heap) (c : CandidateNode) (s : PathElement)
    (htree : wellFormedTree s height h c.Node = true)
    (hsel : isSplat s = true ∨ ∃ i, s.Value = .int64 i) :
    (∃ h1 out, out ≠ .panic
      ∧ ((∃ rs, out = .ok rs) ∨ ∃ msg, out = .error msg)
      ∧ ∀ depth, height ≤ depth → Traverse Match spare depth h c s = some (h1, out))
    ∧ ∀ (h0 : Heap) (p : Nat) (index : Int) (node : Node), h0.deref p = some node →
        ∃ node1,
          (extendLoop (index + 1 - (node.Content.length : Int)).toNat h0 p index).deref p
            = some node1
          ∧ ¬ (node1.Content.length : Int) ≤ index := by
  refine ⟨?_, fun h0 p index node hnode => ?_⟩
  · obtain ⟨h1, out, hne, hd⟩ := Traverse_total_aux Match spare s hsel height h c htree
    refine ⟨h1, out, hne, ?_, hd⟩
    cases out with
    | ok rs => exact Or.inl ⟨rs, rfl⟩
    | error msg => exact Or.inr ⟨msg, rfl⟩
    | panic => exact absurd rfl hne
  · obtain ⟨node1, h1, h2⟩ := extendLoop_exit h0 p index node hnode
    exact ⟨node1, h1, by omega⟩

/-- Witness for the amended C25: the splat on the Document node of
`a: {c: apple}`, a tree of height 4. -/
theorem traverse_total_on_well_formed_trees_witness :
    (∃ h1 out, out ≠ .panic
      ∧ ((∃ rs, out = .ok rs) ∨ ∃ msg, out = .error msg)
      ∧ ∀ depth, 4 ≤ depth →
          Traverse Match false depth examples.docHeap examples.atRoot examples.splat = some (h1, out))
    ∧ ∀ (h0 : Heap) (p : Nat) (index : Int) (node : Node), h0.deref p = some node →
        ∃ node1,
          (extendLoop (index + 1 - (node.Content.length : Int)).toNat h0 p index).deref p
            = some node1
          ∧ ¬ (node1.Content.length : Int) ≤ index :=
  traverse_total_on_well_formed_trees Match false 4 examples.docHeap examples.atRoot examples.splat
    (by decide) (Or.inl (by decide))

end treeops
